import Mathlib

/-!
Verification development for the `swarc` HNSW index (Rust).

The Rust sources under `src/` are shallowly embedded here:

* `f32` scalars are modelled by real numbers (`ℝ`); stored embedding
  coordinates are rationals (`ℚ`) — every `f32` value is a rational — and
  distances, which involve `sqrt`, live in `ℝ`.  IEEE rounding is idealised:
  the development reasons in exact arithmetic.
* `Vec<T>` is `List T`, `HashMap<String, usize>` is an association list with
  unique keys (`List (String × ℕ)`, first match wins on lookup).
* `rand`-drawn levels (`generate_level`) are oracle parameters: every
  operation that draws levels takes them as explicit arguments, and theorems
  quantify over them.
* Rust's `sort_by` is a stable sort; a stable sort under a total preorder has
  a unique output, modelled here by a stable insertion sort (`stableSort`).
* `&mut self` methods become functions `HNSWIndex T → args → HNSWIndex T × result`.
-/

namespace Swarc

/-- `types.rs`: the `DistanceMetric` enum. -/
inductive DistanceMetric : Type where
  | euclidean : DistanceMetric
  | cosine : DistanceMetric
deriving DecidableEq, Repr

/-- Sum of squared coordinate differences, `Σ (aᵢ − bᵢ)²` over the zipped lists
(the argument of `sqrt` in the Euclidean branch of `Distance::distance`). -/
def sqDiffSum (a b : List ℚ) : ℝ :=
  (((a.zip b).map fun p => ((p.1 : ℝ) - (p.2 : ℝ)) ^ 2)).sum

/-- Dot product `Σ aᵢ·bᵢ` over the zipped lists (cosine branch). -/
def dotSum (a b : List ℚ) : ℝ :=
  (((a.zip b).map fun p => (p.1 : ℝ) * (p.2 : ℝ))).sum

/-- Sum of squares of one vector (argument of `sqrt` in the norm computation). -/
def sqSum (a : List ℚ) : ℝ :=
  ((a.map fun x : ℚ => ((x : ℝ)) ^ 2)).sum

/-- `types.rs`, `impl Distance for DistanceMetric`: Euclidean is
`sqrt(Σ (aᵢ−bᵢ)²)`; cosine is `1 − a·b/(‖a‖‖b‖)` with result `0` when either
norm is exactly `0`. -/
noncomputable def DistanceMetric.distance (dm : DistanceMetric) (a b : List ℚ) : ℝ :=
  match dm with
  | .euclidean => Real.sqrt (sqDiffSum a b)
  | .cosine =>
      let norm_a := Real.sqrt (sqSum a)
      let norm_b := Real.sqrt (sqSum b)
      if norm_a = 0 ∨ norm_b = 0 then 0
      else 1 - dotSum a b / (norm_a * norm_b)

/-- `types.rs`: `Document<T>`. -/
structure Document (T : Type) : Type where
  id : String
  data : T
deriving DecidableEq, Repr

/-- `types.rs`: `HNSWNode<T>`. -/
structure HNSWNode (T : Type) : Type where
  id : String
  embedding : List ℚ
  document : Option (Document T)
  connections : List (List ℕ)
deriving DecidableEq, Repr

/-- `index.rs`: `HNSWIndex<T>`.  The `ml` field (`1/ln 2`, consumed only by the
randomised `generate_level`, which is an oracle here) is carried as data. -/
structure HNSWIndex (T : Type) : Type where
  nodes : List (HNSWNode T)
  node_id_to_index : List (String × ℕ)
  max_layers : ℕ
  m : ℕ
  m_max : ℕ
  ef_construction : ℕ
  ml : ℝ
  entry_point : Option ℕ
  distance_metric : DistanceMetric

/-- `index.rs`, `new_with_distance`:
`max_layers = (f32::ln(1000.0) / f32::ln(2.0)) as usize + 1`.  The `as usize`
cast truncates the positive float; the exact value `log 1000 / log 2 ≈ 9.97`
is far from the integers 9 and 10, so `f32` rounding cannot move the result
across the truncation boundary and `Nat.floor` of the exact quotient is a
faithful model. -/
noncomputable def maxLayersValue : ℕ :=
  Nat.floor (Real.log 1000 / Real.log 2) + 1

/-- `index.rs`: `HNSWIndex::new_with_distance`. The `_dim` parameter is
informational only, exactly as in the source. -/
noncomputable def HNSWIndex.new_with_distance (T : Type) (_dim : ℕ) (m : ℕ)
    (ef_construction : ℕ) (distance_metric : DistanceMetric) : HNSWIndex T where
  nodes := []
  node_id_to_index := []
  max_layers := maxLayersValue
  m := m
  m_max := m
  ef_construction := ef_construction
  ml := 1 / Real.log 2
  entry_point := none
  distance_metric := distance_metric

/-- `index.rs`: `HNSWIndex::new` (Euclidean default). -/
noncomputable def HNSWIndex.new (T : Type) (dim : ℕ) (m : ℕ) (ef_construction : ℕ) :
    HNSWIndex T :=
  HNSWIndex.new_with_distance T dim m ef_construction DistanceMetric.euclidean

/-- `index.rs`: `HNSWIndex::distance` delegates to the configured metric. -/
noncomputable def HNSWIndex.distance {T : Type} (idx : HNSWIndex T) (a b : List ℚ) : ℝ :=
  idx.distance_metric.distance a b

/-- `index.rs`: `HNSWIndex::len`. -/
def HNSWIndex.len {T : Type} (idx : HNSWIndex T) : ℕ :=
  idx.nodes.length

/-- `index.rs`: `HNSWIndex::is_empty`. -/
def HNSWIndex.is_empty {T : Type} (idx : HNSWIndex T) : Bool :=
  idx.nodes.isEmpty

/-- `index.rs`: `HNSWIndex::get_node`. -/
def HNSWIndex.get_node {T : Type} (idx : HNSWIndex T) (id : String) :
    Option (HNSWNode T) :=
  (idx.node_id_to_index.lookup id).bind fun i => idx.nodes.get? i

/-- `index.rs`: `HNSWIndex::get_all_ids`. -/
def HNSWIndex.get_all_ids {T : Type} (idx : HNSWIndex T) : List String :=
  idx.nodes.map fun node => node.id

/-- `remove.rs`: `HNSWIndex::contains`. -/
def HNSWIndex.contains {T : Type} (idx : HNSWIndex T) (id : String) : Bool :=
  (idx.node_id_to_index.lookup id).isSome

/-- `remove.rs`: `HNSWIndex::clear`. -/
def HNSWIndex.clear {T : Type} (idx : HNSWIndex T) : HNSWIndex T :=
  { idx with nodes := [], node_id_to_index := [], entry_point := none }

/-- The level of a stored node, `connections.len().saturating_sub(1)`
(`ℕ` subtraction is saturating). -/
def nodeLevel {T : Type} (node : HNSWNode T) : ℕ :=
  node.connections.length - 1

/-! ### Stable sort

Rust's `Vec::sort_by` is a stable sort.  A stable sort with respect to a total
preorder has a unique output, so any stable sorting algorithm is a faithful
model; we use stable insertion sort: each element is inserted *after* all
previously placed elements that compare `le` to it. -/

/-- Insert `x` into `l` after every element `y` with `le y x`. -/
def stableInsert {α : Type} (le : α → α → Bool) (x : α) : List α → List α
  | [] => [x]
  | y :: ys => if le y x then y :: stableInsert le x ys else x :: y :: ys

/-- Stable insertion sort with comparator `le`. -/
def stableSort {α : Type} (le : α → α → Bool) (l : List α) : List α :=
  l.foldl (fun acc x => stableInsert le x acc) []

/-- Comparator used for candidate lists: ascending by the `f32` distance
component (`a.1.partial_cmp(&b.1)`; `NaN` never arises in the real model). -/
noncomputable def leDist (a b : ℕ × ℝ) : Bool :=
  decide (a.2 ≤ b.2)

theorem stableInsert_perm {α : Type} (le : α → α → Bool) (x : α) (l : List α) :
    (stableInsert le x l).Perm (x :: l) := by
  induction l with
  | nil => simp [stableInsert]
  | cons y ys ih =>
      by_cases h : le y x = true
      · simpa [stableInsert, h] using
          ((ih.cons y).trans (List.Perm.swap x y ys))
      · simp [stableInsert, h]

theorem stableSort_perm {α : Type} (le : α → α → Bool) (l : List α) :
    (stableSort le l).Perm l := by
  suffices h : ∀ acc : List α,
      (l.foldl (fun acc x => stableInsert le x acc) acc).Perm (acc ++ l) by
    simpa [stableSort] using h []
  induction l with
  | nil => intro acc; simp
  | cons y ys ih =>
      intro acc
      simp only [List.foldl_cons]
      refine (ih (stableInsert le y acc)).trans ?_
      have h1 : (stableInsert le y acc ++ ys).Perm ((y :: acc) ++ ys) :=
        (stableInsert_perm le y acc).append_right ys
      refine h1.trans ?_
      simpa using (@List.perm_middle _ y acc ys).symm

theorem mem_stableSort {α : Type} (le : α → α → Bool) (l : List α) (x : α) :
    x ∈ stableSort le l ↔ x ∈ l :=
  (stableSort_perm le l).mem_iff

theorem length_stableSort {α : Type} (le : α → α → Bool) (l : List α) :
    (stableSort le l).length = l.length :=
  (stableSort_perm le l).length_eq

theorem stableInsert_pairwise {α : Type} (le : α → α → Bool)
    (htotal : ∀ a b, le a b = true ∨ le b a = true)
    (htrans : ∀ a b c, le a b = true → le b c = true → le a c = true)
    (x : α) (l : List α) (hl : l.Pairwise fun a b => le a b = true) :
    (stableInsert le x l).Pairwise fun a b => le a b = true := by
  induction l with
  | nil => simp [stableInsert]
  | cons y ys ih =>
      rcases hl with _ | ⟨hy, hys⟩
      by_cases h : le y x = true
      · simp only [stableInsert, h, if_pos]
        refine List.Pairwise.cons ?_ (ih hys)
        intro b hb
        have hb' := (stableInsert_perm le x ys).mem_iff.mp hb
        rcases List.mem_cons.mp hb' with rfl | hmem
        · exact h
        · exact hy b hmem
      · simp only [stableInsert, h, if_neg, Bool.false_eq_true, not_false_iff]
        have hxy : le x y = true := by
          rcases htotal x y with hxy | hyx
          · exact hxy
          · exact absurd hyx h
        refine List.Pairwise.cons ?_ (List.Pairwise.cons hy hys)
        intro b hb
        rcases List.mem_cons.mp hb with rfl | hmem
        · exact hxy
        · exact htrans x y b hxy (hy b hmem)

/-! ### Layer search (`search.rs`, `search_layer`)

The working state of the greedy loop: `cand` is `candidates`, `dyn` is
`dynamic_candidates`, `vis` is the `visited` hash set (modelled as a list,
queried only through `contains`). -/

structure SLState : Type where
  cand : List (ℕ × ℝ)
  dyn : List (ℕ × ℝ)
  vis : List ℕ

/-- Number of in-range slots not yet visited; the termination measure
component. -/
def unvisitedCount (n : ℕ) (vis : List ℕ) : ℕ :=
  (List.range n).countP fun i => decide (i ∉ vis)

/-- Termination measure of the greedy loop. -/
def slMeasure (n : ℕ) (st : SLState) : ℕ :=
  unvisitedCount n st.vis + st.dyn.length

/-- The push test `candidates.len() < k || dist < candidates.last().unwrap().1`.
`||` short-circuits, so `unwrap` is evaluated only when `len ≥ k`; the panic on
an empty list is unreachable (the loop runs only while a candidate exists) and
is modelled as "no push". -/
noncomputable def pushCond (k : ℕ) (cand : List (ℕ × ℝ)) (d : ℝ) : Bool :=
  decide (cand.length < k) ||
    (match cand.getLast? with
     | some last => decide (d < last.2)
     | none => false)

/-- Body of the inner `for neighbor_id in neighbors` loop of `search_layer`:
mark visited, then (if the slot exists) compute the distance and conditionally
insert into both sorted lists, truncating `candidates` to `k` and
`dynamic_candidates` to `ef_construction` by popping the worst element. -/
noncomputable def processNeighbor {T : Type} (dm : DistanceMetric)
    (nodes : List (HNSWNode T)) (query : List ℚ) (k ef : ℕ)
    (st : SLState) (nb : ℕ) : SLState :=
  if nb ∈ st.vis then st
  else
    let vis' := nb :: st.vis
    match nodes[nb]? with
    | none => { st with vis := vis' }
    | some node =>
        let d := dm.distance query node.embedding
        if pushCond k st.cand d then
          let cand' := stableSort leDist (st.cand ++ [(nb, d)])
          let cand'' := if k < cand'.length then cand'.dropLast else cand'
          let dyn' := stableSort leDist (st.dyn ++ [(nb, d)])
          let dyn'' := if ef < dyn'.length then dyn'.dropLast else dyn'
          { cand := cand'', dyn := dyn'', vis := vis' }
        else { st with vis := vis' }

/-- The neighbor enumeration of `search_layer`: at layer 0 every other stored
slot; at a positive layer the explicit connection list if the layer exists,
otherwise `continue` (no neighbors). -/
def layerNeighbors {T : Type} (nodes : List (HNSWNode T)) (layer : ℕ)
    (current : ℕ) (node : HNSWNode T) : List ℕ :=
  if layer = 0 then (List.range nodes.length).filter fun i => decide (i ≠ current)
  else if layer < node.connections.length then node.connections.getD layer []
  else []

theorem unvisitedCount_cons_le (n : ℕ) (nb : ℕ) (vis : List ℕ) :
    unvisitedCount n (nb :: vis) ≤ unvisitedCount n vis := by
  refine List.countP_mono_left ?_
  intro i _ h
  simp only [decide_eq_true_eq, List.mem_cons, not_or] at h ⊢
  exact h.2

theorem countP_notMem_cons {l : List ℕ} {nb : ℕ} (vis : List ℕ)
    (hnd : l.Nodup) (hmem : nb ∈ l) (h2 : nb ∉ vis) :
    l.countP (fun i => decide (i ∉ nb :: vis)) + 1
      = l.countP fun i => decide (i ∉ vis) := by
  induction l with
  | nil => cases hmem
  | cons a l ih =>
      have hna := (List.nodup_cons.mp hnd).1
      have hnd' := (List.nodup_cons.mp hnd).2
      by_cases hab : a = nb
      · subst hab
        have hagree : l.countP (fun i => decide (i ∉ a :: vis))
            = l.countP fun i => decide (i ∉ vis) := by
          refine List.countP_congr ?_
          intro i hi
          have hne : i ≠ a := fun h => hna (h ▸ hi)
          simp [List.mem_cons, hne]
        have hpa : decide (a ∉ a :: vis) = false := by simp
        have hqa : decide (a ∉ vis) = true := by simpa using h2
        simp only [List.countP_cons, hpa, hqa, hagree]
        simp
      · have hmem' : nb ∈ l := by
          rcases List.mem_cons.mp hmem with h | h
          · exact absurd h.symm hab
          · exact h
        have ihh := ih hnd' hmem'
        by_cases hav : a ∈ vis
        · have h1 : (decide (a ∉ vis)) = false := by simp [hav]
          have h1' : (decide (a ∉ nb :: vis)) = false := by
            simp [List.mem_cons, hav]
          simp only [List.countP_cons, h1, h1']
          omega
        · have h1 : (decide (a ∉ vis)) = true := by simp [hav]
          have h1' : (decide (a ∉ nb :: vis)) = true := by
            simp [List.mem_cons, hav, hab]
          simp only [List.countP_cons, h1, h1']
          omega

theorem unvisitedCount_cons_eq {n nb : ℕ} {vis : List ℕ}
    (h1 : nb < n) (h2 : nb ∉ vis) :
    unvisitedCount n (nb :: vis) + 1 = unvisitedCount n vis :=
  countP_notMem_cons vis (List.nodup_range n) (List.mem_range.mpr h1) h2

theorem length_truncate_le (b : ℕ) (l : List (ℕ × ℝ)) :
    (if b < l.length then l.dropLast else l).length ≤ l.length := by
  split
  · simp [List.length_dropLast]
  · exact le_rfl

theorem processNeighbor_measure {T : Type} (dm : DistanceMetric)
    (nodes : List (HNSWNode T)) (query : List ℚ) (k ef : ℕ)
    (st : SLState) (nb : ℕ) :
    unvisitedCount nodes.length (processNeighbor dm nodes query k ef st nb).vis
      + (processNeighbor dm nodes query k ef st nb).dyn.length
      ≤ unvisitedCount nodes.length st.vis + st.dyn.length := by
  by_cases hv : nb ∈ st.vis
  · simp [processNeighbor, hv]
  · rcases hget : nodes[nb]? with _ | node
    · simp only [processNeighbor, if_neg hv, hget]
      have h := unvisitedCount_cons_le nodes.length nb st.vis
      omega
    · have hlt : nb < nodes.length := (List.getElem?_eq_some_iff.mp hget).1
      have hcnt := unvisitedCount_cons_eq hlt hv
      by_cases hpush : pushCond k st.cand (dm.distance query node.embedding) = true
      · have hdynlen :
            (if ef < (stableSort leDist
                (st.dyn ++ [(nb, dm.distance query node.embedding)])).length
              then (stableSort leDist
                (st.dyn ++ [(nb, dm.distance query node.embedding)])).dropLast
              else stableSort leDist
                (st.dyn ++ [(nb, dm.distance query node.embedding)])).length
              ≤ st.dyn.length + 1 := by
          refine le_trans (length_truncate_le ef _) ?_
          simp [length_stableSort]
        simp only [processNeighbor, if_neg hv, hget, hpush, if_pos]
        omega
      · simp only [processNeighbor, if_neg hv, hget, hpush, Bool.false_eq_true,
          if_neg, not_false_iff]
        have h := unvisitedCount_cons_le nodes.length nb st.vis
        omega

theorem foldl_processNeighbor_measure {T : Type} (dm : DistanceMetric)
    (nodes : List (HNSWNode T)) (query : List ℚ) (k ef : ℕ)
    (nbrs : List ℕ) (st : SLState) :
    unvisitedCount nodes.length
        (nbrs.foldl (processNeighbor dm nodes query k ef) st).vis
      + (nbrs.foldl (processNeighbor dm nodes query k ef) st).dyn.length
      ≤ unvisitedCount nodes.length st.vis + st.dyn.length := by
  induction nbrs generalizing st with
  | nil => simp
  | cons nb rest ih =>
      simp only [List.foldl_cons]
      exact le_trans (ih (processNeighbor dm nodes query k ef st nb))
        (processNeighbor_measure dm nodes query k ef st nb)

/-- The `while !dynamic_candidates.is_empty()` loop of `search_layer`.
Each iteration removes the closest element of `dyn` and processes its
neighbors at `layer`. -/
noncomputable def searchLoop {T : Type} (dm : DistanceMetric)
    (nodes : List (HNSWNode T)) (query : List ℚ) (layer k ef : ℕ)
    (st : SLState) : List (ℕ × ℝ) :=
  match hdyn : st.dyn with
  | [] => st.cand
  | (c, _) :: rest =>
      let st1 : SLState := { st with dyn := rest }
      match nodes[c]? with
      | none => searchLoop dm nodes query layer k ef st1
      | some node =>
          searchLoop dm nodes query layer k ef
            ((layerNeighbors nodes layer c node).foldl
              (processNeighbor dm nodes query k ef) st1)
  termination_by slMeasure nodes.length st
  decreasing_by
  · simp only [slMeasure, st1, hdyn]
    simp only [List.length_cons]
    omega
  · have := foldl_processNeighbor_measure dm nodes query k ef
      (layerNeighbors nodes layer c node) st1
    simp only [slMeasure]
    calc unvisitedCount nodes.length
          ((layerNeighbors nodes layer c node).foldl
            (processNeighbor dm nodes query k ef) st1).vis
        + ((layerNeighbors nodes layer c node).foldl
            (processNeighbor dm nodes query k ef) st1).dyn.length
        ≤ unvisitedCount nodes.length st1.vis + st1.dyn.length := this
      _ < unvisitedCount nodes.length st.vis + st.dyn.length := by
          simp only [st1, hdyn]
          simp only [List.length_cons]
          omega

/-- Seed processing of `search_layer`: each entry point that exists and
participates in `layer` is pushed (with its distance) and marked visited. -/
noncomputable def initSeeds {T : Type} (dm : DistanceMetric)
    (nodes : List (HNSWNode T)) (query : List ℚ) (layer : ℕ)
    (entry_points : List ℕ) : SLState :=
  entry_points.foldl
    (fun st ep =>
      match nodes[ep]? with
      | some node =>
          if layer = 0 ∨ layer < node.connections.length then
            { st with cand := st.cand ++ [(ep, dm.distance query node.embedding)],
                      vis := ep :: st.vis }
          else st
      | none => st)
    ⟨[], [], []⟩

/-- `search.rs`: `HNSWIndex::search_layer`.  After seeding, `candidates` is
sorted ascending by distance and `dynamic_candidates` starts as its clone. -/
noncomputable def HNSWIndex.search_layer {T : Type} (idx : HNSWIndex T)
    (query : List ℚ) (entry_points : List ℕ) (layer k : ℕ) : List (ℕ × ℝ) :=
  let st0 := initSeeds idx.distance_metric idx.nodes query layer entry_points
  let cand0 := stableSort leDist st0.cand
  searchLoop idx.distance_metric idx.nodes query layer k idx.ef_construction
    { cand := cand0, dyn := cand0, vis := st0.vis }

/-! ### Neighbor selection (`insert.rs`, `select_neighbors`)

`f32::INFINITY` sentinels are modelled by `Option ℝ` (`none` = infinity):
`min_dist` starts at infinity and is lowered by every selected node that
exists; `score = candidate_dist / min_dist` is `0` when `min_dist` is still
infinity, and a score that is `+∞`/NaN (division by a zero `min_dist`; the
dividend, a metric value, is never negative) never wins a `<` comparison
against any best score, which `scoreOpt = none` reproduces. -/

noncomputable def minDistOption {T : Type} (dm : DistanceMetric)
    (nodes : List (HNSWNode T)) (selected : List ℕ) (cid : ℕ) : Option ℝ :=
  selected.foldl
    (fun acc sid =>
      match nodes[sid]?, nodes[cid]? with
      | some sn, some cn =>
          let d := dm.distance sn.embedding cn.embedding
          some (match acc with
            | some a => min a d
            | none => d)
      | _, _ => acc)
    none

/-- The per-candidate score `candidate_dist / min_dist` (`none` = a score that
never beats any best score: `+∞` or NaN in `f32`). -/
noncomputable def scoreOpt (cdist : ℝ) (md : Option ℝ) : Option ℝ :=
  match md with
  | none => some 0
  | some d => if d = 0 then none else some (cdist / d)

/-- The argmin scan of the `while` loop in `select_neighbors`: start with
`best_idx = 0`, `best_score = INFINITY`, and take the strictly better score
each time (first-encountered wins on ties). -/
noncomputable def selectScan {T : Type} (dm : DistanceMetric)
    (nodes : List (HNSWNode T)) (selected : List ℕ)
    (remaining : List (ℕ × ℝ)) : ℕ × Option ℝ :=
  remaining.enum.foldl
    (fun (b : ℕ × Option ℝ) p =>
      let score := scoreOpt p.2.2 (minDistOption dm nodes selected p.2.1)
      let better : Bool :=
        match score, b.2 with
        | some s, some bs => decide (s < bs)
        | some _, none => true
        | none, _ => false
      if better then (p.1, score) else b)
    (0, none)

theorem foldl_preserve {α β : Type} (f : β → α → β) (P : β → Prop)
    (l : List α) (b : β) (hb : P b) (hf : ∀ b a, a ∈ l → P b → P (f b a)) :
    P (l.foldl f b) := by
  induction l generalizing b with
  | nil => exact hb
  | cons x xs ih =>
      exact ih (f b x) (hf b x (List.mem_cons_self x xs) hb)
        (fun b' a ha hb' => hf b' a (List.mem_cons_of_mem x ha) hb')

theorem selectScan_fst_lt {T : Type} (dm : DistanceMetric)
    (nodes : List (HNSWNode T)) (selected : List ℕ)
    (remaining : List (ℕ × ℝ)) (h : remaining ≠ []) :
    (selectScan dm nodes selected remaining).1 < remaining.length := by
  have h0 : 0 < remaining.length := List.length_pos.mpr h
  refine foldl_preserve _ (fun (b : ℕ × Option ℝ) => b.1 < remaining.length) _ _ h0 ?_
  intro b a ha hb
  have hidx : a.1 < remaining.length := by
    have := List.fst_lt_of_mem_enum ha
    exact this
  dsimp only
  split
  · exact hidx
  · exact hb

/-- The `while selected.len() < m && !remaining.is_empty()` loop of
`select_neighbors`: pick the best-scoring remaining candidate, move it to
`selected`. -/
noncomputable def selLoop {T : Type} (dm : DistanceMetric)
    (nodes : List (HNSWNode T)) (m : ℕ)
    (selected : List ℕ) (remaining : List (ℕ × ℝ)) : List ℕ :=
  if h : selected.length < m ∧ remaining ≠ [] then
    let best := selectScan dm nodes selected remaining
    let chosen := (remaining.getD best.1 (0, 0)).1
    selLoop dm nodes m (selected ++ [chosen]) (remaining.eraseIdx best.1)
  else selected
  termination_by remaining.length
  decreasing_by
    have hlt := selectScan_fst_lt dm nodes selected remaining h.2
    simp only [best, List.length_eraseIdx]
    rw [if_pos hlt]
    omega

/-- `insert.rs`: `HNSWIndex::select_neighbors`. -/
noncomputable def HNSWIndex.select_neighbors {T : Type} (idx : HNSWIndex T)
    (candidates : List (ℕ × ℝ)) (m : ℕ) : List ℕ :=
  if candidates.length ≤ m then candidates.map Prod.fst
  else
    match candidates with
    | [] => []
    | c0 :: rest => selLoop idx.distance_metric idx.nodes m [c0.1] rest

/-! ### Insertion (`insert.rs`, `insert`) -/

/-- `(lo..hi).rev()`: the layers `hi-1, hi-2, …, lo` (empty when `hi ≤ lo`). -/
def descRange (lo hi : ℕ) : List ℕ :=
  (List.range' lo (hi - lo)).reverse

/-- One reciprocal append of the bidirectional-linking loop: if the neighbor
exists and has the layer, push `node_index` onto its layer list. -/
def pushNeighbor {T : Type} (node_index layer : ℕ)
    (ns : List (HNSWNode T)) (nbr : ℕ) : List (HNSWNode T) :=
  match ns[nbr]? with
  | some nbnode =>
      if layer < nbnode.connections.length then
        ns.set nbr
          ({ nbnode with
              connections := nbnode.connections.set layer
                ((nbnode.connections.getD layer []) ++ [node_index]) })
      else ns
  | none => ns

/-- `new_node.connections[layer] = neighbors`. -/
def setNewNodeRow {T : Type} (node_index layer : ℕ) (neighbors : List ℕ)
    (ns : List (HNSWNode T)) : List (HNSWNode T) :=
  match ns[node_index]? with
  | some nn =>
      ns.set node_index
        ({ nn with connections := nn.connections.set layer neighbors })
  | none => ns

/-- One iteration of the `for layer in (0..=level).rev()` loop of `insert`:
search the layer, select neighbors, append the new slot to each existing
neighbor's connection list at `layer` (when the neighbor has that layer), then
set the new node's layer-`layer` list to the selected neighbors.  Returns the
updated index and the new entry points. -/
noncomputable def connectAtLayer {T : Type} (idx : HNSWIndex T)
    (embedding : List ℚ) (node_index layer : ℕ) (eps : List ℕ) :
    HNSWIndex T × List ℕ :=
  let m_layer := if layer = 0 then idx.m_max else idx.m
  let candidates := idx.search_layer embedding eps layer idx.ef_construction
  let neighbors := idx.select_neighbors candidates m_layer
  let nodes1 := neighbors.foldl (pushNeighbor node_index layer) idx.nodes
  let nodes2 := setNewNodeRow node_index layer neighbors nodes1
  ({ idx with nodes := nodes2 }, neighbors)

/-- The top-down entry-point chain of `insert`: `for layer in
(level+1..max_layers).rev()`, searching with `k = 1` while entry points
remain. -/
noncomputable def topChain {T : Type} (idx1 : HNSWIndex T) (embedding : List ℚ)
    (level : ℕ) (ep0 : ℕ) : List ℕ :=
  (descRange (level + 1) idx1.max_layers).foldl
    (fun eps layer =>
      if eps ≠ [] then (idx1.search_layer embedding eps layer 1).map Prod.fst
      else eps)
    [ep0]

/-- The connect-descent of `insert`: `for layer in (0..=level).rev()`,
threading the mutated index and the entry points. -/
noncomputable def insertDescend {T : Type} (idx1 : HNSWIndex T)
    (embedding : List ℚ) (node_index level : ℕ) (eps0 : List ℕ) : HNSWIndex T :=
  ((descRange 0 (level + 1)).foldl
    (fun (acc : HNSWIndex T × List ℕ) layer =>
      connectAtLayer acc.1 embedding node_index layer acc.2)
    (idx1, eps0)).1

/-- The entry-point promotion at the end of `insert`: promote when
`level > 0` and `level ≥ len(current_entry_point.connections)`. -/
noncomputable def promoteEP {T : Type} (idx2 : HNSWIndex T)
    (node_index level : ℕ) : HNSWIndex T :=
  if 0 < level then
    match idx2.entry_point with
    | some ep =>
        match idx2.nodes[ep]? with
        | some ep_node =>
            if ep_node.connections.length ≤ level then
              { idx2 with entry_point := some node_index }
            else idx2
        | none => idx2
    | none => idx2
  else idx2

/-- `insert.rs`: `HNSWIndex::insert`.  The randomly drawn `level` is an oracle
argument; the returned pair is (index after the call, call result). -/
noncomputable def HNSWIndex.insert {T : Type} (idx : HNSWIndex T) (id : String)
    (embedding : List ℚ) (document : Option (Document T)) (level : ℕ) :
    HNSWIndex T × Except String Unit :=
  if (idx.node_id_to_index.lookup id).isSome then
    (idx, .error ("Node with id '" ++ id ++ "' already exists"))
  else
    let node_index := idx.nodes.length
    let new_node : HNSWNode T :=
      { id := id, embedding := embedding, document := document,
        connections := List.replicate (level + 1) [] }
    let idx1 : HNSWIndex T :=
      { idx with nodes := idx.nodes ++ [new_node],
                 node_id_to_index := (id, node_index) :: idx.node_id_to_index }
    match idx1.entry_point with
    | none => ({ idx1 with entry_point := some node_index }, .ok ())
    | some ep0 =>
        let eps0 := topChain idx1 embedding level ep0
        let idx2 := insertDescend idx1 embedding node_index level eps0
        (promoteEP idx2 node_index level, .ok ())

/-- `insert.rs`: `HNSWIndex::insert_multiple` (sequential; one oracle level per
item, indexed by position). -/
noncomputable def HNSWIndex.insert_multiple {T : Type} (idx : HNSWIndex T)
    (items : List (String × List ℚ × Option (Document T))) (levels : List ℕ) :
    HNSWIndex T × Except String (List (Except String Unit)) :=
  let res := items.enum.foldl
    (fun (acc : HNSWIndex T × List (Except String Unit)) p =>
      let r := acc.1.insert p.2.1 p.2.2.1 p.2.2.2 (levels.getD p.1 0)
      (r.1, acc.2 ++ [r.2]))
    (idx, [])
  (res.1, .ok res.2)

/-! ### Search (`search.rs`, `search`) -/

/-- `search.rs`: `HNSWIndex::search`.  The `self.nodes[id]` indexing at the end
cannot be out of range (all returned slots exist); the total model returns a
placeholder in that impossible case. -/
noncomputable def HNSWIndex.search {T : Type} (idx : HNSWIndex T)
    (query : List ℚ) (k : ℕ) : List (String × ℝ × Option (Document T)) :=
  match idx.entry_point with
  | none => []
  | some ep0 =>
      if idx.nodes.isEmpty then []
      else
        let max_existing_layer :=
          (idx.nodes.map fun node => node.connections.length - 1).foldl max 0
        let eps1 := (descRange 1 (max_existing_layer + 1)).foldl
          (fun eps layer =>
            if eps ≠ [] then (idx.search_layer query eps layer 1).map Prod.fst
            else eps)
          [ep0]
        let eps2 := if max_existing_layer = 0 then [ep0] else eps1
        let cand := idx.search_layer query eps2 0 k
        cand.map fun p =>
          match idx.nodes[p.1]? with
          | some node => (node.id, p.2, node.document)
          | none => ("", p.2, none)

/-! ### Deletion (`remove.rs`) -/

/-- The replacement-entry-point scan of `remove`: the first node with the
strictly highest level (`best_entry_point = 0`, `max_level = 0`, strict
improvement only). -/
def findNewEntryPoint {T : Type} (nodes : List (HNSWNode T)) : ℕ :=
  (nodes.enum.foldl
    (fun (best : ℕ × ℕ) p =>
      let level := p.2.connections.length - 1
      if best.2 < level then (p.1, level) else best)
    (0, 0)).1

/-- `remove.rs`: `HNSWIndex::remove`.  `self.nodes.remove(node_index)` panics
when the slot is out of range; that situation cannot arise for a well-formed
id map and the total model uses `eraseIdx`/`getElem?`. -/
def HNSWIndex.remove {T : Type} (idx : HNSWIndex T) (id : String) :
    HNSWIndex T × Except String (Option (Document T)) :=
  match idx.node_id_to_index.lookup id with
  | none => (idx, .error ("Node with id '" ++ id ++ "' not found"))
  | some node_index =>
      let map0 := idx.node_id_to_index.filter fun p => decide (p.1 ≠ id)
      let removed_doc := (idx.nodes[node_index]?).bind fun node => node.document
      let nodes0 := idx.nodes.eraseIdx node_index
      let map1 := map0.map fun p => if node_index < p.2 then (p.1, p.2 - 1) else p
      let nodes1 := nodes0.map fun node =>
        { node with connections := node.connections.map fun row =>
            (row.filter fun x => decide (x ≠ node_index)).map fun x =>
              if node_index < x then x - 1 else x }
      let ep :=
        if idx.entry_point = some node_index then
          if nodes1.isEmpty then none else some (findNewEntryPoint nodes1)
        else
          match idx.entry_point with
          | some e => if node_index < e then some (e - 1) else some e
          | none => none
      ({ idx with nodes := nodes1, node_id_to_index := map1, entry_point := ep },
       .ok removed_doc)

/-- `remove.rs`: `HNSWIndex::remove_multiple`: verify all ids exist (first
missing wins), then remove one at a time, stopping at the first error. -/
def HNSWIndex.remove_multiple {T : Type} (idx : HNSWIndex T) (ids : List String) :
    HNSWIndex T × Except String (List (Option (Document T))) :=
  match ids.find? (fun id => !(idx.contains id)) with
  | some missing => (idx, .error ("Node with id '" ++ missing ++ "' not found"))
  | none =>
      let res := ids.foldl
        (fun (acc : HNSWIndex T × List (Option (Document T)) × Option String) id =>
          match acc.2.2 with
          | some _ => acc
          | none =>
              let r := acc.1.remove id
              match r.2 with
              | .ok doc => (r.1, acc.2.1 ++ [doc], none)
              | .error e => (r.1, acc.2.1, some e))
        (idx, [], none)
      match res.2.2 with
      | some e => (res.1, .error e)
      | none => (res.1, .ok res.2.1)

/-! ### Batched-parallel insertion (`insert.rs`) -/

/-- Up-front validation loop of `insert_parallel`: the first intra-batch
duplicate or collision with an existing id produces the error. -/
def validateBatch {T : Type} (idx : HNSWIndex T) :
    List String → List (String × List ℚ × Option (Document T)) → Option String
  | _, [] => none
  | seen, (id, _, _) :: rest =>
      if id ∈ seen then some ("Duplicate ID found: '" ++ id ++ "'")
      else if (idx.node_id_to_index.lookup id).isSome then
        some ("Node with id '" ++ id ++ "' already exists in index")
      else validateBatch idx (id :: seen) rest

/-- `insert.rs`: `compute_connections_for_parallel_insertion` — the pure,
read-only neighbor computation run by the worker threads.  The returned lists
are pushed in descending layer order (layer `level` first). -/
noncomputable def HNSWIndex.compute_connections_for_parallel_insertion
    {T : Type} (idx : HNSWIndex T) (_node_index : ℕ) (embedding : List ℚ)
    (level : ℕ) : Except String (List (List ℕ)) :=
  match idx.entry_point with
  | none => .ok []
  | some ep0 =>
      let eps0 := (descRange (level + 1) idx.max_layers).foldl
        (fun eps layer =>
          if eps ≠ [] then (idx.search_layer embedding eps layer 1).map Prod.fst
          else eps)
        [ep0]
      let final := (descRange 0 (level + 1)).foldl
        (fun (acc : List (List ℕ) × List ℕ) layer =>
          let m_layer := if layer = 0 then idx.m_max else idx.m
          let candidates := idx.search_layer embedding acc.2 layer idx.ef_construction
          let neighbors := idx.select_neighbors candidates m_layer
          (acc.1 ++ [neighbors], neighbors))
        ([], eps0)
      .ok final.1

/-- One step of the entry-point rescan of
`update_entry_point_after_batch_insertion`: strict improvement over the
current best by the node level at slot `i`. -/
def epScanStep {T : Type} (nodes : List (HNSWNode T)) (b : Option ℕ × ℕ)
    (i : ℕ) : Option ℕ × ℕ :=
  match nodes[i]? with
  | some node =>
      let node_level := node.connections.length - 1
      if b.2 < node_level then (some i, node_level) else b
  | none => b

/-- The seed of the rescan: the current entry point and its level. -/
def epScanInit {T : Type} (idx : HNSWIndex T) : Option ℕ × ℕ :=
  match idx.entry_point with
  | some ep =>
      match idx.nodes[ep]? with
      | some ep_node => (some ep, ep_node.connections.length - 1)
      | none => (some ep, 0)
  | none => (none, 0)

/-- `insert.rs`: `update_entry_point_after_batch_insertion`. -/
def HNSWIndex.update_entry_point_after_batch_insertion {T : Type}
    (idx : HNSWIndex T)
    (items : List ((String × List ℚ × Option (Document T)) × ℕ)) : HNSWIndex T :=
  if items.isEmpty then idx
  else
    let max_level := (items.map fun p => p.2).foldl max 0
    if 0 < max_level then
      let start_index := idx.nodes.length - items.length
      let best := (List.range' start_index (idx.nodes.length - start_index)).foldl
        (epScanStep idx.nodes) (epScanInit idx)
      { idx with entry_point := best.1 }
    else idx

/-- Step 4 of `insert_parallel_batch`: apply one computed connection result to
its (new) node — `node_index = self.nodes.len() - num_items + i` — writing the
descending-layer lists into rows `0, 1, …` (the source's `enumerate`). -/
noncomputable def commitStep {T : Type} (num_items : ℕ) (acc : HNSWIndex T)
    (p : ℕ × Except String (List (List ℕ))) : HNSWIndex T :=
  match p.2 with
  | .ok conns =>
      let node_index := acc.nodes.length - num_items + p.1
      match acc.nodes[node_index]? with
      | some node =>
          { acc with
              nodes := acc.nodes.set node_index
                ({ node with
                    connections := conns.enum.foldl
                      (fun (rows : List (List ℕ)) q =>
                        if q.1 < rows.length then rows.set q.1 q.2 else rows)
                      node.connections }) }
      | none => acc
  | .error _ => acc

/-- `insert.rs`: `insert_parallel_batch`: pre-allocate all nodes (empty
connection lists sized `level + 1`), extend the id map, compute each item's
connection lists against the extended index (the `rayon` parallel map of a
pure function is a `List.map`), then commit each result into the new node's
rows — note the source applies the descending-layer list by ascending row
index — and finally update the entry point. -/
noncomputable def HNSWIndex.insert_parallel_batch {T : Type} (idx : HNSWIndex T)
    (items : List ((String × List ℚ × Option (Document T)) × ℕ)) :
    HNSWIndex T × Except String (List (Except String Unit)) :=
  if items.isEmpty then (idx, .ok [])
  else
    let num_items := items.length
    let new_nodes : List (HNSWNode T) := items.map fun p =>
      { id := p.1.1, embedding := p.1.2.1, document := p.1.2.2,
        connections := List.replicate (p.2 + 1) [] }
    let new_map := items.enum.map fun p => (p.2.1.1, idx.nodes.length + p.1)
    let idx1 : HNSWIndex T :=
      { idx with nodes := idx.nodes ++ new_nodes,
                 node_id_to_index := new_map ++ idx.node_id_to_index }
    let tasks := items.enum.map fun p =>
      (idx1.nodes.length - num_items + p.1, p.2.1.2.1, p.2.2)
    let conn_results := tasks.map fun t =>
      idx1.compute_connections_for_parallel_insertion t.1 t.2.1 t.2.2
    let idx2 := conn_results.enum.foldl (commitStep num_items) idx1
    let results := conn_results.map fun r => r.map fun _ => ()
    let idx3 := idx2.update_entry_point_after_batch_insertion items
    (idx3, .ok results)

/-- `insert.rs`: `HNSWIndex::insert_parallel`: validate, draw levels (oracle
list, one per item by position), stable-sort by descending level, then run the
batch. -/
noncomputable def HNSWIndex.insert_parallel {T : Type} (idx : HNSWIndex T)
    (items : List (String × List ℚ × Option (Document T))) (levels : List ℕ) :
    HNSWIndex T × Except String (List (Except String Unit)) :=
  if items.isEmpty then (idx, .ok [])
  else
    match validateBatch idx [] items with
    | some e => (idx, .error e)
    | none =>
        let items_with_levels := items.enum.map fun p => (p.2, levels.getD p.1 0)
        let sorted_items :=
          stableSort (fun a b => decide (b.2 ≤ a.2)) items_with_levels
        idx.insert_parallel_batch sorted_items

theorem stableSort_pairwise {α : Type} (le : α → α → Bool)
    (htotal : ∀ a b, le a b = true ∨ le b a = true)
    (htrans : ∀ a b c, le a b = true → le b c = true → le a c = true)
    (l : List α) :
    (stableSort le l).Pairwise fun a b => le a b = true := by
  suffices h : ∀ acc : List α, acc.Pairwise (fun a b => le a b = true) →
      (l.foldl (fun acc x => stableInsert le x acc) acc).Pairwise
        fun a b => le a b = true by
    exact h [] (by simp)
  induction l with
  | nil => intro acc hacc; simpa using hacc
  | cons y ys ih =>
      intro acc hacc
      simp only [List.foldl_cons]
      exact ih (stableInsert le y acc)
        (stableInsert_pairwise le htotal htrans y acc hacc)

/-! ### Operation sequences

Public mutating operations, with all randomly drawn levels as explicit oracle
data; theorems about "every sequence of public operations" quantify over these
lists. -/

inductive Op (T : Type) : Type where
  | insertOne (id : String) (emb : List ℚ) (doc : Option (Document T)) (level : ℕ)
  | insertMany (items : List (String × List ℚ × Option (Document T))) (levels : List ℕ)
  | insertPar (items : List (String × List ℚ × Option (Document T))) (levels : List ℕ)
  | removeOne (id : String)
  | removeMany (ids : List String)
  | clearAll

noncomputable def applyOp {T : Type} (idx : HNSWIndex T) : Op T → HNSWIndex T
  | .insertOne id emb doc lvl => (idx.insert id emb doc lvl).1
  | .insertMany items levels => (idx.insert_multiple items levels).1
  | .insertPar items levels => (idx.insert_parallel items levels).1
  | .removeOne id => (idx.remove id).1
  | .removeMany ids => (idx.remove_multiple ids).1
  | .clearAll => idx.clear

noncomputable def applyOps {T : Type} (idx : HNSWIndex T) (ops : List (Op T)) :
    HNSWIndex T :=
  ops.foldl applyOp idx

/-- The sequential public operations (everything except `insert_parallel`). -/
def Op.isSequential {T : Type} : Op T → Prop
  | .insertPar _ _ => False
  | _ => True

/-! ### C4: the `max_layers` constant -/

theorem maxLayersValue_eq : maxLayersValue = 10 := by
  have h2 : (0 : ℝ) < Real.log 2 := Real.log_pos (by norm_num)
  have hfloor : Nat.floor (Real.log 1000 / Real.log 2) = 9 := by
    have hnonneg : (0 : ℝ) ≤ Real.log 1000 / Real.log 2 := by
      have : (0 : ℝ) ≤ Real.log 1000 := Real.log_nonneg (by norm_num)
      positivity
    rw [Nat.floor_eq_iff hnonneg]
    constructor
    · rw [le_div_iff h2]
      have h512 : ((9 : ℕ) : ℝ) * Real.log 2 = Real.log (2 ^ 9) := by
        rw [Real.log_pow]
      rw [h512]
      exact Real.log_le_log (by norm_num) (by norm_num)
    · rw [div_lt_iff h2]
      have h1024 : ((9 : ℕ) : ℝ) + 1 = 10 := by norm_num
      rw [h1024]
      have hpow : (10 : ℝ) * Real.log 2 = Real.log (2 ^ 10) := by
        rw [Real.log_pow]; norm_num
      rw [hpow]
      exact Real.log_lt_log (by norm_num) (by norm_num)
  rw [maxLayersValue, hfloor]

theorem new_with_distance_max_layers (T : Type) (dim m ef : ℕ)
    (dm : DistanceMetric) :
    (HNSWIndex.new_with_distance T dim m ef dm).max_layers = 10 := by
  simp [HNSWIndex.new_with_distance, maxLayersValue_eq]

/-- C4 counterexample: the claim `max_layers = 11` is false at the concrete
index `new(3, 16, 200)`, whose `max_layers` is 10. -/
theorem C4_counterexample_max_layers_not_eleven :
    (HNSWIndex.new ℕ 3 16 200).max_layers ≠ 11 := by
  rw [HNSWIndex.new, new_with_distance_max_layers]
  decide

/-- C4 (amended): for every dimension, `M`, `ef_construction` and metric, the
index returned by `create` (`new` / `new_with_distance`) has `max_layers`
equal to 10, i.e. `⌊log2 1000⌋ + 1` — the `as usize` cast truncates, it does
not round up. -/
theorem C4_max_layers_is_ten (T : Type) (dim m ef : ℕ) (dm : DistanceMetric) :
    (HNSWIndex.new_with_distance T dim m ef dm).max_layers = 10 ∧
      (HNSWIndex.new T dim m ef).max_layers = 10 :=
  ⟨new_with_distance_max_layers T dim m ef dm,
   new_with_distance_max_layers T dim m ef DistanceMetric.euclidean⟩

/-! ### C7: duplicate-id insertion -/

/-- C7: inserting an id that already exists returns an error and leaves the
index entirely unchanged (same state, same node count, and `get_node` still
returns the originally stored node). -/
theorem C7_insert_duplicate_id {T : Type} (idx : HNSWIndex T) (id : String)
    (s : ℕ) (emb : List ℚ) (doc : Option (Document T)) (lvl : ℕ)
    (hdup : idx.node_id_to_index.lookup id = some s) :
    (idx.insert id emb doc lvl).1 = idx ∧
      (∃ e, (idx.insert id emb doc lvl).2 = .error e) ∧
      (idx.insert id emb doc lvl).1.len = idx.len ∧
      (idx.insert id emb doc lvl).1.get_node id = idx.get_node id := by
  have hsome : (idx.node_id_to_index.lookup id).isSome = true := by
    rw [hdup]; rfl
  have hred : idx.insert id emb doc lvl
      = (idx, .error ("Node with id '" ++ id ++ "' already exists")) := by
    rw [HNSWIndex.insert]
    simp [hsome]
  rw [hred]
  exact ⟨rfl, ⟨_, rfl⟩, rfl, rfl⟩

/-- A one-node index used by witnesses: `new(3, 2, 2)` followed by
`insert("a", [1,2,3])` at drawn level 0 (the first insert takes the early
entry-point path and performs no search). -/
noncomputable def wIdxA : HNSWIndex ℕ :=
  ((HNSWIndex.new ℕ 3 2 2).insert "a" [1, 2, 3] none 0).1

theorem wIdxA_lookup : wIdxA.node_id_to_index.lookup "a" = some 0 := rfl

/-- C7 witness: re-inserting `"a"` into the concrete one-node index errors and
changes nothing. -/
theorem C7_insert_duplicate_id_witness :
    wIdxA.node_id_to_index.lookup "a" = some 0 ∧
      ((wIdxA.insert "a" [4, 5, 6] none 0).1 = wIdxA ∧
        (∃ e, (wIdxA.insert "a" [4, 5, 6] none 0).2 = .error e) ∧
        (wIdxA.insert "a" [4, 5, 6] none 0).1.len = wIdxA.len ∧
        (wIdxA.insert "a" [4, 5, 6] none 0).1.get_node "a" = wIdxA.get_node "a") :=
  ⟨wIdxA_lookup, C7_insert_duplicate_id wIdxA "a" 0 [4, 5, 6] none 0 wIdxA_lookup⟩

/-! ### C9: atomic validation of `insert_parallel` -/

theorem validateBatch_none_sound {T : Type} (idx : HNSWIndex T) :
    ∀ (items : List (String × List ℚ × Option (Document T))) (seen : List String),
      validateBatch idx seen items = none →
      (items.map fun it => it.1).Nodup ∧
        (∀ it ∈ items, idx.node_id_to_index.lookup it.1 = none) ∧
        (∀ s ∈ seen, ∀ it ∈ items, it.1 ≠ s) := by
  intro items
  induction items with
  | nil => intro seen _; refine ⟨by simp, by simp, by simp⟩
  | cons hd rest ih =>
      intro seen hv
      obtain ⟨id, emb, doc⟩ := hd
      rw [validateBatch] at hv
      by_cases hseen : id ∈ seen
      · simp [hseen] at hv
      · by_cases hpresent : (idx.node_id_to_index.lookup id).isSome = true
        · simp [hseen, hpresent] at hv
        · have hlook : idx.node_id_to_index.lookup id = none := by
            rcases h : idx.node_id_to_index.lookup id with _ | v
            · rfl
            · rw [h] at hpresent; simp at hpresent
          simp only [hseen, if_neg, not_false_iff, hpresent, Bool.false_eq_true] at hv
          have hv' : validateBatch idx (id :: seen) rest = none := by
            simpa [hseen, hpresent] using hv
          obtain ⟨hnd, habs, hdisj⟩ := ih (id :: seen) hv'
          refine ⟨?_, ?_, ?_⟩
          · simp only [List.map_cons, List.nodup_cons]
            refine ⟨?_, hnd⟩
            intro hmem
            rcases List.mem_map.mp hmem with ⟨it, hit, heq⟩
            exact hdisj id (List.mem_cons_self id seen) it hit heq
          · intro it hit
            rcases List.mem_cons.mp hit with rfl | hit'
            · exact hlook
            · exact habs it hit'
          · intro s hs it hit
            rcases List.mem_cons.mp hit with rfl | hit'
            · rintro rfl; exact hseen hs
            · exact hdisj s (List.mem_cons_of_mem id hs) it hit'

/-- C9: a batch with an intra-batch duplicate id or a collision with an
existing id makes `insert_parallel` return `Err` with the index unchanged. -/
theorem C9_insert_parallel_validates_atomically {T : Type} (idx : HNSWIndex T)
    (items : List (String × List ℚ × Option (Document T))) (levels : List ℕ)
    (hbad : ¬ (items.map fun it => it.1).Nodup ∨
      ∃ it ∈ items, (idx.node_id_to_index.lookup it.1).isSome = true) :
    (∃ e, (idx.insert_parallel items levels).2 = .error e) ∧
      (idx.insert_parallel items levels).1 = idx := by
  have hne : items.isEmpty = false := by
    rcases hbad with hnd | ⟨it, hit, _⟩
    · rcases items with _ | ⟨hd, tl⟩
      · exact absurd (by simp) hnd
      · rfl
    · rcases items with _ | ⟨hd, tl⟩
      · cases hit
      · rfl
  rcases hval : validateBatch idx [] items with _ | e
  · obtain ⟨hnd, habs, _⟩ := validateBatch_none_sound idx items [] hval
    rcases hbad with hbad1 | ⟨it, hit, hpres⟩
    · exact absurd hnd hbad1
    · rw [habs it hit] at hpres
      simp at hpres
  · have hred : idx.insert_parallel items levels = (idx, .error e) := by
      rw [HNSWIndex.insert_parallel]
      simp [hne, hval]
    rw [hred]
    exact ⟨⟨e, rfl⟩, rfl⟩

/-- The duplicate batch used by the C9 witness. -/
def w9items : List (String × List ℚ × Option (Document ℕ)) :=
  [("a", [1], none), ("a", [2], none)]

/-- C9 witness: the duplicate batch `[("a", v1), ("a", v2)]` on the empty
index errors and leaves `len == 0`. -/
theorem C9_insert_parallel_validates_atomically_witness :
    ((¬ (w9items.map fun it => it.1).Nodup ∨
        ∃ it ∈ w9items,
          (((HNSWIndex.new ℕ 3 2 2).node_id_to_index.lookup it.1).isSome = true)) ∧
      (∃ e, ((HNSWIndex.new ℕ 3 2 2).insert_parallel w9items [0, 0]).2 = .error e) ∧
        ((HNSWIndex.new ℕ 3 2 2).insert_parallel w9items [0, 0]).1
          = HNSWIndex.new ℕ 3 2 2) ∧
      ((HNSWIndex.new ℕ 3 2 2).insert_parallel w9items [0, 0]).1.len = 0 := by
  have hbad : ¬ (w9items.map fun it => it.1).Nodup ∨
      ∃ it ∈ w9items,
        (((HNSWIndex.new ℕ 3 2 2).node_id_to_index.lookup it.1).isSome = true) := by
    left
    decide
  have hmain := C9_insert_parallel_validates_atomically (HNSWIndex.new ℕ 3 2 2)
    w9items [0, 0] hbad
  refine ⟨⟨hbad, hmain⟩, ?_⟩
  rw [hmain.2]
  rfl

/-! ### C5: the parallel commit writes only the new nodes -/

theorem commitStep_nodes_length {T : Type} (num : ℕ) (acc : HNSWIndex T)
    (p : ℕ × Except String (List (List ℕ))) :
    (commitStep num acc p).nodes.length = acc.nodes.length := by
  rw [commitStep]
  rcases p.2 with e | conns
  · rfl
  · rcases hget : acc.nodes[acc.nodes.length - num + p.1]? with _ | node
    · simp [hget]
    · simp [hget, List.length_set]

theorem commitStep_frame {T : Type} (num : ℕ) (acc : HNSWIndex T)
    (p : ℕ × Except String (List (List ℕ))) (s : ℕ)
    (hs : s + num < acc.nodes.length) :
    (commitStep num acc p).nodes[s]? = acc.nodes[s]? := by
  rw [commitStep]
  rcases p.2 with e | conns
  · rfl
  · rcases hget : acc.nodes[acc.nodes.length - num + p.1]? with _ | node
    · simp [hget]
    · have hne : acc.nodes.length - num + p.1 ≠ s := by omega
      simp only [hget]
      exact List.getElem?_set_ne hne

theorem commit_fold_frame {T : Type} (num : ℕ)
    (results : List (ℕ × Except String (List (List ℕ))))
    (acc : HNSWIndex T) (s : ℕ) (hs : s + num < acc.nodes.length) :
    (results.foldl (commitStep num) acc).nodes.length = acc.nodes.length ∧
      (results.foldl (commitStep num) acc).nodes[s]? = acc.nodes[s]? := by
  refine foldl_preserve (commitStep num)
    (fun a => a.nodes.length = acc.nodes.length ∧ a.nodes[s]? = acc.nodes[s]?)
    results acc ⟨rfl, rfl⟩ ?_
  intro a p _ ⟨hlen, hget⟩
  refine ⟨(commitStep_nodes_length num a p).trans hlen, ?_⟩
  rw [commitStep_frame num a p s (by omega), hget]

theorem update_entry_point_nodes {T : Type} (idx : HNSWIndex T)
    (items : List ((String × List ℚ × Option (Document T)) × ℕ)) :
    (idx.update_entry_point_after_batch_insertion items).nodes = idx.nodes := by
  simp only [HNSWIndex.update_entry_point_after_batch_insertion]
  split
  · rfl
  · split
    · rfl
    · rfl

theorem insert_parallel_batch_nodes_frame {T : Type} (idx : HNSWIndex T)
    (items : List ((String × List ℚ × Option (Document T)) × ℕ)) (s : ℕ)
    (hs : s < idx.nodes.length) :
    (idx.insert_parallel_batch items).1.nodes[s]? = idx.nodes[s]? := by
  by_cases hemp : items.isEmpty
  · simp [HNSWIndex.insert_parallel_batch, hemp]
  · have hemp' : items.isEmpty = false := by simpa using hemp
    simp only [HNSWIndex.insert_parallel_batch, hemp', Bool.false_eq_true,
      if_neg, not_false_iff]
    rw [update_entry_point_nodes]
    have key : ∀ (results : List (ℕ × Except String (List (List ℕ))))
        (acc : HNSWIndex T), s + items.length < acc.nodes.length →
        acc.nodes[s]? = idx.nodes[s]? →
        (results.foldl (commitStep items.length) acc).nodes[s]? = idx.nodes[s]? := by
      intro results acc h1 h2
      rw [(commit_fold_frame items.length results acc s h1).2, h2]
    exact key _ _ (by simp [List.length_append]; omega)
      (List.getElem?_append_left hs)

/-- C5: a successful `insert_parallel` call leaves every pre-existing node —
in particular its connection list at every layer — unchanged: no reciprocal
link is appended to any neighbor in the parallel path. -/
theorem C5_parallel_commit_writes_only_new_nodes {T : Type} (idx : HNSWIndex T)
    (items : List (String × List ℚ × Option (Document T))) (levels : List ℕ)
    (results : List (Except String Unit)) (s : ℕ) (node : HNSWNode T)
    (hok : (idx.insert_parallel items levels).2 = .ok results)
    (hs : idx.nodes[s]? = some node) :
    (idx.insert_parallel items levels).1.nodes[s]? = some node ∧
      ∀ L : ℕ, ((idx.insert_parallel items levels).1.nodes[s]?).map
          (fun nd => nd.connections.getD L [])
        = some (node.connections.getD L []) := by
  have hslen : s < idx.nodes.length := (List.getElem?_eq_some_iff.mp hs).1
  have hmain : (idx.insert_parallel items levels).1.nodes[s]? = some node := by
    by_cases hemp : items.isEmpty
    · simp [HNSWIndex.insert_parallel, hemp, hs]
    · have hemp' : items.isEmpty = false := by simpa using hemp
      rcases hval : validateBatch idx [] items with _ | e
      · simp only [HNSWIndex.insert_parallel, hemp', Bool.false_eq_true, if_neg,
          not_false_iff, hval]
        rw [insert_parallel_batch_nodes_frame _ _ s hslen]
        exact hs
      · simp [HNSWIndex.insert_parallel, hemp', hval, hs]
  exact ⟨hmain, fun L => by rw [hmain]; rfl⟩

/-! ### Evaluation helpers for concrete runs -/

theorem search_layer_nil_eps {T : Type} (idx : HNSWIndex T) (q : List ℚ)
    (layer k : ℕ) : idx.search_layer q [] layer k = [] := by
  rw [HNSWIndex.search_layer]
  simp [initSeeds, stableSort, searchLoop]

/-- A layer search whose single seed does not participate in the layer
returns nothing. -/
theorem search_layer_seed_skip {T : Type} (idx : HNSWIndex T) (q : List ℚ)
    (ep layer k : ℕ) (node : HNSWNode T) (hlayer : layer ≠ 0)
    (hget : idx.nodes[ep]? = some node)
    (hpart : ¬ layer < node.connections.length) :
    idx.search_layer q [ep] layer k = [] := by
  rw [HNSWIndex.search_layer]
  have hinit : initSeeds idx.distance_metric idx.nodes q layer [ep]
      = ⟨[], [], []⟩ := by
    simp [initSeeds, hget, hlayer, hpart]
  rw [hinit]
  simp [stableSort, searchLoop]

/-- `insert_parallel_batch` on a nonempty batch always returns `Ok` (each
per-item connection computation is infallible). -/
theorem insert_parallel_batch_snd_ok {T : Type} (idx : HNSWIndex T)
    (items : List ((String × List ℚ × Option (Document T)) × ℕ)) :
    ∃ results, (idx.insert_parallel_batch items).2 = .ok results := by
  rw [HNSWIndex.insert_parallel_batch]
  by_cases hemp : items.isEmpty
  · simp [hemp]
  · have hemp' : items.isEmpty = false := by simpa using hemp
    simp only [hemp', Bool.false_eq_true, if_neg, not_false_iff]
    exact ⟨_, rfl⟩

/-- A validated nonempty batch makes `insert_parallel` return `Ok`. -/
theorem insert_parallel_snd_ok {T : Type} (idx : HNSWIndex T)
    (items : List (String × List ℚ × Option (Document T))) (levels : List ℕ)
    (hval : validateBatch idx [] items = none) :
    ∃ results, (idx.insert_parallel items levels).2 = .ok results := by
  by_cases hemp : items.isEmpty
  · exact ⟨[], by simp [HNSWIndex.insert_parallel, hemp]⟩
  · have hemp' : items.isEmpty = false := by simpa using hemp
    rw [HNSWIndex.insert_parallel]
    simp only [hemp', Bool.false_eq_true, if_neg, not_false_iff, hval]
    exact insert_parallel_batch_snd_ok idx _

/-- The stored node of `wIdxA`, used by the C5 witness. -/
def w5nodeA : HNSWNode ℕ :=
  { id := "a", embedding := [1, 2, 3], document := none, connections := [[]] }

/-- C5 witness: a successful one-item `insert_parallel` into the one-node
index `wIdxA` leaves node 0 (and its layer-0 connection list) unchanged. -/
theorem C5_parallel_commit_writes_only_new_nodes_witness :
    ∃ results,
      (wIdxA.insert_parallel [("b", [5, 5, 5], none)] [0]).2 = .ok results ∧
      wIdxA.nodes[0]? = some w5nodeA ∧
      ((wIdxA.insert_parallel [("b", [5, 5, 5], none)] [0]).1.nodes[0]?
          = some w5nodeA ∧
        ∀ L : ℕ,
          ((wIdxA.insert_parallel [("b", [5, 5, 5], none)] [0]).1.nodes[0]?).map
              (fun nd => nd.connections.getD L [])
            = some (w5nodeA.connections.getD L [])) := by
  obtain ⟨results, hok⟩ :=
    insert_parallel_snd_ok wIdxA [("b", [5, 5, 5], none)] [0] rfl
  exact ⟨results, hok, rfl,
    C5_parallel_commit_writes_only_new_nodes wIdxA _ _ results 0 _ hok rfl⟩

/-! ### C10: `remove` semantics -/

theorem lookup_removed_none {T : Type} (idx : HNSWIndex T) (id : String) (s : ℕ) :
    ((idx.node_id_to_index.filter fun p => decide (p.1 ≠ id)).map
      fun p => if s < p.2 then (p.1, p.2 - 1) else p).lookup id = none := by
  rw [List.lookup_eq_none_iff]
  intro p hp
  rcases List.mem_map.mp hp with ⟨q, hq, hfq⟩
  have hqne : q.1 ≠ id := by
    have := (List.mem_filter.mp hq).2
    simpa using this
  have hfst : p.1 = q.1 := by
    by_cases hc : s < q.2 <;> simp [hc] at hfq <;> rw [← hfq]
  rw [hfst]
  simpa using fun h => hqne h.symm

/-- C10: removing a present id returns its stored (optional) payload, drops
the node count by one, deletes the id from the map while renumbering the
other entries, and rewrites every remaining node's every connection list by
deleting the removed slot and decrementing the higher slots. -/
theorem C10_remove_correct {T : Type} (idx : HNSWIndex T) (id : String) (s : ℕ)
    (node : HNSWNode T)
    (hlook : idx.node_id_to_index.lookup id = some s)
    (hs : idx.nodes[s]? = some node) :
    (idx.remove id).2 = .ok node.document ∧
      (idx.remove id).1.len = idx.len - 1 ∧
      (idx.remove id).1.node_id_to_index.lookup id = none ∧
      (∀ p ∈ idx.node_id_to_index, p.1 ≠ id →
        (p.1, if s < p.2 then p.2 - 1 else p.2) ∈ (idx.remove id).1.node_id_to_index) ∧
      (∀ i : ℕ, ∀ nd', (idx.remove id).1.nodes[i]? = some nd' →
        ∃ nd, idx.nodes[if i < s then i else i + 1]? = some nd ∧
          nd'.connections = nd.connections.map fun row =>
            (row.filter fun x => decide (x ≠ s)).map fun x =>
              if s < x then x - 1 else x) := by
  have hslen : s < idx.nodes.length := (List.getElem?_eq_some_iff.mp hs).1
  have hred : idx.remove id =
      ({ idx with
          nodes := (idx.nodes.eraseIdx s).map fun nd =>
            { nd with connections := nd.connections.map fun row =>
                (row.filter fun x => decide (x ≠ s)).map fun x =>
                  if s < x then x - 1 else x },
          node_id_to_index :=
            (idx.node_id_to_index.filter fun p => decide (p.1 ≠ id)).map
              fun p => if s < p.2 then (p.1, p.2 - 1) else p,
          entry_point :=
            if idx.entry_point = some s then
              if ((idx.nodes.eraseIdx s).map fun nd =>
                  ({ nd with connections := nd.connections.map fun row =>
                      (row.filter fun x => decide (x ≠ s)).map fun x =>
                        if s < x then x - 1 else x } : HNSWNode T)).isEmpty
              then none
              else some (findNewEntryPoint ((idx.nodes.eraseIdx s).map fun nd =>
                { nd with connections := nd.connections.map fun row =>
                    (row.filter fun x => decide (x ≠ s)).map fun x =>
                      if s < x then x - 1 else x }))
            else
              match idx.entry_point with
              | some e => if s < e then some (e - 1) else some e
              | none => none },
       .ok ((idx.nodes[s]?).bind fun nd => nd.document)) := by
    rw [HNSWIndex.remove]
    simp only [hlook]
  rw [hred]
  refine ⟨by rw [hs]; rfl, ?_, ?_, ?_, ?_⟩
  · simp only [HNSWIndex.len, List.length_map, List.length_eraseIdx]
    rw [if_pos hslen]
  · exact lookup_removed_none idx id s
  · intro p hp hpne
    have hpf : p ∈ idx.node_id_to_index.filter fun q => decide (q.1 ≠ id) := by
      rw [List.mem_filter]
      exact ⟨hp, by simpa using hpne⟩
    have := List.mem_map_of_mem
      (fun q => if s < q.2 then (q.1, q.2 - 1) else q) hpf
    by_cases hc : s < p.2
    · simpa [hc] using this
    · have hps : (p.1, if s < p.2 then p.2 - 1 else p.2) = p := by
        rcases p with ⟨a, b⟩
        simp [hc]
      rw [hps]
      simpa [hc] using this
  · intro i nd' hget
    rw [List.getElem?_map] at hget
    rcases hmap : (idx.nodes.eraseIdx s)[i]? with _ | nd
    · rw [hmap] at hget; cases hget
    · rw [hmap] at hget
      have hnd' : nd' = { nd with connections := nd.connections.map fun row =>
          (row.filter fun x => decide (x ≠ s)).map fun x =>
            if s < x then x - 1 else x } := by
        simpa using hget.symm
      refine ⟨nd, ?_, by rw [hnd']⟩
      rw [List.getElem?_eraseIdx] at hmap
      by_cases hc : i < s
      · rw [if_pos hc] at hmap
        rw [if_pos hc]
        exact hmap
      · rw [if_neg hc] at hmap
        rw [if_neg hc]
        exact hmap

/-- C10 witness: removing `"a"` from the concrete one-node index returns its
payload (`none`), leaves zero nodes, and empties the map. -/
theorem C10_remove_correct_witness :
    wIdxA.node_id_to_index.lookup "a" = some 0 ∧
      wIdxA.nodes[0]? = some w5nodeA ∧
      ((wIdxA.remove "a").2 = .ok w5nodeA.document ∧
        (wIdxA.remove "a").1.len = wIdxA.len - 1 ∧
        (wIdxA.remove "a").1.node_id_to_index.lookup "a" = none ∧
        (∀ p ∈ wIdxA.node_id_to_index, p.1 ≠ "a" →
          (p.1, if 0 < p.2 then p.2 - 1 else p.2) ∈ (wIdxA.remove "a").1.node_id_to_index) ∧
        (∀ i : ℕ, ∀ nd', (wIdxA.remove "a").1.nodes[i]? = some nd' →
          ∃ nd, wIdxA.nodes[if i < 0 then i else i + 1]? = some nd ∧
            nd'.connections = nd.connections.map fun row =>
              (row.filter fun x => decide (x ≠ 0)).map fun x =>
                if 0 < x then x - 1 else x)) :=
  ⟨rfl, rfl, C10_remove_correct wIdxA "a" 0 w5nodeA rfl rfl⟩

/-! ### Reasoning principle for the greedy loop -/

/-- Any property preserved by popping the frontier head and by processing a
neighbor holds of a final state whose `cand` is the loop's result. -/
theorem searchLoop_reaches {T : Type} (dm : DistanceMetric)
    (nodes : List (HNSWNode T)) (query : List ℚ) (layer k ef : ℕ)
    (P : SLState → Prop)
    (hpop : ∀ st c dd rest, st.dyn = (c, dd) :: rest → P st →
      P { st with dyn := rest })
    (hproc : ∀ st nb, P st → P (processNeighbor dm nodes query k ef st nb)) :
    ∀ n st, slMeasure nodes.length st ≤ n → P st →
      ∃ st', P st' ∧ st'.dyn = [] ∧
        searchLoop dm nodes query layer k ef st = st'.cand := by
  intro n
  induction n with
  | zero =>
      intro st hm hP
      have hdyn : st.dyn = [] := by
        have : st.dyn.length = 0 := by
          have := hm
          simp only [slMeasure] at this
          omega
        exact List.length_eq_zero.mp this
      refine ⟨st, hP, hdyn, ?_⟩
      rw [searchLoop.eq_def]
      rcases st with ⟨cand, dyn, vis⟩
      simp only at hdyn
      subst hdyn
      rfl
  | succ n ih =>
      intro st hm hP
      rcases hdyn : st.dyn with _ | ⟨⟨c, dd⟩, rest⟩
      · refine ⟨st, hP, hdyn, ?_⟩
        rw [searchLoop.eq_def]
        rcases st with ⟨cand, dyn, vis⟩
        simp only at hdyn
        subst hdyn
        rfl
      · have hlen : st.dyn.length = rest.length + 1 := by
          rw [hdyn]; rfl
        have hPpop := hpop st c dd rest hdyn hP
        have heq : searchLoop dm nodes query layer k ef st =
            match nodes[c]? with
            | none => searchLoop dm nodes query layer k ef { st with dyn := rest }
            | some node =>
                searchLoop dm nodes query layer k ef
                  ((layerNeighbors nodes layer c node).foldl
                    (processNeighbor dm nodes query k ef) { st with dyn := rest }) := by
          rw [searchLoop.eq_def]
          rcases st with ⟨cand, dyn, vis⟩
          simp only at hdyn
          subst hdyn
          rfl
        have hm' : unvisitedCount nodes.length st.vis + st.dyn.length ≤ n + 1 := hm
        rcases hget : nodes[c]? with _ | node
        · rw [heq, hget]
          refine ih { st with dyn := rest } ?_ hPpop
          show unvisitedCount nodes.length st.vis + rest.length ≤ n
          omega
        · rw [heq, hget]
          have hPfold : P ((layerNeighbors nodes layer c node).foldl
              (processNeighbor dm nodes query k ef) { st with dyn := rest }) :=
            foldl_preserve _ P _ _ hPpop (fun b a _ hb => hproc b a hb)
          have hμfold : unvisitedCount nodes.length
              ((layerNeighbors nodes layer c node).foldl
                (processNeighbor dm nodes query k ef) { st with dyn := rest }).vis
              + ((layerNeighbors nodes layer c node).foldl
                (processNeighbor dm nodes query k ef) { st with dyn := rest }).dyn.length
              ≤ unvisitedCount nodes.length st.vis + rest.length :=
            foldl_processNeighbor_measure dm nodes query k ef
              (layerNeighbors nodes layer c node) { st with dyn := rest }
          refine ih _ ?_ hPfold
          show unvisitedCount nodes.length
              ((layerNeighbors nodes layer c node).foldl
                (processNeighbor dm nodes query k ef) { st with dyn := rest }).vis
              + ((layerNeighbors nodes layer c node).foldl
                (processNeighbor dm nodes query k ef) { st with dyn := rest }).dyn.length
              ≤ n
          omega

/-- Ascending-by-distance order of a candidate list. -/
def DistSorted (l : List (ℕ × ℝ)) : Prop :=
  l.Pairwise fun a b => a.2 ≤ b.2

theorem stableSort_distSorted (l : List (ℕ × ℝ)) :
    DistSorted (stableSort leDist l) := by
  have h := stableSort_pairwise leDist
    (fun a b => by
      rcases le_total a.2 b.2 with h | h
      · left; simpa [leDist] using h
      · right; simpa [leDist] using h)
    (fun a b c hab hbc => by
      simp only [leDist, decide_eq_true_eq] at hab hbc ⊢
      exact le_trans hab hbc)
    l
  refine h.imp ?_
  intro a b hab
  simpa [leDist] using hab

theorem DistSorted.dropLast {l : List (ℕ × ℝ)} (h : DistSorted l) :
    DistSorted l.dropLast :=
  h.sublist (List.dropLast_sublist l)

theorem processNeighbor_cand_sorted {T : Type} (dm : DistanceMetric)
    (nodes : List (HNSWNode T)) (query : List ℚ) (k ef : ℕ)
    (st : SLState) (nb : ℕ) (h : DistSorted st.cand) :
    DistSorted (processNeighbor dm nodes query k ef st nb).cand := by
  by_cases hv : nb ∈ st.vis
  · simpa [processNeighbor, hv] using h
  · rcases hget : nodes[nb]? with _ | node
    · simpa [processNeighbor, if_neg hv, hget] using h
    · by_cases hpush : pushCond k st.cand (dm.distance query node.embedding) = true
      · simp only [processNeighbor, if_neg hv, hget, hpush, if_pos]
        split
        · exact (stableSort_distSorted _).dropLast
        · exact stableSort_distSorted _
      · simpa [processNeighbor, if_neg hv, hget, hpush] using h

theorem processNeighbor_cand_length_le {T : Type} (dm : DistanceMetric)
    (nodes : List (HNSWNode T)) (query : List ℚ) (k ef : ℕ)
    (st : SLState) (nb : ℕ) (b : ℕ) (hb : st.cand.length ≤ max k b) :
    (processNeighbor dm nodes query k ef st nb).cand.length ≤ max k b := by
  by_cases hv : nb ∈ st.vis
  · simpa [processNeighbor, hv] using hb
  · rcases hget : nodes[nb]? with _ | node
    · simpa [processNeighbor, if_neg hv, hget] using hb
    · by_cases hpush : pushCond k st.cand (dm.distance query node.embedding) = true
      · simp only [processNeighbor, if_neg hv, hget, hpush, if_pos]
        split
        · rename_i hgt
          simp only [length_stableSort, List.length_append, List.length_cons,
            List.length_nil] at hgt
          simp only [List.length_dropLast, length_stableSort, List.length_append,
            List.length_cons, List.length_nil]
          omega
        · rename_i hle
          simp only [length_stableSort, List.length_append, List.length_cons,
            List.length_nil] at hle
          simp only [length_stableSort, List.length_append, List.length_cons,
            List.length_nil]
          omega
      · simpa [processNeighbor, if_neg hv, hget, hpush] using hb

theorem processNeighbor_cand_length_ge {T : Type} (dm : DistanceMetric)
    (nodes : List (HNSWNode T)) (query : List ℚ) (k ef : ℕ)
    (st : SLState) (nb : ℕ) (b : ℕ) (hb : b ≤ st.cand.length) :
    b ≤ (processNeighbor dm nodes query k ef st nb).cand.length := by
  by_cases hv : nb ∈ st.vis
  · simpa [processNeighbor, hv] using hb
  · rcases hget : nodes[nb]? with _ | node
    · simpa [processNeighbor, if_neg hv, hget] using hb
    · by_cases hpush : pushCond k st.cand (dm.distance query node.embedding) = true
      · simp only [processNeighbor, if_neg hv, hget, hpush, if_pos]
        split
        · rename_i hgt
          simp only [length_stableSort, List.length_append, List.length_cons,
            List.length_nil] at hgt
          simp only [List.length_dropLast, length_stableSort, List.length_append,
            List.length_cons, List.length_nil]
          omega
        · simp only [length_stableSort, List.length_append, List.length_cons,
            List.length_nil]
          omega
      · simpa [processNeighbor, if_neg hv, hget, hpush] using hb

/-- `search_layer` returns an ascending-by-distance list. -/
theorem search_layer_sorted {T : Type} (idx : HNSWIndex T) (query : List ℚ)
    (eps : List ℕ) (layer k : ℕ) :
    DistSorted (idx.search_layer query eps layer k) := by
  show DistSorted (searchLoop idx.distance_metric idx.nodes query layer k
    idx.ef_construction
    { cand := stableSort leDist
        (initSeeds idx.distance_metric idx.nodes query layer eps).cand,
      dyn := stableSort leDist
        (initSeeds idx.distance_metric idx.nodes query layer eps).cand,
      vis := (initSeeds idx.distance_metric idx.nodes query layer eps).vis })
  obtain ⟨st', hP, _, heq⟩ :=
    searchLoop_reaches idx.distance_metric idx.nodes query layer k
      idx.ef_construction (fun st => DistSorted st.cand)
      (fun st c dd rest _ hP => hP)
      (fun st nb hP => processNeighbor_cand_sorted _ _ _ _ _ st nb hP)
      (slMeasure idx.nodes.length
        { cand := stableSort leDist
            (initSeeds idx.distance_metric idx.nodes query layer eps).cand,
          dyn := stableSort leDist
            (initSeeds idx.distance_metric idx.nodes query layer eps).cand,
          vis := (initSeeds idx.distance_metric idx.nodes query layer eps).vis })
      { cand := stableSort leDist
          (initSeeds idx.distance_metric idx.nodes query layer eps).cand,
        dyn := stableSort leDist
          (initSeeds idx.distance_metric idx.nodes query layer eps).cand,
        vis := (initSeeds idx.distance_metric idx.nodes query layer eps).vis }
      le_rfl (stableSort_distSorted _)
  rw [heq]
  exact hP

/-- `search_layer` never returns more than `max k (number of seeded
candidates)` results, and never fewer than it seeded. -/
theorem search_layer_length_bounds {T : Type} (idx : HNSWIndex T)
    (query : List ℚ) (eps : List ℕ) (layer k : ℕ) :
    (idx.search_layer query eps layer k).length
        ≤ max k (initSeeds idx.distance_metric idx.nodes query layer eps).cand.length ∧
      (initSeeds idx.distance_metric idx.nodes query layer eps).cand.length
        ≤ (idx.search_layer query eps layer k).length := by
  have hgoal : ∀ st0 : SLState,
      st0.cand = stableSort leDist
        (initSeeds idx.distance_metric idx.nodes query layer eps).cand →
      (searchLoop idx.distance_metric idx.nodes query layer k
          idx.ef_construction st0).length
          ≤ max k (initSeeds idx.distance_metric idx.nodes query layer eps).cand.length ∧
        (initSeeds idx.distance_metric idx.nodes query layer eps).cand.length
          ≤ (searchLoop idx.distance_metric idx.nodes query layer k
            idx.ef_construction st0).length := by
    intro st0 hst0
    obtain ⟨st', hP, _, heq⟩ :=
      searchLoop_reaches idx.distance_metric idx.nodes query layer k
        idx.ef_construction
        (fun st => st.cand.length
            ≤ max k (initSeeds idx.distance_metric idx.nodes query layer eps).cand.length ∧
          (initSeeds idx.distance_metric idx.nodes query layer eps).cand.length
            ≤ st.cand.length)
        (fun st c dd rest _ hP => hP)
        (fun st nb hP =>
          ⟨processNeighbor_cand_length_le _ _ _ _ _ st nb _ hP.1,
           processNeighbor_cand_length_ge _ _ _ _ _ st nb _ hP.2⟩)
        (slMeasure idx.nodes.length st0) st0 le_rfl
        (by
          dsimp only
          rw [hst0, length_stableSort]
          exact ⟨le_max_right _ _, le_rfl⟩)
    rw [heq]
    exact hP
  exact hgoal
    { cand := stableSort leDist
        (initSeeds idx.distance_metric idx.nodes query layer eps).cand,
      dyn := stableSort leDist
        (initSeeds idx.distance_metric idx.nodes query layer eps).cand,
      vis := (initSeeds idx.distance_metric idx.nodes query layer eps).vis }
    rfl

theorem initSeeds_cand_length_le {T : Type} (dm : DistanceMetric)
    (nodes : List (HNSWNode T)) (query : List ℚ) (layer : ℕ) (eps : List ℕ) :
    (initSeeds dm nodes query layer eps).cand.length ≤ eps.length := by
  suffices h : ∀ (eps : List ℕ) (st : SLState),
      ((eps.foldl
        (fun st ep =>
          match nodes[ep]? with
          | some node =>
              if layer = 0 ∨ layer < node.connections.length then
                { st with cand := st.cand ++ [(ep, dm.distance query node.embedding)],
                          vis := ep :: st.vis }
              else st
          | none => st)
        st).cand.length) ≤ st.cand.length + eps.length by
    simpa [initSeeds] using h eps ⟨[], [], []⟩
  intro eps
  induction eps with
  | nil => intro st; simp
  | cons e rest ih =>
      intro st
      simp only [List.foldl_cons]
      refine le_trans (ih _) ?_
      rcases hget : nodes[e]? with _ | node
      · simp [hget]
      · by_cases hpart : layer = 0 ∨ layer < node.connections.length
        · simp only [hget, hpart, if_pos, List.length_cons]
          simp [List.length_append]
          omega
        · simp only [hget, hpart, if_neg, not_false_iff, List.length_cons]
          omega

/-- The upper-layer entry-point chain of `search` keeps at most one entry. -/
theorem search_chain_length_le_one {T : Type} (idx : HNSWIndex T)
    (query : List ℚ) (layers : List ℕ) (eps : List ℕ) (h : eps.length ≤ 1) :
    (layers.foldl
      (fun eps layer =>
        if eps ≠ [] then (idx.search_layer query eps layer 1).map Prod.fst
        else eps)
      eps).length ≤ 1 := by
  induction layers generalizing eps with
  | nil => exact h
  | cons L rest ih =>
      simp only [List.foldl_cons]
      refine ih _ ?_
      by_cases hne : eps ≠ []
      · rw [if_pos hne, List.length_map]
        have hb := search_layer_length_bounds idx query eps L 1
        have hs := initSeeds_cand_length_le idx.distance_metric idx.nodes query L eps
        have hmx : max 1 (initSeeds idx.distance_metric idx.nodes query L eps).cand.length
            ≤ 1 := max_le le_rfl (le_trans hs h)
        omega
      · rw [if_neg hne]
        exact h

/-- C8 (amended: `k ≥ 1`): for a non-empty index, `search(q, k)` returns at
most `k` results in non-decreasing distance order. -/
theorem C8_search_bounded_and_sorted {T : Type} (idx : HNSWIndex T)
    (query : List ℚ) (k : ℕ) (hk : 1 ≤ k) (hne : idx.nodes ≠ []) :
    (idx.search query k).length ≤ k ∧
      (idx.search query k).Pairwise fun a b => a.2.1 ≤ b.2.1 := by
  rcases hep : idx.entry_point with _ | ep0
  · simp [HNSWIndex.search, hep]
  · have hempty : idx.nodes.isEmpty = false := by
      rcases h : idx.nodes with _ | _
      · exact absurd h hne
      · rfl
    simp only [HNSWIndex.search, hep, hempty, Bool.false_eq_true, if_neg,
      not_false_iff]
    constructor
    · rw [List.length_map]
      have hb := search_layer_length_bounds idx query
        (if (idx.nodes.map fun node => node.connections.length - 1).foldl max 0 = 0
          then [ep0]
          else (descRange 1
              (((idx.nodes.map fun node => node.connections.length - 1).foldl max 0) + 1)).foldl
            (fun eps layer =>
              if eps ≠ [] then (idx.search_layer query eps layer 1).map Prod.fst
              else eps)
            [ep0]) 0 k
      have heps : (if (idx.nodes.map fun node => node.connections.length - 1).foldl max 0 = 0
          then [ep0]
          else (descRange 1
              (((idx.nodes.map fun node => node.connections.length - 1).foldl max 0) + 1)).foldl
            (fun eps layer =>
              if eps ≠ [] then (idx.search_layer query eps layer 1).map Prod.fst
              else eps)
            [ep0]).length ≤ 1 := by
        split
        · simp
        · exact search_chain_length_le_one idx query _ [ep0] (by simp)
      have hseed := initSeeds_cand_length_le idx.distance_metric idx.nodes query 0
        (if (idx.nodes.map fun node => node.connections.length - 1).foldl max 0 = 0
          then [ep0]
          else (descRange 1
              (((idx.nodes.map fun node => node.connections.length - 1).foldl max 0) + 1)).foldl
            (fun eps layer =>
              if eps ≠ [] then (idx.search_layer query eps layer 1).map Prod.fst
              else eps)
            [ep0])
      refine le_trans hb.1 (max_le le_rfl ?_)
      omega
    · rw [List.pairwise_map]
      refine (search_layer_sorted idx query _ 0 k).imp ?_
      intro a b hab
      rcases ha : idx.nodes[a.1]? with _ | na <;> rcases hb : idx.nodes[b.1]? with _ | nb <;>
        simpa [ha, hb] using hab

theorem wIdxA_search_layer_self :
    wIdxA.search_layer [1, 2, 3] [0] 0 0
      = [(0, wIdxA.distance_metric.distance [1, 2, 3] [1, 2, 3])] := by
  have hinit : initSeeds wIdxA.distance_metric wIdxA.nodes [1, 2, 3] 0 [0]
      = ⟨[(0, wIdxA.distance_metric.distance [1, 2, 3] [1, 2, 3])], [], [0]⟩ := by
    simp [initSeeds, show wIdxA.nodes[0]? = some w5nodeA from rfl,
      show w5nodeA.embedding = [1, 2, 3] from rfl]
  have hsort : stableSort leDist
      [(0, wIdxA.distance_metric.distance [1, 2, 3] [1, 2, 3])]
      = [(0, wIdxA.distance_metric.distance [1, 2, 3] [1, 2, 3])] := rfl
  have hloop2 : searchLoop wIdxA.distance_metric wIdxA.nodes [1, 2, 3] 0 0
      wIdxA.ef_construction
      ⟨[(0, wIdxA.distance_metric.distance [1, 2, 3] [1, 2, 3])], [], [0]⟩
      = [(0, wIdxA.distance_metric.distance [1, 2, 3] [1, 2, 3])] := by
    rw [searchLoop.eq_def]
  have hloop1 : searchLoop wIdxA.distance_metric wIdxA.nodes [1, 2, 3] 0 0
      wIdxA.ef_construction
      ⟨[(0, wIdxA.distance_metric.distance [1, 2, 3] [1, 2, 3])],
       [(0, wIdxA.distance_metric.distance [1, 2, 3] [1, 2, 3])], [0]⟩
      = [(0, wIdxA.distance_metric.distance [1, 2, 3] [1, 2, 3])] := by
    rw [searchLoop.eq_def]
    dsimp only
    rw [show wIdxA.nodes[0]? = some w5nodeA from rfl]
    dsimp only
    rw [show layerNeighbors wIdxA.nodes 0 0 w5nodeA = [] from rfl]
    rw [List.foldl_nil]
    exact hloop2
  rw [HNSWIndex.search_layer]
  rw [hinit]
  dsimp only
  rw [hsort]
  exact hloop1

/-- C8 counterexample: with `k = 0` the one-node index returns one result, so
"`search(q, k)` returns at most `k` results" fails at `k = 0`. -/
theorem C8_counterexample_k_zero : (wIdxA.search [1, 2, 3] 0).length = 1 := by
  rw [HNSWIndex.search]
  simp only [show wIdxA.entry_point = some 0 from rfl]
  simp only [show wIdxA.nodes.isEmpty = false from rfl, Bool.false_eq_true,
    if_neg, not_false_iff]
  rw [show ((wIdxA.nodes.map fun node => node.connections.length - 1).foldl max 0)
      = 0 from rfl]
  simp only [reduceIte]
  rw [wIdxA_search_layer_self]
  simp

/-- C8 witness: the amended bound applied to the one-node index at `k = 1`. -/
theorem C8_search_bounded_and_sorted_witness :
    ((1 : ℕ) ≤ 1 ∧ wIdxA.nodes ≠ []) ∧
      ((wIdxA.search [1, 2, 3] 1).length ≤ 1 ∧
        (wIdxA.search [1, 2, 3] 1).Pairwise fun a b => a.2.1 ≤ b.2.1) := by
  have hne : wIdxA.nodes ≠ [] := fun h =>
    absurd (show (1 : ℕ) = 0 from congrArg List.length h) (by simp)
  exact ⟨⟨le_rfl, hne⟩, C8_search_bounded_and_sorted wIdxA [1, 2, 3] 1 le_rfl hne⟩

/-! ### Frame lemmas for the insertion descent -/

theorem selLoop_subset {T : Type} (dm : DistanceMetric)
    (nodes : List (HNSWNode T)) (m : ℕ) :
    ∀ (n : ℕ) (remaining : List (ℕ × ℝ)) (selected : List ℕ),
      remaining.length ≤ n →
      ∀ x ∈ selLoop dm nodes m selected remaining,
        x ∈ selected ∨ x ∈ remaining.map Prod.fst := by
  intro n
  induction n with
  | zero =>
      intro remaining selected hlen x hx
      have hrem : remaining = [] := List.length_eq_zero.mp (by omega)
      subst hrem
      rw [selLoop.eq_def] at hx
      simp only [ne_eq, not_true_eq_false, and_false, dite_false] at hx
      exact Or.inl hx
  | succ n ih =>
      intro remaining selected hlen x hx
      rw [selLoop.eq_def] at hx
      by_cases hcond : selected.length < m ∧ remaining ≠ []
      · rw [dif_pos hcond] at hx
        have hbest := selectScan_fst_lt dm nodes selected remaining hcond.2
        have hlen' : (remaining.eraseIdx
            (selectScan dm nodes selected remaining).1).length ≤ n := by
          rw [List.length_eraseIdx]
          rw [if_pos hbest]
          omega
        rcases ih _ _ hlen' x hx with hsel | hrem
        · rcases List.mem_append.mp hsel with h | h
          · exact Or.inl h
          · right
            have hchosen : (remaining.getD
                (selectScan dm nodes selected remaining).1 (0, 0)) ∈ remaining := by
              rw [List.getD_eq_getElem?_getD]
              rw [List.getElem?_eq_getElem hbest]
              exact List.getElem_mem _
            have hx' : x = (remaining.getD
                (selectScan dm nodes selected remaining).1 (0, 0)).1 := by
              simpa using h
            rw [hx']
            exact List.mem_map_of_mem Prod.fst hchosen
        · right
          rcases List.mem_map.mp hrem with ⟨p, hp, hpx⟩
          exact hpx ▸ List.mem_map_of_mem Prod.fst
            (List.eraseIdx_subset _ _ hp)
      · rw [dif_neg hcond] at hx
        exact Or.inl hx

/-- `select_neighbors` only returns slots drawn from its candidate list. -/
theorem select_neighbors_subset {T : Type} (idx : HNSWIndex T)
    (candidates : List (ℕ × ℝ)) (m : ℕ) :
    ∀ x ∈ idx.select_neighbors candidates m, x ∈ candidates.map Prod.fst := by
  intro x hx
  rw [HNSWIndex.select_neighbors.eq_def] at hx
  by_cases hlen : candidates.length ≤ m
  · rw [if_pos hlen] at hx
    exact hx
  · rw [if_neg hlen] at hx
    rcases candidates with _ | ⟨c0, rest⟩
    · simp at hlen
    · rcases selLoop_subset idx.distance_metric idx.nodes m rest.length rest
        [c0.1] le_rfl x hx with h | h
      · simp only [List.mem_singleton] at h
        rw [h]
        simp
      · simp only [List.map_cons, List.mem_cons]
        exact Or.inr h

/-- The non-`connections` data and the per-node row counts that
`connectAtLayer` leaves intact. -/
def nodeShape {T : Type} (nd : HNSWNode T) :
    String × List ℚ × Option (Document T) × ℕ :=
  (nd.id, nd.embedding, nd.document, nd.connections.length)

theorem connectAtLayer_entry_point {T : Type} (idx : HNSWIndex T)
    (emb : List ℚ) (ni layer : ℕ) (eps : List ℕ) :
    (connectAtLayer idx emb ni layer eps).1.entry_point = idx.entry_point := rfl

theorem connectAtLayer_map {T : Type} (idx : HNSWIndex T)
    (emb : List ℚ) (ni layer : ℕ) (eps : List ℕ) :
    (connectAtLayer idx emb ni layer eps).1.node_id_to_index
      = idx.node_id_to_index := rfl

theorem connectAtLayer_params {T : Type} (idx : HNSWIndex T)
    (emb : List ℚ) (ni layer : ℕ) (eps : List ℕ) :
    (connectAtLayer idx emb ni layer eps).1.m = idx.m ∧
      (connectAtLayer idx emb ni layer eps).1.m_max = idx.m_max ∧
      (connectAtLayer idx emb ni layer eps).1.ef_construction = idx.ef_construction ∧
      (connectAtLayer idx emb ni layer eps).1.max_layers = idx.max_layers ∧
      (connectAtLayer idx emb ni layer eps).1.distance_metric = idx.distance_metric :=
  ⟨rfl, rfl, rfl, rfl, rfl⟩


theorem pushNeighbor_shape {T : Type} (node_index layer : ℕ)
    (ns : List (HNSWNode T)) (nbr : ℕ) (j : ℕ) :
    ((pushNeighbor node_index layer ns nbr)[j]?).map nodeShape
      = (ns[j]?).map nodeShape := by
  rw [pushNeighbor]
  rcases hget : ns[nbr]? with _ | nbnode
  · rfl
  · by_cases hlt : layer < nbnode.connections.length
    · simp only [hlt, if_pos]
      by_cases hj : nbr = j
      · subst hj
        rw [List.getElem?_set]
        rw [if_pos rfl, if_pos (List.getElem?_eq_some_iff.mp hget).1, hget]
        simp [nodeShape, List.length_set]
      · rw [List.getElem?_set_ne hj]
    · simp [hlt]

theorem setNewNodeRow_shape {T : Type} (node_index layer : ℕ) (nbrs : List ℕ)
    (ns : List (HNSWNode T)) (j : ℕ) :
    ((setNewNodeRow node_index layer nbrs ns)[j]?).map nodeShape
      = (ns[j]?).map nodeShape := by
  rw [setNewNodeRow]
  rcases hget : ns[node_index]? with _ | nn
  · rfl
  · by_cases hj : node_index = j
    · subst hj
      rw [List.getElem?_set]
      rw [if_pos rfl, if_pos (List.getElem?_eq_some_iff.mp hget).1, hget]
      simp [nodeShape, List.length_set]
    · rw [List.getElem?_set_ne hj]

theorem foldl_pushNeighbor_shape {T : Type} (node_index layer : ℕ)
    (nbrs : List ℕ) (ns : List (HNSWNode T)) (j : ℕ) :
    ((nbrs.foldl (pushNeighbor node_index layer) ns)[j]?).map nodeShape
      = (ns[j]?).map nodeShape := by
  induction nbrs generalizing ns with
  | nil => rfl
  | cons nbr rest ih =>
      simp only [List.foldl_cons]
      rw [ih, pushNeighbor_shape]

theorem connectAtLayer_shape {T : Type} (idx : HNSWIndex T)
    (emb : List ℚ) (ni layer : ℕ) (eps : List ℕ) (j : ℕ) :
    ((connectAtLayer idx emb ni layer eps).1.nodes[j]?).map nodeShape
      = (idx.nodes[j]?).map nodeShape := by
  show ((setNewNodeRow ni layer _ (List.foldl (pushNeighbor ni layer) idx.nodes _))[j]?).map
      nodeShape = (idx.nodes[j]?).map nodeShape
  rw [setNewNodeRow_shape, foldl_pushNeighbor_shape]

theorem connectAtLayer_nodes_length {T : Type} (idx : HNSWIndex T)
    (emb : List ℚ) (ni layer : ℕ) (eps : List ℕ) :
    (connectAtLayer idx emb ni layer eps).1.nodes.length = idx.nodes.length := by
  have h := connectAtLayer_shape idx emb ni layer eps
  by_contra hne
  rcases Nat.lt_or_ge (connectAtLayer idx emb ni layer eps).1.nodes.length
      idx.nodes.length with hlt | hge
  · have h1 := h (connectAtLayer idx emb ni layer eps).1.nodes.length
    rw [List.getElem?_eq_none le_rfl] at h1
    rw [List.getElem?_eq_getElem hlt] at h1
    cases h1
  · have hlt2 : idx.nodes.length
        < (connectAtLayer idx emb ni layer eps).1.nodes.length := by
      omega
    have h1 := h idx.nodes.length
    rw [List.getElem?_eq_none le_rfl] at h1
    rw [List.getElem?_eq_getElem hlt2] at h1
    cases h1

/-! ### The entry-point invariant (C1) -/

/-- Every stored node has at least one connection row (level + 1 rows at
creation; rows are edited in place, never removed). -/
abbrev RowsNonempty {T : Type} (nodes : List (HNSWNode T)) : Prop :=
  ∀ (j : ℕ) (nd : HNSWNode T), nodes[j]? = some nd → nd.connections ≠ []

/-- Entry-point validity: `entry_point == None ⇔ node_count == 0`, and the
entry point is a valid slot whose level is maximal. -/
abbrev EPValid {T : Type} (idx : HNSWIndex T) : Prop :=
  (idx.entry_point = none ↔ idx.nodes = []) ∧
    ∀ e : ℕ, idx.entry_point = some e → ∃ en, idx.nodes[e]? = some en ∧
      ∀ (j : ℕ) (nj : HNSWNode T), idx.nodes[j]? = some nj →
        nodeLevel nj ≤ nodeLevel en

abbrev InvEP {T : Type} (idx : HNSWIndex T) : Prop :=
  EPValid idx ∧ RowsNonempty idx.nodes

theorem length_eq_of_shape_eq {T : Type} {ns1 ns2 : List (HNSWNode T)}
    (h : ∀ j : ℕ, (ns1[j]?).map nodeShape = (ns2[j]?).map nodeShape) :
    ns1.length = ns2.length := by
  by_contra hne
  rcases Nat.lt_or_ge ns1.length ns2.length with hlt | hge
  · have h1 := h ns1.length
    rw [List.getElem?_eq_none le_rfl, List.getElem?_eq_getElem hlt] at h1
    cases h1
  · have hlt2 : ns2.length < ns1.length := by omega
    have h1 := h ns2.length
    rw [List.getElem?_eq_getElem hlt2, List.getElem?_eq_none le_rfl] at h1
    cases h1

theorem option_map_shape_some {T : Type} {o : Option (HNSWNode T)}
    {x : HNSWNode T} (h : o.map nodeShape = (some x).map nodeShape) :
    ∃ y, o = some y ∧ nodeShape y = nodeShape x := by
  rcases o with _ | y
  · simp at h
  · exact ⟨y, rfl, by simpa using h⟩

theorem nodeShape_connections_length {T : Type} {a b : HNSWNode T}
    (h : nodeShape a = nodeShape b) :
    a.connections.length = b.connections.length := by
  have h2 := congrArg (fun p => p.2.2.2) h
  simpa [nodeShape] using h2

theorem insertDescend_frame {T : Type} (idx1 : HNSWIndex T) (emb : List ℚ)
    (ni lvl : ℕ) (eps0 : List ℕ) :
    (insertDescend idx1 emb ni lvl eps0).entry_point = idx1.entry_point ∧
      (insertDescend idx1 emb ni lvl eps0).node_id_to_index
        = idx1.node_id_to_index ∧
      ∀ j : ℕ, ((insertDescend idx1 emb ni lvl eps0).nodes[j]?).map nodeShape
        = (idx1.nodes[j]?).map nodeShape := by
  have h : ∀ (layers : List ℕ) (acc : HNSWIndex T × List ℕ),
      (acc.1.entry_point = idx1.entry_point ∧
        acc.1.node_id_to_index = idx1.node_id_to_index ∧
        ∀ j : ℕ, (acc.1.nodes[j]?).map nodeShape = (idx1.nodes[j]?).map nodeShape) →
      ((layers.foldl
          (fun (acc : HNSWIndex T × List ℕ) layer =>
            connectAtLayer acc.1 emb ni layer acc.2) acc).1.entry_point
            = idx1.entry_point ∧
        (layers.foldl
          (fun (acc : HNSWIndex T × List ℕ) layer =>
            connectAtLayer acc.1 emb ni layer acc.2) acc).1.node_id_to_index
            = idx1.node_id_to_index ∧
        ∀ j : ℕ, ((layers.foldl
          (fun (acc : HNSWIndex T × List ℕ) layer =>
            connectAtLayer acc.1 emb ni layer acc.2) acc).1.nodes[j]?).map nodeShape
            = (idx1.nodes[j]?).map nodeShape) := by
    intro layers
    induction layers with
    | nil => intro acc hacc; exact hacc
    | cons L rest ih =>
        intro acc hacc
        simp only [List.foldl_cons]
        refine ih _ ⟨?_, ?_, ?_⟩
        · rw [connectAtLayer_entry_point]
          exact hacc.1
        · rw [connectAtLayer_map]
          exact hacc.2.1
        · intro j
          rw [connectAtLayer_shape]
          exact hacc.2.2 j
  exact h (descRange 0 (lvl + 1)) (idx1, eps0) ⟨rfl, rfl, fun _ => rfl⟩

/-- The state of `insert` after allocating the new node and extending the id
map (steps 3 of the spec): used to state the unfolding lemmas. -/
def pushIdx {T : Type} (idx : HNSWIndex T) (id : String) (emb : List ℚ)
    (doc : Option (Document T)) (lvl : ℕ) : HNSWIndex T :=
  { idx with
      nodes := idx.nodes ++ [⟨id, emb, doc, List.replicate (lvl + 1) []⟩],
      node_id_to_index := (id, idx.nodes.length) :: idx.node_id_to_index }

theorem insert_eq_first {T : Type} (idx : HNSWIndex T) (id : String)
    (emb : List ℚ) (doc : Option (Document T)) (lvl : ℕ)
    (hdup : (idx.node_id_to_index.lookup id).isSome = false)
    (hep : idx.entry_point = none) :
    idx.insert id emb doc lvl
      = ({ pushIdx idx id emb doc lvl with entry_point := some idx.nodes.length },
         .ok ()) := by
  rw [HNSWIndex.insert, if_neg (by rw [hdup]; exact Bool.false_ne_true)]
  dsimp only
  rw [hep]
  rfl

theorem insert_eq_nonfirst {T : Type} (idx : HNSWIndex T) (id : String)
    (emb : List ℚ) (doc : Option (Document T)) (lvl : ℕ) (ep0 : ℕ)
    (hdup : (idx.node_id_to_index.lookup id).isSome = false)
    (hep : idx.entry_point = some ep0) :
    idx.insert id emb doc lvl
      = (promoteEP
          (insertDescend (pushIdx idx id emb doc lvl) emb idx.nodes.length lvl
            (topChain (pushIdx idx id emb doc lvl) emb lvl ep0))
          idx.nodes.length lvl,
         .ok ()) := by
  rw [HNSWIndex.insert, if_neg (by rw [hdup]; exact Bool.false_ne_true)]
  dsimp only
  split
  · rename_i heq
    rw [hep] at heq
    cases heq
  · rename_i e heq
    rw [hep] at heq
    have he : e = ep0 := by simpa using heq.symm
    subst he
    rfl

/-- Sequential `insert` preserves entry-point validity and row-nonemptiness. -/
theorem insert_preserves_InvEP {T : Type} (idx : HNSWIndex T) (id : String)
    (emb : List ℚ) (doc : Option (Document T)) (lvl : ℕ) (h : InvEP idx) :
    InvEP (idx.insert id emb doc lvl).1 := by
  by_cases hdup : (idx.node_id_to_index.lookup id).isSome = true
  · have hred : (idx.insert id emb doc lvl).1 = idx := by
      rw [HNSWIndex.insert, if_pos hdup]
    rw [hred]
    exact h
  · have hdup' : (idx.node_id_to_index.lookup id).isSome = false := by
      simpa only [Bool.not_eq_true] using hdup
    rcases hep : idx.entry_point with _ | ep0
    · rw [insert_eq_first idx id emb doc lvl hdup' hep]
      have hempty : idx.nodes = [] := h.1.1.mp hep
      constructor
      · constructor
        · constructor
          · intro habs
            cases habs
          · intro habs
            have : idx.nodes.length + 1 = 0 := by
              have h2 := congrArg List.length habs
              simpa [pushIdx] using h2
            omega
        · intro e he
          have he' : e = idx.nodes.length := by simpa using he.symm
          subst he'
          refine ⟨⟨id, emb, doc, List.replicate (lvl + 1) []⟩, ?_, ?_⟩
          · show (pushIdx idx id emb doc lvl).nodes[idx.nodes.length]? = _
            rw [pushIdx]
            dsimp only
            rw [List.getElem?_append_right le_rfl]
            simp
          · intro j nj hj
            have hj' : (idx.nodes ++
                [(⟨id, emb, doc, List.replicate (lvl + 1) []⟩ : HNSWNode T)])[j]?
                = some nj := hj
            rw [hempty] at hj'
            rcases List.getElem?_eq_some_iff.mp hj' with ⟨hjlen, hjval⟩
            have hj0 : j = 0 := by simpa using hjlen
            subst hj0
            rw [← hjval]
            simp
      · intro j nd hj
        have hj' : (idx.nodes ++
            [(⟨id, emb, doc, List.replicate (lvl + 1) []⟩ : HNSWNode T)])[j]?
            = some nd := hj
        rw [hempty] at hj'
        rcases List.getElem?_eq_some_iff.mp hj' with ⟨hjlen, hjval⟩
        have hj0 : j = 0 := by simpa using hjlen
        subst hj0
        rw [← hjval]
        simp
    · rw [insert_eq_nonfirst idx id emb doc lvl ep0 hdup' hep]
      obtain ⟨en, hen, hmax⟩ := h.1.2 ep0 hep
      have heplen : ep0 < idx.nodes.length := (List.getElem?_eq_some_iff.mp hen).1
      obtain ⟨hdep, hdmap, hdshape⟩ := insertDescend_frame
        (pushIdx idx id emb doc lvl) emb idx.nodes.length lvl
        (topChain (pushIdx idx id emb doc lvl) emb lvl ep0)
      generalize hidx2 : insertDescend (pushIdx idx id emb doc lvl) emb
        idx.nodes.length lvl (topChain (pushIdx idx id emb doc lvl) emb lvl ep0)
        = idx2
      rw [hidx2] at hdep hdmap hdshape
      have hp1ep : (pushIdx idx id emb doc lvl).entry_point = some ep0 := hep
      have hp1nodes : (pushIdx idx id emb doc lvl).nodes
          = idx.nodes ++ [⟨id, emb, doc, List.replicate (lvl + 1) []⟩] := rfl
      have h1ep0 : (pushIdx idx id emb doc lvl).nodes[ep0]? = some en := by
        rw [hp1nodes, List.getElem?_append_left heplen]
        exact hen
      have h1new : (pushIdx idx id emb doc lvl).nodes[idx.nodes.length]?
          = some ⟨id, emb, doc, List.replicate (lvl + 1) []⟩ := by
        rw [hp1nodes, List.getElem?_append_right le_rfl]
        simp
      have hlen2 : idx2.nodes.length = idx.nodes.length + 1 := by
        rw [length_eq_of_shape_eq hdshape, hp1nodes]
        simp
      obtain ⟨en2, hen2, hshape2⟩ := option_map_shape_some
        (show (idx2.nodes[ep0]?).map nodeShape = (some en).map nodeShape by
          rw [hdshape ep0, h1ep0])
      obtain ⟨nn2, hnn2, hshapenn⟩ := option_map_shape_some
        (show (idx2.nodes[idx.nodes.length]?).map nodeShape
            = (some (⟨id, emb, doc, List.replicate (lvl + 1) []⟩ : HNSWNode T)).map
              nodeShape by
          rw [hdshape idx.nodes.length, h1new])
      have hen2level : nodeLevel en2 = nodeLevel en := by
        simp [nodeLevel, nodeShape_connections_length hshape2]
      have hnnlevel : nodeLevel nn2 = lvl := by
        have hc := nodeShape_connections_length hshapenn
        simp only [List.length_replicate] at hc
        simp [nodeLevel, hc]
      have hlevels : ∀ (j : ℕ) (nj : HNSWNode T), idx2.nodes[j]? = some nj →
          nodeLevel nj ≤ max (nodeLevel en) lvl := by
        intro j nj hj
        have hjs := hdshape j
        rw [hj] at hjs
        by_cases hjlt : j < idx.nodes.length
        · rw [hp1nodes, List.getElem?_append_left hjlt] at hjs
          rcases hold : idx.nodes[j]? with _ | nj0
          · rw [hold] at hjs; cases hjs
          · rw [hold] at hjs
            have hc := nodeShape_connections_length
              (show nodeShape nj = nodeShape nj0 by simpa using hjs)
            have h1 := hmax j nj0 hold
            have h2 : nodeLevel nj = nodeLevel nj0 := by simp [nodeLevel, hc]
            omega
        · have hjlen : j < idx2.nodes.length := (List.getElem?_eq_some_iff.mp hj).1
          have hjeq : j = idx.nodes.length := by omega
          subst hjeq
          rw [h1new] at hjs
          have hc := nodeShape_connections_length
            (show nodeShape nj
                = nodeShape (⟨id, emb, doc, List.replicate (lvl + 1) []⟩ : HNSWNode T) by
              simpa using hjs)
          simp only [List.length_replicate] at hc
          have h2 : nodeLevel nj = lvl := by simp [nodeLevel, hc]
          omega
      have hrows2 : RowsNonempty idx2.nodes := by
        intro j nd hj
        have hjs := hdshape j
        rw [hj] at hjs
        by_cases hjlt : j < idx.nodes.length
        · rw [hp1nodes, List.getElem?_append_left hjlt] at hjs
          rcases hold : idx.nodes[j]? with _ | nj0
          · rw [hold] at hjs; cases hjs
          · rw [hold] at hjs
            have hc := nodeShape_connections_length
              (show nodeShape nd = nodeShape nj0 by simpa using hjs)
            have hne := h.2 j nj0 hold
            intro habs
            rw [habs] at hc
            exact hne (List.length_eq_zero.mp hc.symm)
        · have hjlen : j < idx2.nodes.length := (List.getElem?_eq_some_iff.mp hj).1
          have hjeq : j = idx.nodes.length := by omega
          subst hjeq
          rw [h1new] at hjs
          have hc := nodeShape_connections_length
            (show nodeShape nd
                = nodeShape (⟨id, emb, doc, List.replicate (lvl + 1) []⟩ : HNSWNode T) by
              simpa using hjs)
          simp only [List.length_replicate] at hc
          intro habs
          rw [habs] at hc
          simp at hc
      have hnodesne : idx2.nodes ≠ [] := by
        intro habs
        rw [habs] at hlen2
        simp at hlen2
      rw [promoteEP]
      by_cases hlpos : 0 < lvl
      · rw [if_pos hlpos, hdep, hp1ep]
        dsimp only
        rw [hen2]
        dsimp only
        by_cases hcond : en2.connections.length ≤ lvl
        · rw [if_pos hcond]
          refine ⟨⟨⟨fun habs => (by cases habs), fun habs => absurd habs hnodesne⟩, ?_⟩,
            hrows2⟩
          intro e he
          have he' : e = idx.nodes.length := by simpa using he.symm
          subst he'
          refine ⟨nn2, hnn2, ?_⟩
          intro j nj hj
          have hl := hlevels j nj hj
          have henlvl : nodeLevel en ≤ lvl := by
            have hc := nodeShape_connections_length hshape2
            simp only [nodeLevel]
            omega
          rw [hnnlevel]
          omega
        · rw [if_neg hcond]
          refine ⟨⟨⟨fun habs => (by rw [hdep, hp1ep] at habs; cases habs),
            fun habs => absurd habs hnodesne⟩, ?_⟩, hrows2⟩
          intro e he
          rw [hdep, hp1ep] at he
          have he' : e = ep0 := by simpa using he.symm
          subst he'
          refine ⟨en2, hen2, ?_⟩
          intro j nj hj
          have hl := hlevels j nj hj
          have h2 : lvl ≤ nodeLevel en2 := by
            simp only [nodeLevel]
            omega
          rw [hen2level] at h2
          omega
      · rw [if_neg hlpos]
        have hlvl0 : lvl = 0 := by omega
        refine ⟨⟨⟨fun habs => (by rw [hdep, hp1ep] at habs; cases habs),
          fun habs => absurd habs hnodesne⟩, ?_⟩, hrows2⟩
        intro e he
        rw [hdep, hp1ep] at he
        have he' : e = ep0 := by simpa using he.symm
        subst he'
        refine ⟨en2, hen2, ?_⟩
        intro j nj hj
        have hl := hlevels j nj hj
        rw [hen2level]
        omega

theorem fnepFold_spec {T : Type} (l : List (ℕ × HNSWNode T)) (b0 : ℕ × ℕ) :
    b0.2 ≤ (l.foldl
        (fun (best : ℕ × ℕ) p =>
          let level := p.2.connections.length - 1
          if best.2 < level then (p.1, level) else best) b0).2 ∧
      (∀ p ∈ l, nodeLevel p.2 ≤ (l.foldl
        (fun (best : ℕ × ℕ) p =>
          let level := p.2.connections.length - 1
          if best.2 < level then (p.1, level) else best) b0).2) ∧
      ((l.foldl
        (fun (best : ℕ × ℕ) p =>
          let level := p.2.connections.length - 1
          if best.2 < level then (p.1, level) else best) b0) = b0 ∨
        ∃ p ∈ l, (l.foldl
        (fun (best : ℕ × ℕ) p =>
          let level := p.2.connections.length - 1
          if best.2 < level then (p.1, level) else best) b0) = (p.1, nodeLevel p.2)) := by
  induction l generalizing b0 with
  | nil => exact ⟨le_rfl, by simp, Or.inl rfl⟩
  | cons p rest ih =>
      simp only [List.foldl_cons]
      by_cases hc : b0.2 < p.2.connections.length - 1
      · rw [if_pos hc]
        obtain ⟨h1, h2, h3⟩ := ih (p.1, p.2.connections.length - 1)
        refine ⟨le_trans (le_of_lt hc) h1, ?_, ?_⟩
        · intro q hq
          rcases List.mem_cons.mp hq with hq | hq
          · subst hq
            exact le_trans (by simp [nodeLevel]) h1
          · exact h2 q hq
        · rcases h3 with h3 | ⟨q, hq, h3⟩
          · exact Or.inr ⟨p, List.mem_cons_self p rest, by
              rw [h3]; simp [nodeLevel]⟩
          · exact Or.inr ⟨q, List.mem_cons_of_mem p hq, h3⟩
      · rw [if_neg hc]
        obtain ⟨h1, h2, h3⟩ := ih b0
        refine ⟨h1, ?_, ?_⟩
        · intro q hq
          rcases List.mem_cons.mp hq with hq | hq
          · subst hq
            exact le_trans (by simp only [nodeLevel]; omega) h1
          · exact h2 q hq
        · rcases h3 with h3 | ⟨q, hq, h3⟩
          · exact Or.inl h3
          · exact Or.inr ⟨q, List.mem_cons_of_mem p hq, h3⟩

/-- The replacement entry point chosen by `remove` is a valid slot of maximal
level. -/
theorem findNewEntryPoint_spec {T : Type} (nodes : List (HNSWNode T))
    (hne : nodes ≠ []) :
    ∃ nd, nodes[findNewEntryPoint nodes]? = some nd ∧
      ∀ (j : ℕ) (nj : HNSWNode T), nodes[j]? = some nj →
        nodeLevel nj ≤ nodeLevel nd := by
  obtain ⟨h1, h2, h3⟩ := fnepFold_spec nodes.enum (0, 0)
  have hcover : ∀ (j : ℕ) (nj : HNSWNode T), nodes[j]? = some nj →
      (j, nj) ∈ nodes.enum := by
    intro j nj hj
    exact List.mem_enum_iff_getElem?.mpr hj
  rcases h3 with h3 | ⟨p, hp, h3⟩
  · rcases hn0 : nodes[0]? with _ | nd0
    · rcases nodes with _ | ⟨a, rest⟩
      · exact absurd rfl hne
      · simp at hn0
    · refine ⟨nd0, ?_, ?_⟩
      · rw [findNewEntryPoint, h3]
        exact hn0
      · intro j nj hj
        have h4 := h2 (j, nj) (hcover j nj hj)
        rw [h3] at h4
        have h5 : nodeLevel nj ≤ 0 := h4
        simp only [nodeLevel] at h5 ⊢
        omega
  · have hpg : nodes[p.1]? = some p.2 := List.mem_enum_iff_getElem?.mp hp
    refine ⟨p.2, ?_, ?_⟩
    · rw [findNewEntryPoint, h3]
      exact hpg
    · intro j nj hj
      have := h2 (j, nj) (hcover j nj hj)
      rw [h3] at this
      exact this

/-- The per-node connection rewrite of `remove` (drop the removed slot,
shift higher slots down). -/
def remapNode {T : Type} (s : ℕ) (nd : HNSWNode T) : HNSWNode T :=
  { nd with connections := nd.connections.map fun row =>
      (row.filter fun x => decide (x ≠ s)).map fun x =>
        if s < x then x - 1 else x }

/-- The node list resulting from `remove` at slot `s`. -/
def remNodes {T : Type} (idx : HNSWIndex T) (s : ℕ) : List (HNSWNode T) :=
  (idx.nodes.eraseIdx s).map (remapNode s)

/-- The id map resulting from `remove`. -/
def remMap {T : Type} (idx : HNSWIndex T) (id : String) (s : ℕ) :
    List (String × ℕ) :=
  (idx.node_id_to_index.filter fun p => decide (p.1 ≠ id)).map
    fun p => if s < p.2 then (p.1, p.2 - 1) else p

/-- The entry point resulting from `remove` at slot `s`. -/
def remEP {T : Type} (idx : HNSWIndex T) (s : ℕ) : Option ℕ :=
  if idx.entry_point = some s then
    if (remNodes idx s).isEmpty then none
    else some (findNewEntryPoint (remNodes idx s))
  else
    match idx.entry_point with
    | some e => if s < e then some (e - 1) else some e
    | none => none

theorem remove_eq_found {T : Type} (idx : HNSWIndex T) (id : String) (s : ℕ)
    (hlook : idx.node_id_to_index.lookup id = some s) :
    idx.remove id
      = ({ idx with
            nodes := remNodes idx s,
            node_id_to_index := remMap idx id s,
            entry_point := remEP idx s },
         .ok ((idx.nodes[s]?).bind fun nd => nd.document)) := by
  rw [HNSWIndex.remove]
  simp only [hlook]
  rfl

theorem nodeLevel_remapNode {T : Type} (s : ℕ) (nd : HNSWNode T) :
    nodeLevel (remapNode s nd) = nodeLevel nd := by
  simp [remapNode, nodeLevel]

theorem remNodes_elem {T : Type} (idx : HNSWIndex T) (s j : ℕ)
    (nd' : HNSWNode T) (hj : (remNodes idx s)[j]? = some nd') :
    ∃ nd, idx.nodes[if j < s then j else j + 1]? = some nd ∧
      nd' = remapNode s nd := by
  rw [remNodes, List.getElem?_map] at hj
  rcases he : (idx.nodes.eraseIdx s)[j]? with _ | nd
  · rw [he] at hj
    cases hj
  · rw [he] at hj
    rw [List.getElem?_eraseIdx] at he
    refine ⟨nd, ?_, (Option.some.inj hj).symm⟩
    by_cases hjs : j < s
    · rw [if_pos hjs]
      rw [if_pos hjs] at he
      exact he
    · rw [if_neg hjs]
      rw [if_neg hjs] at he
      exact he

theorem remNodes_rows {T : Type} (idx : HNSWIndex T) (s : ℕ)
    (h : RowsNonempty idx.nodes) : RowsNonempty (remNodes idx s) := by
  intro j nd' hj
  obtain ⟨nd, hnd, hmap⟩ := remNodes_elem idx s j nd' hj
  have hne := h (if j < s then j else j + 1) nd hnd
  rw [hmap]
  simp only [remapNode]
  intro habs
  exact hne (List.map_eq_nil.mp habs)

theorem remEP_valid {T : Type} (idx : HNSWIndex T) (s : ℕ) (h : EPValid idx) :
    (remEP idx s = none ↔ remNodes idx s = []) ∧
      ∀ e : ℕ, remEP idx s = some e → ∃ en, (remNodes idx s)[e]? = some en ∧
        ∀ (j : ℕ) (nj : HNSWNode T), (remNodes idx s)[j]? = some nj →
          nodeLevel nj ≤ nodeLevel en := by
  by_cases hE : idx.entry_point = some s
  · unfold remEP
    rw [if_pos hE]
    by_cases hem : (remNodes idx s).isEmpty
    · rw [if_pos hem]
      refine ⟨⟨fun _ => List.isEmpty_iff.mp hem, fun _ => rfl⟩, ?_⟩
      intro e he
      cases he
    · have hem' : (remNodes idx s).isEmpty = false := by
        simpa using hem
      rw [if_neg (by simp [hem'])]
      have hne : remNodes idx s ≠ [] := List.isEmpty_eq_false.mp hem'
      refine ⟨⟨fun habs => (by cases habs), fun habs => absurd habs hne⟩, ?_⟩
      intro e he
      have he' : e = findNewEntryPoint (remNodes idx s) := by
        simpa using he.symm
      subst he'
      exact findNewEntryPoint_spec (remNodes idx s) hne
  · unfold remEP
    rw [if_neg hE]
    rcases hep : idx.entry_point with _ | e
    all_goals dsimp only
    · have hempty : idx.nodes = [] := h.1.mp hep
      have hN : remNodes idx s = [] := by
        rw [remNodes, hempty]
        rcases s with _ | s <;> rfl
      refine ⟨⟨fun _ => hN, fun _ => rfl⟩, ?_⟩
      intro e he
      cases he
    · have hes : e ≠ s := fun habs => hE (by rw [hep, habs])
      obtain ⟨en, hen, hmax⟩ := h.2 e hep
      have helen : e < idx.nodes.length := (List.getElem?_eq_some_iff.mp hen).1
      have hmax' : ∀ (j : ℕ) (nj : HNSWNode T),
          (remNodes idx s)[j]? = some nj →
          nodeLevel nj ≤ nodeLevel (remapNode s en) := by
        intro j nj hj
        obtain ⟨nd, hnd, hmap⟩ := remNodes_elem idx s j nj hj
        rw [hmap, nodeLevel_remapNode, nodeLevel_remapNode]
        exact hmax (if j < s then j else j + 1) nd hnd
      by_cases hse : s < e
      · have hget : (remNodes idx s)[e - 1]? = some (remapNode s en) := by
          rw [remNodes, List.getElem?_map, List.getElem?_eraseIdx]
          rw [if_neg (by omega)]
          have he1 : e - 1 + 1 = e := by omega
          rw [he1, hen]
          rfl
        rw [if_pos hse]
        refine ⟨⟨fun habs => (by cases habs), fun habs => ?_⟩, ?_⟩
        · rw [habs] at hget
          cases hget
        · intro e' he'
          have he'' : e' = e - 1 := by simpa using he'.symm
          subst he''
          exact ⟨remapNode s en, hget, hmax'⟩
      · have hes2 : e < s := by omega
        have hget : (remNodes idx s)[e]? = some (remapNode s en) := by
          rw [remNodes, List.getElem?_map, List.getElem?_eraseIdx]
          rw [if_pos hes2, hen]
          rfl
        rw [if_neg hse]
        refine ⟨⟨fun habs => (by cases habs), fun habs => ?_⟩, ?_⟩
        · rw [habs] at hget
          cases hget
        · intro e' he'
          have he'' : e' = e := by simpa using he'.symm
          subst he''
          exact ⟨remapNode s en, hget, hmax'⟩

/-- Sequential `remove` preserves entry-point validity and row-nonemptiness. -/
theorem remove_preserves_InvEP {T : Type} (idx : HNSWIndex T) (id : String)
    (h : InvEP idx) : InvEP (idx.remove id).1 := by
  rcases hlook : idx.node_id_to_index.lookup id with _ | s
  · have hred : (idx.remove id).1 = idx := by
      rw [HNSWIndex.remove, hlook]
    rw [hred]
    exact h
  · rw [remove_eq_found idx id s hlook]
    exact ⟨(remEP_valid idx s h.1).imp (fun a => a) (fun a => a),
      remNodes_rows idx s h.2⟩

/-- `clear` trivially restores entry-point validity. -/
theorem clear_preserves_InvEP {T : Type} (idx : HNSWIndex T) :
    InvEP idx.clear := by
  refine ⟨⟨⟨fun _ => rfl, fun _ => rfl⟩, ?_⟩, ?_⟩
  · intro e he
    cases he
  · intro j nd hj
    cases hj

/-- `insert_multiple` preserves entry-point validity (it is a fold of
`insert`). -/
theorem insert_multiple_preserves_InvEP {T : Type} (idx : HNSWIndex T)
    (items : List (String × List ℚ × Option (Document T))) (levels : List ℕ)
    (h : InvEP idx) : InvEP (idx.insert_multiple items levels).1 := by
  rw [HNSWIndex.insert_multiple]
  dsimp only
  refine foldl_preserve _
    (fun (acc : HNSWIndex T × List (Except String Unit)) => InvEP acc.1)
    items.enum (idx, []) h ?_
  intro b a _ hb
  exact insert_preserves_InvEP b.1 a.2.1 a.2.2.1 a.2.2.2 (levels.getD a.1 0) hb

/-- `remove_multiple` preserves entry-point validity (it is a fold of
`remove`). -/
theorem remove_multiple_preserves_InvEP {T : Type} (idx : HNSWIndex T)
    (ids : List String) (h : InvEP idx) :
    InvEP (idx.remove_multiple ids).1 := by
  rw [HNSWIndex.remove_multiple]
  rcases ids.find? (fun id => !(idx.contains id)) with _ | missing
  · dsimp only
    have hP : InvEP ((ids.foldl
        (fun (acc : HNSWIndex T × List (Option (Document T)) × Option String) id =>
          match acc.2.2 with
          | some _ => acc
          | none =>
              let r := acc.1.remove id
              match r.2 with
              | .ok doc => (r.1, acc.2.1 ++ [doc], none)
              | .error e => (r.1, acc.2.1, some e))
        (idx, [], none)).1) := by
      refine foldl_preserve _
        (fun (acc : HNSWIndex T × List (Option (Document T)) × Option String) =>
          InvEP acc.1) ids (idx, [], none) h ?_
      intro b a _ hb
      rcases b.2.2 with _ | err
      · dsimp only
        rcases hr : (b.1.remove a).2 with e | doc
        · have := remove_preserves_InvEP b.1 a hb
          simp only [hr]
          exact this
        · have := remove_preserves_InvEP b.1 a hb
          simp only [hr]
          exact this
      · exact hb
    rcases hfold : (ids.foldl
        (fun (acc : HNSWIndex T × List (Option (Document T)) × Option String) id =>
          match acc.2.2 with
          | some _ => acc
          | none =>
              let r := acc.1.remove id
              match r.2 with
              | .ok doc => (r.1, acc.2.1 ++ [doc], none)
              | .error e => (r.1, acc.2.1, some e))
        (idx, [], none)).2.2 with _ | e
    · exact hP
    · exact hP
  · exact h

theorem foldlMax_seed_le (l : List ℕ) (a : ℕ) : a ≤ l.foldl max a := by
  induction l generalizing a with
  | nil => exact le_rfl
  | cons y ys ih =>
      rw [List.foldl_cons]
      exact le_trans (le_max_left a y) (ih (max a y))

theorem foldlMax_mem_le (l : List ℕ) : ∀ a x : ℕ, x ∈ l → x ≤ l.foldl max a := by
  induction l with
  | nil =>
      intro a x hx
      cases hx
  | cons y ys ih =>
      intro a x hx
      rw [List.foldl_cons]
      rcases List.mem_cons.mp hx with h | h
      · subst h
        exact le_trans (le_max_right a x) (foldlMax_seed_le ys (max a x))
      · exact ih (max a y) x h

theorem foldlMax_eq_or_mem (l : List ℕ) : ∀ a : ℕ, l.foldl max a = a ∨
    l.foldl max a ∈ l := by
  induction l with
  | nil =>
      intro a
      exact Or.inl rfl
  | cons x xs ih =>
      intro a
      rw [List.foldl_cons]
      rcases ih (max a x) with h | h
      · rcases max_cases a x with ⟨h2, _⟩ | ⟨h2, _⟩
        · exact Or.inl (by rw [h, h2])
        · exact Or.inr (by rw [h, h2]; exact List.mem_cons_self x xs)
      · exact Or.inr (List.mem_cons_of_mem x h)

theorem option_map_eq_some_extract {α β : Type} (f : α → β) {o1 o2 : Option α}
    {x : α} (h : o1.map f = o2.map f) (hx : o1 = some x) :
    ∃ y, o2 = some y ∧ f x = f y := by
  subst hx
  rcases o2 with _ | y
  · simp at h
  · exact ⟨y, rfl, by simpa using h⟩

theorem epScanFold_spec {T : Type} (nodes : List (HNSWNode T)) (l : List ℕ)
    (b0 : Option ℕ × ℕ) :
    b0.2 ≤ (l.foldl (epScanStep nodes) b0).2 ∧
      (∀ i ∈ l, ∀ nd : HNSWNode T, nodes[i]? = some nd →
        nodeLevel nd ≤ (l.foldl (epScanStep nodes) b0).2) ∧
      (l.foldl (epScanStep nodes) b0 = b0 ∨
        ∃ i ∈ l, ∃ nd : HNSWNode T, nodes[i]? = some nd ∧
          l.foldl (epScanStep nodes) b0 = (some i, nodeLevel nd)) := by
  induction l generalizing b0 with
  | nil => exact ⟨le_rfl, by simp, Or.inl rfl⟩
  | cons i rest ih =>
      simp only [List.foldl_cons]
      rcases hnd : nodes[i]? with _ | nd
      · have hstep : epScanStep nodes b0 i = b0 := by
          simp [epScanStep, hnd]
        rw [hstep]
        obtain ⟨h1, h2, h3⟩ := ih b0
        refine ⟨h1, ?_, ?_⟩
        · intro j hj nd' hnd'
          rcases List.mem_cons.mp hj with hj | hj
          · subst hj
            rw [hnd] at hnd'
            cases hnd'
          · exact h2 j hj nd' hnd'
        · rcases h3 with h3 | ⟨j, hj, nd', h4, h5⟩
          · exact Or.inl h3
          · exact Or.inr ⟨j, List.mem_cons_of_mem i hj, nd', h4, h5⟩
      · by_cases hc : b0.2 < nd.connections.length - 1
        · have hstep : epScanStep nodes b0 i = (some i, nodeLevel nd) := by
            simp [epScanStep, hnd, nodeLevel, hc]
          rw [hstep]
          obtain ⟨h1, h2, h3⟩ := ih (some i, nodeLevel nd)
          have hlt : b0.2 < (some i, nodeLevel nd).2 := by
            simpa [nodeLevel] using hc
          refine ⟨le_trans (le_of_lt hlt) h1, ?_, ?_⟩
          · intro j hj nd' hnd'
            rcases List.mem_cons.mp hj with hj | hj
            · subst hj
              rw [hnd] at hnd'
              have hnd'' : nd = nd' := Option.some.inj hnd'
              subst hnd''
              exact le_trans (le_of_eq rfl) h1
            · exact h2 j hj nd' hnd'
          · rcases h3 with h3 | ⟨j, hj, nd', h4, h5⟩
            · exact Or.inr ⟨i, List.mem_cons_self i rest, nd, hnd, h3⟩
            · exact Or.inr ⟨j, List.mem_cons_of_mem i hj, nd', h4, h5⟩
        · have hstep : epScanStep nodes b0 i = b0 := by
            simp [epScanStep, hnd, hc]
          rw [hstep]
          obtain ⟨h1, h2, h3⟩ := ih b0
          refine ⟨h1, ?_, ?_⟩
          · intro j hj nd' hnd'
            rcases List.mem_cons.mp hj with hj | hj
            · subst hj
              rw [hnd] at hnd'
              have hnd'' : nd = nd' := Option.some.inj hnd'
              subst hnd''
              refine le_trans ?_ h1
              simp only [nodeLevel]
              omega
            · exact h2 j hj nd' hnd'
          · rcases h3 with h3 | ⟨j, hj, nd', h4, h5⟩
            · exact Or.inl h3
            · exact Or.inr ⟨j, List.mem_cons_of_mem i hj, nd', h4, h5⟩

theorem rowsFold_length (conns rows : List (List ℕ)) :
    (conns.enum.foldl
      (fun (rows : List (List ℕ)) q =>
        if q.1 < rows.length then rows.set q.1 q.2 else rows) rows).length
      = rows.length := by
  refine foldl_preserve _ (fun (r : List (List ℕ)) => r.length = rows.length) _ _ rfl ?_
  intro r q _ hr
  dsimp only
  split
  · rw [List.length_set]
    exact hr
  · exact hr

theorem commitStep_connLen {T : Type} (num : ℕ) (acc : HNSWIndex T)
    (p : ℕ × Except String (List (List ℕ))) (j : ℕ) :
    ((commitStep num acc p).nodes[j]?).map (fun nd => nd.connections.length)
      = (acc.nodes[j]?).map (fun nd => nd.connections.length) := by
  rw [commitStep]
  rcases p.2 with e | conns
  · rfl
  · rcases hget : acc.nodes[acc.nodes.length - num + p.1]? with _ | node
    · simp [hget]
    · simp only [hget]
      by_cases hj : acc.nodes.length - num + p.1 = j
      · subst hj
        rw [List.getElem?_set_self (List.getElem?_eq_some_iff.mp hget).1, hget]
        simp [rowsFold_length]
      · rw [List.getElem?_set_ne hj]

theorem commitStep_entry {T : Type} (num : ℕ) (acc : HNSWIndex T)
    (p : ℕ × Except String (List (List ℕ))) :
    (commitStep num acc p).entry_point = acc.entry_point := by
  rw [commitStep]
  rcases p.2 with e | conns
  · rfl
  · rcases hget : acc.nodes[acc.nodes.length - num + p.1]? with _ | node
    · simp [hget]
    · simp [hget]

theorem commitFold_invariants {T : Type} (num : ℕ)
    (results : List (ℕ × Except String (List (List ℕ)))) (acc : HNSWIndex T) :
    (results.foldl (commitStep num) acc).nodes.length = acc.nodes.length ∧
      (results.foldl (commitStep num) acc).entry_point = acc.entry_point ∧
      ∀ j : ℕ, (((results.foldl (commitStep num) acc).nodes[j]?).map
          (fun nd => nd.connections.length))
        = ((acc.nodes[j]?).map (fun nd => nd.connections.length)) := by
  refine foldl_preserve (commitStep num)
    (fun a => a.nodes.length = acc.nodes.length ∧
      a.entry_point = acc.entry_point ∧
      ∀ j : ℕ, ((a.nodes[j]?).map (fun nd => nd.connections.length))
        = ((acc.nodes[j]?).map (fun nd => nd.connections.length)))
    results acc ⟨rfl, rfl, fun _ => rfl⟩ ?_
  intro a p _ ⟨hlen, hep, hcl⟩
  refine ⟨(commitStep_nodes_length num a p).trans hlen,
    (commitStep_entry num a p).trans hep, ?_⟩
  intro j
  rw [commitStep_connLen num a p j]
  exact hcl j

theorem update_entry_point_EPValid {T : Type} (idx2 : HNSWIndex T)
    (items : List ((String × List ℚ × Option (Document T)) × ℕ))
    (hne : items ≠ [])
    (H1 : ∀ e : ℕ, idx2.entry_point = some e → ∃ en, idx2.nodes[e]? = some en ∧
      ∀ (j : ℕ) (nj : HNSWNode T), j < idx2.nodes.length - items.length →
        idx2.nodes[j]? = some nj → nodeLevel nj ≤ nodeLevel en)
    (H2 : idx2.entry_point = none → idx2.nodes.length ≤ items.length)
    (H3 : ∀ (i : ℕ) (p : (String × List ℚ × Option (Document T)) × ℕ),
      items[i]? = some p →
        ∃ nd, idx2.nodes[idx2.nodes.length - items.length + i]? = some nd ∧
          nodeLevel nd = p.2)
    (H4 : idx2.entry_point = none → ∃ p ∈ items, 0 < p.2) :
    EPValid (idx2.update_entry_point_after_batch_insertion items) := by
  have hnodesne : idx2.nodes ≠ [] := by
    rcases items with _ | ⟨p0, rest⟩
    · exact absurd rfl hne
    · obtain ⟨nd0, hnd0, _⟩ := H3 0 p0 (by simp)
      exact List.ne_nil_of_length_pos
        (by have := (List.getElem?_eq_some_iff.mp hnd0).1; omega)
  have hcov : ∀ j : ℕ, idx2.nodes.length - items.length ≤ j →
      j < idx2.nodes.length →
      j ∈ List.range' (idx2.nodes.length - items.length)
        (idx2.nodes.length - (idx2.nodes.length - items.length)) := by
    intro j hj1 hj2
    refine List.mem_range'.mpr ⟨j - (idx2.nodes.length - items.length), by omega, ?_⟩
    rw [one_mul]
    omega
  simp only [HNSWIndex.update_entry_point_after_batch_insertion]
  rw [if_neg (by simpa using hne)]
  by_cases hml : 0 < (items.map fun p => p.2).foldl max 0
  · rw [if_pos hml]
    obtain ⟨h1, h2, h3⟩ := epScanFold_spec idx2.nodes
      (List.range' (idx2.nodes.length - items.length)
        (idx2.nodes.length - (idx2.nodes.length - items.length)))
      (epScanInit idx2)
    rcases hep : idx2.entry_point with _ | ep
    · have hstart0 : idx2.nodes.length - items.length = 0 := by
        have := H2 hep
        omega
      have hinit : epScanInit idx2 = (none, 0) := by
        simp [epScanInit, hep]
      obtain ⟨p, hpmem, hppos⟩ := H4 hep
      obtain ⟨iP, hiP⟩ := List.mem_iff_getElem?.mp hpmem
      obtain ⟨ndP, hndP, hndPlvl⟩ := H3 iP p hiP
      have hndPlt := (List.getElem?_eq_some_iff.mp hndP).1
      have hbp := h2 (idx2.nodes.length - items.length + iP)
        (hcov _ (by omega) hndPlt) ndP hndP
      have hbest2pos : 0 <
          ((List.range' (idx2.nodes.length - items.length)
            (idx2.nodes.length - (idx2.nodes.length - items.length))).foldl
            (epScanStep idx2.nodes) (epScanInit idx2)).2 := by
        rw [hndPlvl] at hbp
        omega
      rcases h3 with h3 | ⟨i, hi, nd, hnd, h3⟩
      · rw [h3, hinit] at hbest2pos
        exact absurd hbest2pos (by simp)
      · refine ⟨⟨fun habs => ?_, fun habs => absurd habs hnodesne⟩, ?_⟩
        · rw [h3] at habs
          cases habs
        · intro e he
          rw [h3] at he
          have he' : i = e := by simpa using he
          subst he'
          refine ⟨nd, hnd, ?_⟩
          intro j nj hj
          have hjlt := (List.getElem?_eq_some_iff.mp hj).1
          have := h2 j (hcov j (by omega) hjlt) nj hj
          rw [h3] at this
          exact this
    · obtain ⟨en, hen, hmaxold⟩ := H1 ep hep
      have hinit : epScanInit idx2 = (some ep, nodeLevel en) := by
        simp [epScanInit, hep, hen, nodeLevel]
      rcases h3 with h3 | ⟨i, hi, nd, hnd, h3⟩
      · refine ⟨⟨fun habs => ?_, fun habs => absurd habs hnodesne⟩, ?_⟩
        · rw [h3, hinit] at habs
          cases habs
        · intro e he
          rw [h3, hinit] at he
          have he' : ep = e := by simpa using he
          subst he'
          refine ⟨en, hen, ?_⟩
          intro j nj hj
          have hjlt := (List.getElem?_eq_some_iff.mp hj).1
          by_cases hjs : j < idx2.nodes.length - items.length
          · exact hmaxold j nj hjs hj
          · have := h2 j (hcov j (by omega) hjlt) nj hj
            rw [h3, hinit] at this
            exact this
      · refine ⟨⟨fun habs => ?_, fun habs => absurd habs hnodesne⟩, ?_⟩
        · rw [h3] at habs
          cases habs
        · intro e he
          rw [h3] at he
          have he' : i = e := by simpa using he
          subst he'
          refine ⟨nd, hnd, ?_⟩
          intro j nj hj
          have hjlt := (List.getElem?_eq_some_iff.mp hj).1
          have hfold2 :
              ((List.range' (idx2.nodes.length - items.length)
                (idx2.nodes.length - (idx2.nodes.length - items.length))).foldl
                (epScanStep idx2.nodes) (epScanInit idx2)).2 = nodeLevel nd := by
            rw [h3]
          by_cases hjs : j < idx2.nodes.length - items.length
          · have hold := hmaxold j nj hjs hj
            have hinit2 := h1
            rw [hfold2] at hinit2
            rw [hinit] at hinit2
            have : nodeLevel en ≤ nodeLevel nd := hinit2
            omega
          · have := h2 j (hcov j (by omega) hjlt) nj hj
            rw [hfold2] at this
            exact this
  · rw [if_neg hml]
    have hml0 : (items.map fun p => p.2).foldl max 0 = 0 := by omega
    rcases hep : idx2.entry_point with _ | ep
    · obtain ⟨p, hpmem, hppos⟩ := H4 hep
      have := foldlMax_mem_le (items.map fun p => p.2) 0 p.2
        (List.mem_map_of_mem _ hpmem)
      omega
    · obtain ⟨en, hen, hmaxold⟩ := H1 ep hep
      refine ⟨⟨fun habs => ?_, fun habs => absurd habs hnodesne⟩, ?_⟩
      · rw [hep] at habs
        cases habs
      · intro e he
        rw [hep] at he
        have he' : ep = e := by simpa using he
        subst he'
        refine ⟨en, hen, ?_⟩
        intro j nj hj
        have hjlt := (List.getElem?_eq_some_iff.mp hj).1
        by_cases hjs : j < idx2.nodes.length - items.length
        · exact hmaxold j nj hjs hj
        · have hilt : j - (idx2.nodes.length - items.length) < items.length := by
            omega
          rcases hip : items[j - (idx2.nodes.length - items.length)]? with _ | p
          · rw [List.getElem?_eq_none_iff] at hip
            omega
          · obtain ⟨nd, hnd, hndlvl⟩ := H3 _ p hip
            have hidx : idx2.nodes.length - items.length +
                (j - (idx2.nodes.length - items.length)) = j := by
              omega
            rw [hidx] at hnd
            have hnd' : nd = nj := by
              rw [hnd] at hj
              exact Option.some.inj hj
            subst hnd'
            have hple := foldlMax_mem_le (items.map fun p => p.2) 0 p.2
              (List.mem_map_of_mem _ (List.mem_iff_getElem?.mpr ⟨_, hip⟩))
            have : nodeLevel nd = p.2 := hndlvl
            omega

/-- The pre-allocated node of one batch item (empty rows, `level + 1` of
them). -/
def parNewNode {T : Type} (p : (String × List ℚ × Option (Document T)) × ℕ) :
    HNSWNode T :=
  { id := p.1.1, embedding := p.1.2.1, document := p.1.2.2,
    connections := List.replicate (p.2 + 1) [] }

/-- The extended index after pre-allocation and id-map extension in
`insert_parallel_batch`. -/
def parIdx1 {T : Type} (idx : HNSWIndex T)
    (items : List ((String × List ℚ × Option (Document T)) × ℕ)) :
    HNSWIndex T :=
  { idx with
      nodes := idx.nodes ++ items.map parNewNode,
      node_id_to_index :=
        (items.enum.map fun p => (p.2.1.1, idx.nodes.length + p.1))
          ++ idx.node_id_to_index }

/-- The per-item connection computations of the batch (the parallel map). -/
noncomputable def parConnResults {T : Type} (idx : HNSWIndex T)
    (items : List ((String × List ℚ × Option (Document T)) × ℕ)) :
    List (Except String (List (List ℕ))) :=
  ((items.enum.map fun p =>
      ((parIdx1 idx items).nodes.length - items.length + p.1, p.2.1.2.1, p.2.2)).map
    fun t => (parIdx1 idx items).compute_connections_for_parallel_insertion
      t.1 t.2.1 t.2.2)

theorem insert_parallel_batch_eq {T : Type} (idx : HNSWIndex T)
    (items : List ((String × List ℚ × Option (Document T)) × ℕ))
    (hemp : ¬ items.isEmpty = true) :
    idx.insert_parallel_batch items
      = (((parConnResults idx items).enum.foldl (commitStep items.length)
            (parIdx1 idx items)).update_entry_point_after_batch_insertion items,
         .ok ((parConnResults idx items).map fun r => r.map fun _ => ())) := by
  rw [HNSWIndex.insert_parallel_batch, if_neg hemp]
  rfl

/-- `insert_parallel_batch` preserves entry-point validity provided the index
was nonempty or some drawn level is positive. -/
theorem insert_parallel_batch_preserves_InvEP {T : Type} (idx : HNSWIndex T)
    (items : List ((String × List ℚ × Option (Document T)) × ℕ))
    (h : InvEP idx)
    (hguard : idx.nodes ≠ [] ∨ ∃ p ∈ items, 0 < p.2) :
    InvEP (idx.insert_parallel_batch items).1 := by
  by_cases hemp : items.isEmpty
  · have hred : (idx.insert_parallel_batch items).1 = idx := by
      rw [HNSWIndex.insert_parallel_batch, if_pos hemp]
    rw [hred]
    exact h
  · have hne : items ≠ [] :=
      List.isEmpty_eq_false.mp (by simpa only [Bool.not_eq_true] using hemp)
    rw [insert_parallel_batch_eq idx items hemp]
    obtain ⟨hL, hE, hCL⟩ := commitFold_invariants items.length
      (parConnResults idx items).enum (parIdx1 idx items)
    have hp1len : (parIdx1 idx items).nodes.length
        = idx.nodes.length + items.length := by
      simp [parIdx1]
    have hp1ep : (parIdx1 idx items).entry_point = idx.entry_point := rfl
    have hp1old : ∀ j : ℕ, j < idx.nodes.length →
        (parIdx1 idx items).nodes[j]? = idx.nodes[j]? := by
      intro j hj
      exact List.getElem?_append_left hj
    have hp1new : ∀ i : ℕ, (parIdx1 idx items).nodes[idx.nodes.length + i]?
        = (items[i]?).map parNewNode := by
      intro i
      show (idx.nodes ++ items.map parNewNode)[idx.nodes.length + i]? = _
      rw [List.getElem?_append_right (by omega)]
      have : idx.nodes.length + i - idx.nodes.length = i := by omega
      rw [this, List.getElem?_map]
    have hstart : (((parConnResults idx items).enum.foldl
        (commitStep items.length) (parIdx1 idx items)).nodes.length
          - items.length) = idx.nodes.length := by
      rw [hL, hp1len]
      omega
    refine ⟨update_entry_point_EPValid _ items hne ?_ ?_ ?_ ?_, ?_⟩
    · intro e he
      rw [hE, hp1ep] at he
      obtain ⟨en, hen, hmax⟩ := h.1.2 e he
      have helen : e < idx.nodes.length := (List.getElem?_eq_some_iff.mp hen).1
      obtain ⟨en2, hen2, hlconn⟩ := option_map_eq_some_extract
        (fun nd => nd.connections.length)
        (((hCL e).trans (congrArg (Option.map _) (hp1old e helen))).symm)
        hen
      refine ⟨en2, hen2, ?_⟩
      intro j nj hjlt hj
      rw [hstart] at hjlt
      obtain ⟨nj1, hnj1, hlconn2⟩ := option_map_eq_some_extract
        (fun nd => nd.connections.length)
        ((hCL j).trans (congrArg (Option.map _) (hp1old j hjlt))) hj
      have h1 := hmax j nj1 hnj1
      simp only [nodeLevel] at h1 ⊢
      omega
    · intro he
      rw [hE, hp1ep] at he
      have hempty : idx.nodes = [] := h.1.1.mp he
      rw [hL, hp1len, hempty]
      simp
    · intro i p hip
      rw [hstart]
      have hp1i : (parIdx1 idx items).nodes[idx.nodes.length + i]?
          = some (parNewNode p) := by
        rw [hp1new i, hip]
        rfl
      obtain ⟨nd, hnd, hlconn⟩ := option_map_eq_some_extract
        (fun (nd : HNSWNode T) => nd.connections.length)
        (((hCL (idx.nodes.length + i)).trans
          (congrArg (Option.map _) hp1i)).symm) rfl
      refine ⟨nd, ?_, ?_⟩
      · rw [hnd]
      · have : (parNewNode p : HNSWNode T).connections.length = p.2 + 1 := by
          simp [parNewNode]
        rw [nodeLevel]
        omega
    · intro he
      rw [hE, hp1ep] at he
      have hempty : idx.nodes = [] := h.1.1.mp he
      rcases hguard with hg | hg
      · exact absurd hempty hg
      · exact hg
    · rw [update_entry_point_nodes]
      intro j nd hj
      obtain ⟨nj1, hnj1, hlconn⟩ := option_map_eq_some_extract
        (fun nd => nd.connections.length) (hCL j) hj
      have hjlen : j < (parIdx1 idx items).nodes.length :=
        (List.getElem?_eq_some_iff.mp hnj1).1
      by_cases hjold : j < idx.nodes.length
      · rw [hp1old j hjold] at hnj1
        have := h.2 j nj1 hnj1
        intro habs
        apply this
        rw [← List.length_eq_zero, ← hlconn, habs]
        rfl
      · have hji : j = idx.nodes.length + (j - idx.nodes.length) := by omega
        rw [hji, hp1new (j - idx.nodes.length)] at hnj1
        rcases hitem : items[j - idx.nodes.length]? with _ | p
        · rw [hitem] at hnj1
          cases hnj1
        · rw [hitem] at hnj1
          have hnj1' : (parNewNode p : HNSWNode T) = nj1 :=
            Option.some.inj hnj1
          intro habs
          have : nd.connections.length = 0 := by
            rw [habs]
            rfl
          rw [hlconn, ← hnj1'] at this
          simp [parNewNode] at this

/-- `insert_parallel` preserves entry-point validity provided the call is
guarded: the index is nonempty, the batch is empty or invalid, or some drawn
level is positive. -/
theorem insert_parallel_preserves_InvEP {T : Type} (idx : HNSWIndex T)
    (items : List (String × List ℚ × Option (Document T))) (levels : List ℕ)
    (h : InvEP idx)
    (hguard : idx.nodes ≠ [] ∨ items = [] ∨ validateBatch idx [] items ≠ none ∨
      ∃ i : ℕ, i < items.length ∧ 0 < levels.getD i 0) :
    InvEP (idx.insert_parallel items levels).1 := by
  by_cases hemp : items.isEmpty
  · have hred : (idx.insert_parallel items levels).1 = idx := by
      rw [HNSWIndex.insert_parallel, if_pos hemp]
    rw [hred]
    exact h
  · have hemp' : items.isEmpty = false := by
      simpa only [Bool.not_eq_true] using hemp
    have hne : items ≠ [] := List.isEmpty_eq_false.mp hemp'
    rcases hval : validateBatch idx [] items with _ | e
    · have hred : (idx.insert_parallel items levels).1
          = (idx.insert_parallel_batch
              (stableSort (fun a b => decide (b.2 ≤ a.2))
                (items.enum.map fun p => (p.2, levels.getD p.1 0)))).1 := by
        rw [HNSWIndex.insert_parallel, if_neg hemp]
        dsimp only
        rw [hval]
      rw [hred]
      refine insert_parallel_batch_preserves_InvEP idx _ h ?_
      rcases hguard with hg | hg | hg | ⟨i, hilt, hipos⟩
      · exact Or.inl hg
      · exact absurd hg hne
      · exact absurd hval hg
      · refine Or.inr ?_
        rcases hitem : items[i]? with _ | it
        · rw [List.getElem?_eq_none_iff] at hitem
          omega
        · have hmem1 : (i, it) ∈ items.enum :=
            List.mem_enum_iff_getElem?.mpr hitem
          have hmem2 : (it, levels.getD i 0)
              ∈ items.enum.map fun p => (p.2, levels.getD p.1 0) :=
            List.mem_map_of_mem _ hmem1
          have hmem3 : (it, levels.getD i 0)
              ∈ stableSort (fun a b => decide (b.2 ≤ a.2))
                (items.enum.map fun p => (p.2, levels.getD p.1 0)) :=
            ((stableSort_perm _ _).mem_iff).mpr hmem2
          exact ⟨(it, levels.getD i 0), hmem3, hipos⟩
    · have hred : (idx.insert_parallel items levels).1 = idx := by
        rw [HNSWIndex.insert_parallel, if_neg hemp]
        dsimp only
        rw [hval]
      rw [hred]
      exact h

/-- The guard on one public operation: an `insert_parallel` call must be made
on a nonempty index, or be empty or invalid, or draw a positive level. -/
def OpGuard {T : Type} (idx : HNSWIndex T) : Op T → Prop
  | .insertPar items levels =>
      idx.nodes ≠ [] ∨ items = [] ∨ validateBatch idx [] items ≠ none ∨
        ∃ i : ℕ, i < items.length ∧ 0 < levels.getD i 0
  | _ => True

/-- All operations of a sequence are guarded at the state they run in. -/
def GuardedOps {T : Type} : HNSWIndex T → List (Op T) → Prop
  | _, [] => True
  | idx, op :: rest => OpGuard idx op ∧ GuardedOps (applyOp idx op) rest

theorem applyOp_preserves_InvEP {T : Type} (idx : HNSWIndex T) (op : Op T)
    (h : InvEP idx) (hg : OpGuard idx op) : InvEP (applyOp idx op) := by
  cases op with
  | insertOne id emb doc lvl => exact insert_preserves_InvEP idx id emb doc lvl h
  | insertMany items levels => exact insert_multiple_preserves_InvEP idx items levels h
  | insertPar items levels => exact insert_parallel_preserves_InvEP idx items levels h hg
  | removeOne id => exact remove_preserves_InvEP idx id h
  | removeMany ids => exact remove_multiple_preserves_InvEP idx ids h
  | clearAll => exact clear_preserves_InvEP idx

theorem applyOps_preserves_InvEP {T : Type} (ops : List (Op T)) :
    ∀ idx : HNSWIndex T, InvEP idx → GuardedOps idx ops →
      InvEP (applyOps idx ops) := by
  induction ops with
  | nil =>
      intro idx h _
      exact h
  | cons op rest ih =>
      intro idx h hg
      have hstep := applyOp_preserves_InvEP idx op h hg.1
      exact ih (applyOp idx op) hstep hg.2

theorem new_InvEP (T : Type) (dim m efc : ℕ) :
    InvEP (HNSWIndex.new T dim m efc) := by
  refine ⟨⟨⟨fun _ => rfl, fun _ => rfl⟩, ?_⟩, ?_⟩
  · intro e he
    cases he
  · intro j nd hj
    cases hj

/-- C1 (amended): over every guarded sequence of public operations from a
fresh index — sequential operations are always guarded, and an
`insert_parallel` call is guarded when the index is nonempty, the batch is
empty or invalid, or some drawn level is positive — the entry point is `none`
iff the index is empty, and otherwise points at a valid slot of maximal
level. -/
theorem C1_entry_point_validity {T : Type} (dim m efc : ℕ) (ops : List (Op T))
    (hg : GuardedOps (HNSWIndex.new T dim m efc) ops) :
    ((applyOps (HNSWIndex.new T dim m efc) ops).entry_point = none ↔
        (applyOps (HNSWIndex.new T dim m efc) ops).nodes = []) ∧
      ∀ e : ℕ, (applyOps (HNSWIndex.new T dim m efc) ops).entry_point = some e →
        ∃ en, (applyOps (HNSWIndex.new T dim m efc) ops).nodes[e]? = some en ∧
          ∀ (j : ℕ) (nj : HNSWNode T),
            (applyOps (HNSWIndex.new T dim m efc) ops).nodes[j]? = some nj →
              nodeLevel nj ≤ nodeLevel en :=
  (applyOps_preserves_InvEP ops (HNSWIndex.new T dim m efc)
    (new_InvEP T dim m efc) hg).1

theorem C1_entry_point_validity_witness :
    GuardedOps (HNSWIndex.new ℕ 3 2 2)
        [Op.insertOne "a" [1, 2, 3] none 0, Op.removeOne "a"] ∧
      (((applyOps (HNSWIndex.new ℕ 3 2 2)
            [Op.insertOne "a" [1, 2, 3] none 0, Op.removeOne "a"]).entry_point
          = none ↔
        (applyOps (HNSWIndex.new ℕ 3 2 2)
            [Op.insertOne "a" [1, 2, 3] none 0, Op.removeOne "a"]).nodes = []) ∧
      ∀ e : ℕ, (applyOps (HNSWIndex.new ℕ 3 2 2)
            [Op.insertOne "a" [1, 2, 3] none 0, Op.removeOne "a"]).entry_point
          = some e →
        ∃ en, (applyOps (HNSWIndex.new ℕ 3 2 2)
            [Op.insertOne "a" [1, 2, 3] none 0,
              Op.removeOne "a"]).nodes[e]? = some en ∧
          ∀ (j : ℕ) (nj : HNSWNode ℕ),
            (applyOps (HNSWIndex.new ℕ 3 2 2)
              [Op.insertOne "a" [1, 2, 3] none 0,
                Op.removeOne "a"]).nodes[j]? = some nj →
              nodeLevel nj ≤ nodeLevel en) :=
  ⟨⟨trivial, trivial, trivial⟩,
    C1_entry_point_validity 3 2 2
      [Op.insertOne "a" [1, 2, 3] none 0, Op.removeOne "a"]
      ⟨trivial, trivial, trivial⟩⟩

/-- C1 counterexample: `insert_parallel` of a single level-0 item into an
empty index stores the node but leaves `entry_point = None`, breaking
`entry_point == None ⇔ node_count == 0`. -/
theorem C1_counterexample_parallel_empty_zero_level :
    ((HNSWIndex.new ℕ 3 2 2).insert_parallel [("a", [1, 2, 3], none)] [0]).1.len
        = 1 ∧
      ((HNSWIndex.new ℕ 3 2 2).insert_parallel
          [("a", [1, 2, 3], none)] [0]).1.entry_point = none := by
  constructor
  · rfl
  · rfl

/-! ### C3: symmetric edges after sequential operations -/

/-- Symmetric-edge invariant: every listed neighbor exists, has the layer,
and lists the source back at the same layer. -/
abbrev EdgeSym {T : Type} (nodes : List (HNSWNode T)) : Prop :=
  ∀ (i L j : ℕ) (ni : HNSWNode T) (row : List ℕ),
    nodes[i]? = some ni → ni.connections[L]? = some row → j ∈ row →
      ∃ (nj : HNSWNode T) (rowj : List ℕ), nodes[j]? = some nj ∧
        nj.connections[L]? = some rowj ∧ i ∈ rowj

/-- Full-step invariant principle for `searchLoop`: the property must be
preserved by the two whole loop-body alternatives. -/
theorem searchLoop_reaches2 {T : Type} (dm : DistanceMetric)
    (nodes : List (HNSWNode T)) (query : List ℚ) (layer k ef : ℕ)
    (P : SLState → Prop)
    (hnone : ∀ st c dd rest, st.dyn = (c, dd) :: rest → nodes[c]? = none →
      P st → P { st with dyn := rest })
    (hsome : ∀ st c dd rest node, st.dyn = (c, dd) :: rest →
      nodes[c]? = some node → P st →
      P ((layerNeighbors nodes layer c node).foldl
          (processNeighbor dm nodes query k ef) { st with dyn := rest })) :
    ∀ n st, slMeasure nodes.length st ≤ n → P st →
      ∃ st', P st' ∧ st'.dyn = [] ∧
        searchLoop dm nodes query layer k ef st = st'.cand := by
  intro n
  induction n with
  | zero =>
      intro st hm hP
      have hdyn : st.dyn = [] := by
        have : st.dyn.length = 0 := by
          have := hm
          simp only [slMeasure] at this
          omega
        exact List.length_eq_zero.mp this
      refine ⟨st, hP, hdyn, ?_⟩
      rw [searchLoop.eq_def]
      rcases st with ⟨cand, dyn, vis⟩
      simp only at hdyn
      subst hdyn
      rfl
  | succ n ih =>
      intro st hm hP
      rcases hdyn : st.dyn with _ | ⟨⟨c, dd⟩, rest⟩
      · refine ⟨st, hP, hdyn, ?_⟩
        rw [searchLoop.eq_def]
        rcases st with ⟨cand, dyn, vis⟩
        simp only at hdyn
        subst hdyn
        rfl
      · have heq : searchLoop dm nodes query layer k ef st =
            match nodes[c]? with
            | none => searchLoop dm nodes query layer k ef { st with dyn := rest }
            | some node =>
                searchLoop dm nodes query layer k ef
                  ((layerNeighbors nodes layer c node).foldl
                    (processNeighbor dm nodes query k ef) { st with dyn := rest }) := by
          rw [searchLoop.eq_def]
          rcases st with ⟨cand, dyn, vis⟩
          simp only at hdyn
          subst hdyn
          rfl
        have hm' : unvisitedCount nodes.length st.vis + st.dyn.length ≤ n + 1 := hm
        rcases hget : nodes[c]? with _ | node
        · rw [heq, hget]
          refine ih { st with dyn := rest } ?_ (hnone st c dd rest hdyn hget hP)
          show unvisitedCount nodes.length st.vis + rest.length ≤ n
          rw [hdyn] at hm'
          simp only [List.length_cons] at hm'
          omega
        · rw [heq, hget]
          have hμfold : unvisitedCount nodes.length
              ((layerNeighbors nodes layer c node).foldl
                (processNeighbor dm nodes query k ef) { st with dyn := rest }).vis
              + ((layerNeighbors nodes layer c node).foldl
                (processNeighbor dm nodes query k ef) { st with dyn := rest }).dyn.length
              ≤ unvisitedCount nodes.length st.vis + rest.length :=
            foldl_processNeighbor_measure dm nodes query k ef
              (layerNeighbors nodes layer c node) { st with dyn := rest }
          refine ih _ ?_ (hsome st c dd rest node hdyn hget hP)
          show unvisitedCount nodes.length
              ((layerNeighbors nodes layer c node).foldl
                (processNeighbor dm nodes query k ef) { st with dyn := rest }).vis
              + ((layerNeighbors nodes layer c node).foldl
                (processNeighbor dm nodes query k ef) { st with dyn := rest }).dyn.length
              ≤ n
          rw [hdyn] at hm'
          simp only [List.length_cons] at hm'
          omega

/-- Elements of a `processNeighbor` result's candidate list either were
already candidates or are the processed neighbor. -/
theorem processNeighbor_cand_subset {T : Type} (dm : DistanceMetric)
    (nodes : List (HNSWNode T)) (query : List ℚ) (k ef : ℕ) (st : SLState)
    (nb : ℕ) :
    ∀ p ∈ (processNeighbor dm nodes query k ef st nb).cand,
      p ∈ st.cand ∨ p.1 = nb := by
  intro p hp
  rw [processNeighbor] at hp
  by_cases hvis : nb ∈ st.vis
  · rw [if_pos hvis] at hp
    exact Or.inl hp
  · rw [if_neg hvis] at hp
    rcases hget : nodes[nb]? with _ | node
    · rw [hget] at hp
      exact Or.inl hp
    · rw [hget] at hp
      dsimp only at hp
      by_cases hpush : pushCond k st.cand (dm.distance query node.embedding)
      · rw [if_pos hpush] at hp
        dsimp only at hp
        have hp2 : p ∈ stableSort leDist
            (st.cand ++ [(nb, dm.distance query node.embedding)]) := by
          by_cases hk : k < (stableSort leDist
              (st.cand ++ [(nb, dm.distance query node.embedding)])).length
          · rw [if_pos hk] at hp
            exact (List.dropLast_sublist _).subset hp
          · rw [if_neg hk] at hp
            exact hp
        rw [mem_stableSort] at hp2
        rcases List.mem_append.mp hp2 with h | h
        · exact Or.inl h
        · simp only [List.mem_singleton] at h
          rw [h]
          exact Or.inr rfl
      · rw [if_neg hpush] at hp
        exact Or.inl hp

/-- Under `EdgeSym`, every candidate produced by `search_layer` exists and
participates in the layer. -/
theorem search_layer_participates {T : Type} (idx : HNSWIndex T)
    (query : List ℚ) (eps : List ℕ) (layer k : ℕ)
    (hsym : EdgeSym idx.nodes) :
    ∀ p ∈ idx.search_layer query eps layer k,
      ∃ n, idx.nodes[p.1]? = some n ∧
        (layer = 0 ∨ layer < n.connections.length) := by
  have hseed : ∀ p ∈ (initSeeds idx.distance_metric idx.nodes query layer
      eps).cand, ∃ n, idx.nodes[p.1]? = some n ∧
        (layer = 0 ∨ layer < n.connections.length) := by
    rw [initSeeds]
    refine foldl_preserve _
      (fun (st : SLState) => ∀ p ∈ st.cand, ∃ n, idx.nodes[p.1]? = some n ∧
        (layer = 0 ∨ layer < n.connections.length)) eps ⟨[], [], []⟩
      (by intro p hp; cases hp) ?_
    intro st ep _ hst
    rcases hget : idx.nodes[ep]? with _ | node
    · simpa [hget] using hst
    · simp only [hget]
      by_cases hc : layer = 0 ∨ layer < node.connections.length
      · rw [if_pos hc]
        intro p hp
        rcases List.mem_append.mp hp with h | h
        · exact hst p h
        · simp only [List.mem_singleton] at h
          rw [h]
          exact ⟨node, hget, hc⟩
      · rw [if_neg hc]
        exact hst
  obtain ⟨st', hst', _, heq⟩ := searchLoop_reaches2 idx.distance_metric
    idx.nodes query layer k idx.ef_construction
    (fun st => ∀ p ∈ st.cand, ∃ n, idx.nodes[p.1]? = some n ∧
      (layer = 0 ∨ layer < n.connections.length))
    (by
      intro st c dd rest _ _ hst
      exact hst)
    (by
      intro st c dd rest node hdyn hc hst
      refine foldl_preserve _
        (fun (st2 : SLState) => ∀ p ∈ st2.cand, ∃ n, idx.nodes[p.1]? = some n ∧
          (layer = 0 ∨ layer < n.connections.length))
        (layerNeighbors idx.nodes layer c node) { st with dyn := rest } hst ?_
      intro st1 nb hnb hst1
      intro p hp
      rcases processNeighbor_cand_subset idx.distance_metric idx.nodes query
        k idx.ef_construction st1 nb p hp with h | h
      · exact hst1 p h
      · rw [layerNeighbors] at hnb
        by_cases hl0 : layer = 0
        · rw [processNeighbor] at hp
          by_cases hvis : nb ∈ st1.vis
          · rw [if_pos hvis] at hp
            exact hst1 p hp
          · rw [if_neg hvis] at hp
            rcases hgnb : idx.nodes[nb]? with _ | nbn
            · rw [hgnb] at hp
              exact hst1 p hp
            · rw [h]
              exact ⟨nbn, hgnb, Or.inl hl0⟩
        · rw [if_neg hl0] at hnb
          by_cases hlc : layer < node.connections.length
          · rw [if_pos hlc] at hnb
            have hrow : node.connections[layer]? = some
                (node.connections.getD layer []) := by
              rw [List.getD_eq_getElem?_getD, List.getElem?_eq_getElem hlc]
              rfl
            obtain ⟨njn, rowj, hnjn, hrowj, _⟩ :=
              hsym c layer nb node _ hc hrow hnb
            rw [h]
            exact ⟨njn, hnjn, Or.inr (List.getElem?_eq_some_iff.mp hrowj).1⟩
          · rw [if_neg hlc] at hnb
            cases hnb)
    (slMeasure idx.nodes.length
      { cand := stableSort leDist (initSeeds idx.distance_metric idx.nodes
          query layer eps).cand,
        dyn := stableSort leDist (initSeeds idx.distance_metric idx.nodes
          query layer eps).cand,
        vis := (initSeeds idx.distance_metric idx.nodes query layer eps).vis })
    { cand := stableSort leDist (initSeeds idx.distance_metric idx.nodes
        query layer eps).cand,
      dyn := stableSort leDist (initSeeds idx.distance_metric idx.nodes
        query layer eps).cand,
      vis := (initSeeds idx.distance_metric idx.nodes query layer eps).vis }
    le_rfl
    (by
      intro p hp
      exact hseed p ((mem_stableSort leDist _ p).mp hp))
  intro p hp
  rw [HNSWIndex.search_layer] at hp
  rw [heq] at hp
  exact hst' p hp

/-- Relation between the node list before and after the reciprocal-link loop
of one `insert` layer: row `L` of each node is only ever extended by copies of
`ni`, and only for processed neighbors; everything else is untouched. -/
def PushRel {T : Type} (ni L : ℕ) (ws : List ℕ)
    (ns ns1 : List (HNSWNode T)) : Prop :=
  ns1.length = ns.length ∧
  ∀ v : ℕ, (ns[v]? = none ∧ ns1[v]? = none) ∨
    ∃ vn vn1, ns[v]? = some vn ∧ ns1[v]? = some vn1 ∧
      vn1.connections.length = vn.connections.length ∧
      (∀ L' : ℕ, L' ≠ L → vn1.connections[L']? = vn.connections[L']?) ∧
      ∀ row1 : List ℕ, vn1.connections[L]? = some row1 →
        ∃ row extra : List ℕ, vn.connections[L]? = some row ∧
          row1 = row ++ extra ∧ (∀ x ∈ extra, x = ni) ∧
          (extra ≠ [] → v ∈ ws)

theorem PushRel_refl {T : Type} (ni L : ℕ) (ws : List ℕ)
    (ns : List (HNSWNode T)) : PushRel ni L ws ns ns := by
  refine ⟨rfl, ?_⟩
  intro v
  rcases hv : ns[v]? with _ | vn
  · exact Or.inl ⟨rfl, rfl⟩
  · refine Or.inr ⟨vn, vn, rfl, rfl, rfl, fun _ _ => rfl, ?_⟩
    intro row1 hrow1
    exact ⟨row1, [], hrow1, by simp, by simp, by simp⟩

theorem pushNeighbor_PushRel {T : Type} (ni L : ℕ) (ws : List ℕ)
    (ns ns1 : List (HNSWNode T)) (w : ℕ) (hw : w ∈ ws)
    (h : PushRel ni L ws ns ns1) :
    PushRel ni L ws ns (pushNeighbor ni L ns1 w) := by
  obtain ⟨hlen, hrel⟩ := h
  rw [pushNeighbor]
  rcases hw1 : ns1[w]? with _ | wn1
  · exact ⟨hlen, hrel⟩
  · dsimp only
    by_cases hlt : L < wn1.connections.length
    · rw [if_pos hlt]
      have hwlen : w < ns1.length := (List.getElem?_eq_some_iff.mp hw1).1
      refine ⟨by rw [List.length_set]; exact hlen, ?_⟩
      intro v
      by_cases hvw : v = w
      · subst hvw
        rcases hrel v with ⟨hv, hv1⟩ | ⟨vn, vn1, hv, hv1, hclen, hLne, hLrow⟩
        · rw [hv1] at hw1
          cases hw1
        · rw [hv1] at hw1
          have hvn1 : vn1 = wn1 := Option.some.inj hw1
          subst hvn1
          refine Or.inr ⟨vn, _, hv, List.getElem?_set_self hwlen, ?_, ?_, ?_⟩
          · rw [List.length_set]
            exact hclen
          · intro L' hL'
            rw [List.getElem?_set_ne (fun h => hL' h.symm)]
            exact hLne L' hL'
          · intro row1 hrow1
            rw [List.getElem?_set_self hlt] at hrow1
            have hrow1' : vn1.connections.getD L [] ++ [ni] = row1 :=
              Option.some.inj hrow1
            have hgd : vn1.connections.getD L []
                = vn1.connections[L] := by
              rw [List.getD_eq_getElem?_getD, List.getElem?_eq_getElem hlt]
              rfl
            obtain ⟨row, extra, hrow, heq, hex, hexne⟩ :=
              hLrow vn1.connections[L]
                (List.getElem?_eq_getElem hlt)
            refine ⟨row, extra ++ [ni], hrow, ?_, ?_, fun _ => hw⟩
            · rw [← hrow1', hgd, heq, List.append_assoc]
            · intro x hx
              rcases List.mem_append.mp hx with hx | hx
              · exact hex x hx
              · simpa using hx
      · rcases hrel v with ⟨hv, hv1⟩ | ⟨vn, vn1, hv, hv1, hclen, hLne, hLrow⟩
        · refine Or.inl ⟨hv, ?_⟩
          rw [List.getElem?_set_ne (fun h => hvw h.symm)]
          exact hv1
        · refine Or.inr ⟨vn, vn1, hv, ?_, hclen, hLne, hLrow⟩
          rw [List.getElem?_set_ne (fun h => hvw h.symm)]
          exact hv1
    · rw [if_neg hlt]
      exact ⟨hlen, hrel⟩

theorem pushFold_PushRel {T : Type} (ni L : ℕ) (ws : List ℕ)
    (ns : List (HNSWNode T)) :
    PushRel ni L ws ns (ws.foldl (pushNeighbor ni L) ns) := by
  refine foldl_preserve _ (PushRel ni L ws ns) ws ns (PushRel_refl ni L ws ns) ?_
  intro b a ha hb
  exact pushNeighbor_PushRel ni L ws ns b a ha hb

/-- A sub-list fold preserves the relation relative to any starting state. -/
theorem pushFold_PushRel_from {T : Type} (ni L : ℕ) (ws sub : List ℕ)
    (ns ns1 : List (HNSWNode T)) (hsub : ∀ w ∈ sub, w ∈ ws)
    (h : PushRel ni L ws ns ns1) :
    PushRel ni L ws ns (sub.foldl (pushNeighbor ni L) ns1) := by
  refine foldl_preserve _ (PushRel ni L ws ns) sub ns1 h ?_
  intro b a ha hb
  exact pushNeighbor_PushRel ni L ws ns b a (hsub a ha) hb

/-- After the reciprocal-link loop, every neighbor that participates in the
layer lists the new node. -/
theorem pushFold_mem {T : Type} (ni L : ℕ) (ws : List ℕ) :
    ∀ ns : List (HNSWNode T),
      (∀ w ∈ ws, ∃ wn : HNSWNode T, ns[w]? = some wn ∧
        L < wn.connections.length) →
      ∀ w ∈ ws, ∃ (wn1 : HNSWNode T) (row1 : List ℕ),
        (ws.foldl (pushNeighbor ni L) ns)[w]? = some wn1 ∧
        wn1.connections[L]? = some row1 ∧ ni ∈ row1 := by
  induction ws with
  | nil =>
      intro ns _ w hw
      cases hw
  | cons w0 rest ih =>
      intro ns hpart w hw
      rw [List.foldl_cons]
      obtain ⟨wn0, hwn0, hlt0⟩ := hpart w0 (List.mem_cons_self w0 rest)
      have hw0len : w0 < ns.length := (List.getElem?_eq_some_iff.mp hwn0).1
      have hstep : pushNeighbor ni L ns w0
          = ns.set w0 ({ wn0 with
              connections :=
                wn0.connections.set L ((wn0.connections.getD L []) ++ [ni]) }) := by
        rw [pushNeighbor, hwn0]
        dsimp only
        rw [if_pos hlt0]
      have hrel0 : PushRel ni L (w0 :: rest) ns (pushNeighbor ni L ns w0) :=
        pushNeighbor_PushRel ni L (w0 :: rest) ns ns w0
          (List.mem_cons_self w0 rest) (PushRel_refl ni L (w0 :: rest) ns)
      have hpart' : ∀ w ∈ rest, ∃ wn : HNSWNode T,
          (pushNeighbor ni L ns w0)[w]? = some wn ∧
            L < wn.connections.length := by
        intro w hwr
        obtain ⟨wn, hwn, hltw⟩ := hpart w (List.mem_cons_of_mem w0 hwr)
        rcases hrel0.2 w with ⟨hv, _⟩ | ⟨vn, vn1, hv, hv1, hclen, _, _⟩
        · rw [hv] at hwn
          cases hwn
        · rw [hv] at hwn
          have : vn = wn := Option.some.inj hwn
          subst this
          exact ⟨vn1, hv1, by omega⟩
      rcases List.mem_cons.mp hw with hww | hww
      · subst hww
        have hmem0 : ∃ (wn1 : HNSWNode T) (row1 : List ℕ),
            (pushNeighbor ni L ns w)[w]? = some wn1 ∧
              wn1.connections[L]? = some row1 ∧ ni ∈ row1 := by
          rw [hstep]
          refine ⟨_, (wn0.connections.getD L []) ++ [ni],
            List.getElem?_set_self hw0len, ?_, by simp⟩
          rw [List.getElem?_set_self hlt0]
        obtain ⟨wn1, row1, hwn1, hrow1, hni1⟩ := hmem0
        have hrelR : PushRel ni L rest (pushNeighbor ni L ns w)
            (rest.foldl (pushNeighbor ni L) (pushNeighbor ni L ns w)) :=
          pushFold_PushRel ni L rest (pushNeighbor ni L ns w)
        rcases hrelR.2 w with ⟨hv, _⟩ | ⟨vn, vn1, hv, hv1, hclen, _, hLrow⟩
        · rw [hv] at hwn1
          cases hwn1
        · rw [hv] at hwn1
          have : vn = wn1 := Option.some.inj hwn1
          subst this
          have hlt1 : L < vn1.connections.length := by
            have := (List.getElem?_eq_some_iff.mp hrow1).1
            omega
          obtain ⟨row, extra, hrow, heq, _, _⟩ :=
            hLrow vn1.connections[L] (List.getElem?_eq_getElem hlt1)
          rw [hrow1] at hrow
          have : row1 = row := Option.some.inj hrow
          subst this
          refine ⟨vn1, vn1.connections[L],
            hv1, List.getElem?_eq_getElem hlt1, ?_⟩
          rw [heq]
          exact List.mem_append.mpr (Or.inl hni1)
      · exact ih (pushNeighbor ni L ns w0) hpart' w hww

/-- Below layer `L`, nobody links to slot `ni` and `ni`'s rows are empty. -/
abbrev FreshBelow {T : Type} (nodes : List (HNSWNode T)) (ni L : ℕ) : Prop :=
  ∀ (v L' : ℕ) (vn : HNSWNode T) (row : List ℕ), nodes[v]? = some vn →
    L' < L → vn.connections[L']? = some row →
      ni ∉ row ∧ (v = ni → row = [])

theorem connectAtLayer_sym {T : Type} (idx : HNSWIndex T) (emb : List ℚ)
    (ni L : ℕ) (eps : List ℕ)
    (hsym : EdgeSym idx.nodes) (hrows : RowsNonempty idx.nodes)
    (hfresh : FreshBelow idx.nodes ni (L + 1))
    (nn : HNSWNode T) (hniGet : idx.nodes[ni]? = some nn)
    (hniLt : L < nn.connections.length) :
    EdgeSym (connectAtLayer idx emb ni L eps).1.nodes ∧
      FreshBelow (connectAtLayer idx emb ni L eps).1.nodes ni L := by
  have F0 : ∀ w ∈ idx.select_neighbors
      (idx.search_layer emb eps L idx.ef_construction)
      (if L = 0 then idx.m_max else idx.m),
      ∃ wn : HNSWNode T, idx.nodes[w]? = some wn ∧
        L < wn.connections.length := by
    intro w hwsel
    have hwc := select_neighbors_subset idx _ _ w hwsel
    obtain ⟨p, hp, hp1⟩ := List.mem_map.mp hwc
    obtain ⟨n, hn, hpart⟩ := search_layer_participates idx emb eps L
      idx.ef_construction hsym p hp
    rw [hp1] at hn
    rcases hpart with h0 | hlt
    · subst h0
      refine ⟨n, hn, ?_⟩
      have h1 := hrows w n hn
      have h2 : 0 < n.connections.length := List.length_pos.mpr h1
      omega
    · exact ⟨n, hn, hlt⟩
  have key : ∀ NB : List ℕ,
      (∀ w ∈ NB, ∃ wn : HNSWNode T, idx.nodes[w]? = some wn ∧
        L < wn.connections.length) →
      EdgeSym (setNewNodeRow ni L NB (NB.foldl (pushNeighbor ni L) idx.nodes)) ∧
        FreshBelow (setNewNodeRow ni L NB
          (NB.foldl (pushNeighbor ni L) idx.nodes)) ni L := by
    intro NB hNB
    have M := pushFold_mem ni L NB idx.nodes hNB
    obtain ⟨hRlen, hRrel⟩ := pushFold_PushRel ni L NB idx.nodes
    generalize hN1 : NB.foldl (pushNeighbor ni L) idx.nodes = ns1
    rw [hN1] at M hRlen hRrel
    rcases hRrel ni with ⟨hv, _⟩ | ⟨vn, nn1, hv, h1ni, hclen1, hLne1, hLrow1⟩
    · rw [hv] at hniGet
      cases hniGet
    · rw [hv] at hniGet
      have hvn : vn = nn := Option.some.inj hniGet
      subst hvn
      have hniLen1 : ni < ns1.length := (List.getElem?_eq_some_iff.mp h1ni).1
      obtain ⟨newNN, hnewNNdef⟩ : ∃ x : HNSWNode T,
          { nn1 with connections := nn1.connections.set L NB } = x := ⟨_, rfl⟩
      have hset : setNewNodeRow ni L NB ns1 = ns1.set ni newNN := by
        rw [setNewNodeRow, h1ni]
        dsimp only
        rw [hnewNNdef]
      rw [hset]
      have hLlt1 : L < nn1.connections.length := by omega
      have h2ni : (ns1.set ni newNN)[ni]? = some newNN :=
        List.getElem?_set_self hniLen1
      have h2ne : ∀ v : ℕ, v ≠ ni → (ns1.set ni newNN)[v]? = ns1[v]? := by
        intro v hvne
        exact List.getElem?_set_ne (fun h => hvne h.symm)
      have hnewRowL : newNN.connections[L]? = some NB := by
        rw [← hnewNNdef]
        exact List.getElem?_set_self hLlt1
      have hnewRowNe : ∀ L' : ℕ, L' ≠ L →
          newNN.connections[L']? = vn.connections[L']? := by
        intro L' hL'
        rw [← hnewNNdef]
        have h1 : (nn1.connections.set L NB)[L']? = nn1.connections[L']? :=
          List.getElem?_set_ne (fun h => hL' h.symm)
        have h2 : ({ nn1 with
            connections := nn1.connections.set L NB } : HNSWNode T).connections
            = nn1.connections.set L NB := rfl
        rw [h2, h1]
        exact hLne1 L' hL'
      constructor
      · intro i L' j ni' row' h2i hrow' hj
        by_cases hiNi : i = ni
        · subst hiNi
          rw [h2ni] at h2i
          have hni' : newNN = ni' := Option.some.inj h2i
          subst hni'
          by_cases hL' : L' = L
          · subst hL'
            rw [hnewRowL] at hrow'
            have hrowNB : NB = row' := Option.some.inj hrow'
            subst hrowNB
            by_cases hjNi : j = i
            · subst hjNi
              exact ⟨_, _, h2ni, hnewRowL, hj⟩
            · obtain ⟨wn1, row1, hwn1, hrow1, hni1⟩ := M j hj
              refine ⟨wn1, row1, ?_, hrow1, hni1⟩
              rw [h2ne j hjNi]
              exact hwn1
          · rw [hnewRowNe L' hL'] at hrow'
            by_cases hL'lt : L' < L
            · have hcontra := (hfresh i L' vn row' hv (by omega) hrow').2 rfl
              rw [hcontra] at hj
              cases hj
            · obtain ⟨njO, rowjO, hgetjO, hrowjO, hmemO⟩ :=
                hsym i L' j vn row' hv hrow' hj
              by_cases hjNi : j = i
              · subst hjNi
                have hjeq : njO = vn := by
                  rw [hv] at hgetjO
                  exact (Option.some.inj hgetjO).symm
                subst hjeq
                refine ⟨_, rowjO, h2ni, ?_, hmemO⟩
                rw [hnewRowNe L' hL']
                exact hrowjO
              · rcases hRrel j with ⟨hvz, _⟩ | ⟨vnj, vnj1, hvj, hvj1, _, hLnej, _⟩
                · rw [hvz] at hgetjO
                  cases hgetjO
                · rw [hvj] at hgetjO
                  have hjeq : vnj = njO := Option.some.inj hgetjO
                  subst hjeq
                  refine ⟨vnj1, rowjO, ?_, ?_, hmemO⟩
                  · rw [h2ne j hjNi]
                    exact hvj1
                  · rw [hLnej L' hL']
                    exact hrowjO
        · rw [h2ne i hiNi] at h2i
          rcases hRrel i with ⟨hvz, hvz1⟩ | ⟨vni, vni1, hvi, hvi1, _, hLnei, hLrowi⟩
          · rw [hvz1] at h2i
            cases h2i
          · rw [hvi1] at h2i
            have hieq : vni1 = ni' := Option.some.inj h2i
            subst hieq
            by_cases hL' : L' = L
            · subst hL'
              obtain ⟨rowO, extra, hrowO, heqO, hexO, hexneO⟩ := hLrowi row' hrow'
              rw [heqO] at hj
              rcases List.mem_append.mp hj with hjO | hjE
              · obtain ⟨njO, rowjO, hgetjO, hrowjO, hmemO⟩ :=
                  hsym i L' j vni rowO hvi hrowO hjO
                have hjNi : j ≠ ni := by
                  intro hji
                  subst hji
                  exact (hfresh i L' vni rowO hvi (by omega) hrowO).1 hjO
                rcases hRrel j with ⟨hvz, _⟩ | ⟨vnj, vnj1, hvj, hvj1, hclj, _, hLrowj⟩
                · rw [hvz] at hgetjO
                  cases hgetjO
                · rw [hvj] at hgetjO
                  have hjeq : vnj = njO := Option.some.inj hgetjO
                  subst hjeq
                  have hjlt1 : L' < vnj1.connections.length := by
                    have h1 := (List.getElem?_eq_some_iff.mp hrowjO).1
                    omega
                  obtain ⟨rowB, extraB, hrowB, heqB, _, _⟩ :=
                    hLrowj vnj1.connections[L']
                      (List.getElem?_eq_getElem hjlt1)
                  rw [hrowjO] at hrowB
                  have hreq : rowjO = rowB := Option.some.inj hrowB
                  subst hreq
                  refine ⟨vnj1, vnj1.connections[L'], ?_,
                    List.getElem?_eq_getElem hjlt1, ?_⟩
                  · rw [h2ne j hjNi]
                    exact hvj1
                  · rw [heqB]
                    exact List.mem_append.mpr (Or.inl hmemO)
              · have hjni : j = ni := hexO j hjE
                subst hjni
                refine ⟨_, NB, h2ni, hnewRowL, ?_⟩
                exact hexneO (List.ne_nil_of_mem hjE)
            · rw [hLnei L' hL'] at hrow'
              obtain ⟨njO, rowjO, hgetjO, hrowjO, hmemO⟩ :=
                hsym i L' j vni row' hvi hrow' hj
              by_cases hjNi : j = ni
              · subst hjNi
                have hjeq : njO = vn := by
                  rw [hv] at hgetjO
                  exact (Option.some.inj hgetjO).symm
                subst hjeq
                refine ⟨_, rowjO, h2ni, ?_, hmemO⟩
                rw [hnewRowNe L' hL']
                exact hrowjO
              · rcases hRrel j with ⟨hvz, _⟩ | ⟨vnj, vnj1, hvj, hvj1, _, hLnej, _⟩
                · rw [hvz] at hgetjO
                  cases hgetjO
                · rw [hvj] at hgetjO
                  have hjeq : vnj = njO := Option.some.inj hgetjO
                  subst hjeq
                  refine ⟨vnj1, rowjO, ?_, ?_, hmemO⟩
                  · rw [h2ne j hjNi]
                    exact hvj1
                  · rw [hLnej L' hL']
                    exact hrowjO
      · intro v L' vn2 row2 h2v hL'lt hrow2
        by_cases hvNi : v = ni
        · subst hvNi
          rw [h2ni] at h2v
          have hveq : newNN = vn2 := Option.some.inj h2v
          subst hveq
          rw [hnewRowNe L' (by omega)] at hrow2
          exact ⟨(hfresh v L' vn row2 hv (by omega) hrow2).1,
            fun _ => (hfresh v L' vn row2 hv (by omega) hrow2).2 rfl⟩
        · rw [h2ne v hvNi] at h2v
          rcases hRrel v with ⟨hvz, hvz1⟩ | ⟨vnv, vnv1, hvv, hvv1, _, hLnev, _⟩
          · rw [hvz1] at h2v
            cases h2v
          · rw [hvv1] at h2v
            have hveq : vnv1 = vn2 := Option.some.inj h2v
            subst hveq
            rw [hLnev L' (by omega)] at hrow2
            exact ⟨(hfresh v L' vnv row2 hvv (by omega) hrow2).1,
              fun h => absurd h hvNi⟩
  exact key _ F0

theorem descRange_zero_succ (L : ℕ) : descRange 0 (L + 1) = L :: descRange 0 L := by
  simp only [descRange, Nat.sub_zero]
  rw [List.range'_concat]
  rw [List.reverse_append]
  simp

theorem rowsNonempty_of_shape {T : Type} {ns1 ns2 : List (HNSWNode T)}
    (h : ∀ j : ℕ, (ns1[j]?).map nodeShape = (ns2[j]?).map nodeShape)
    (h2 : RowsNonempty ns2) : RowsNonempty ns1 := by
  intro j nd hj
  obtain ⟨y, hy, hshape⟩ := option_map_eq_some_extract nodeShape (h j) hj
  have hlen := nodeShape_connections_length hshape
  have hne := h2 j y hy
  intro habs
  apply hne
  rw [← List.length_eq_zero, ← hlen, habs]
  rfl

theorem promoteEP_nodes {T : Type} (idx2 : HNSWIndex T) (ni lvl : ℕ) :
    (promoteEP idx2 ni lvl).nodes = idx2.nodes := by
  rw [promoteEP]
  by_cases h : 0 < lvl
  · rw [if_pos h]
    rcases idx2.entry_point with _ | ep
    · rfl
    · dsimp only
      rcases idx2.nodes[ep]? with _ | en
      · rfl
      · dsimp only
        by_cases hc : en.connections.length ≤ lvl
        · rw [if_pos hc]
        · rw [if_neg hc]
  · rw [if_neg h]

theorem insertDescend_sym {T : Type} (ni : ℕ) (emb : List ℚ) :
    ∀ (L : ℕ) (idx : HNSWIndex T) (eps : List ℕ),
      EdgeSym idx.nodes → RowsNonempty idx.nodes →
      FreshBelow idx.nodes ni (L + 1) →
      (∃ nn : HNSWNode T, idx.nodes[ni]? = some nn ∧
        L < nn.connections.length) →
      EdgeSym (insertDescend idx emb ni L eps).nodes := by
  intro L
  induction L with
  | zero =>
      intro idx eps hsym hrows hfresh hni
      obtain ⟨nn, hnn, hlt⟩ := hni
      have h01 : descRange 0 1 = [0] := rfl
      rw [insertDescend, h01]
      simp only [List.foldl_cons, List.foldl_nil]
      exact (connectAtLayer_sym idx emb ni 0 eps hsym hrows hfresh nn hnn hlt).1
  | succ L ih =>
      intro idx eps hsym hrows hfresh hni
      obtain ⟨nn, hnn, hlt⟩ := hni
      rw [insertDescend, descRange_zero_succ]
      simp only [List.foldl_cons]
      obtain ⟨hsym1, hfresh1⟩ :=
        connectAtLayer_sym idx emb ni (L + 1) eps hsym hrows hfresh nn hnn hlt
      have hrows1 : RowsNonempty (connectAtLayer idx emb ni (L + 1) eps).1.nodes :=
        rowsNonempty_of_shape
          (fun j => connectAtLayer_shape idx emb ni (L + 1) eps j) hrows
      have hni1 : ∃ nn1 : HNSWNode T,
          (connectAtLayer idx emb ni (L + 1) eps).1.nodes[ni]? = some nn1 ∧
            L < nn1.connections.length := by
        obtain ⟨nn1, hnn1, hshape1⟩ := option_map_eq_some_extract nodeShape
          ((connectAtLayer_shape idx emb ni (L + 1) eps ni).trans
            (congrArg (Option.map nodeShape) hnn)).symm rfl
        refine ⟨nn1, ?_, ?_⟩
        · rw [hnn1]
        · have := nodeShape_connections_length hshape1
          omega
      have := ih (connectAtLayer idx emb ni (L + 1) eps).1
        (connectAtLayer idx emb ni (L + 1) eps).2 hsym1 hrows1 hfresh1 hni1
      rw [insertDescend] at this
      exact this

theorem pushIdx_EdgeSym {T : Type} (idx : HNSWIndex T) (id : String)
    (emb : List ℚ) (doc : Option (Document T)) (lvl : ℕ)
    (h : EdgeSym idx.nodes) :
    EdgeSym (pushIdx idx id emb doc lvl).nodes := by
  intro i L j ni row hi hrow hj
  have hp1nodes : (pushIdx idx id emb doc lvl).nodes
      = idx.nodes ++ [⟨id, emb, doc, List.replicate (lvl + 1) []⟩] := rfl
  rw [hp1nodes] at hi
  by_cases hiold : i < idx.nodes.length
  · rw [List.getElem?_append_left hiold] at hi
    obtain ⟨nj, rowj, hnj, hrowj, hmem⟩ := h i L j ni row hi hrow hj
    refine ⟨nj, rowj, ?_, hrowj, hmem⟩
    rw [hp1nodes,
      List.getElem?_append_left (List.getElem?_eq_some_iff.mp hnj).1]
    exact hnj
  · have hilen : i < (idx.nodes ++
        [(⟨id, emb, doc, List.replicate (lvl + 1) []⟩ : HNSWNode T)]).length :=
      (List.getElem?_eq_some_iff.mp hi).1
    have hieq : i = idx.nodes.length := by
      simp only [List.length_append, List.length_singleton] at hilen
      omega
    subst hieq
    rw [List.getElem?_append_right le_rfl] at hi
    simp only [Nat.sub_self, List.getElem?_cons_zero] at hi
    have hni : (⟨id, emb, doc, List.replicate (lvl + 1) []⟩ : HNSWNode T)
        = ni := Option.some.inj hi
    have hrow' : (List.replicate (lvl + 1) ([] : List ℕ))[L]? = some row := by
      rw [← hni] at hrow
      exact hrow
    rw [List.getElem?_replicate] at hrow'
    by_cases hL : L < lvl + 1
    · rw [if_pos hL] at hrow'
      have : ([] : List ℕ) = row := Option.some.inj hrow'
      rw [← this] at hj
      cases hj
    · rw [if_neg hL] at hrow'
      cases hrow'

theorem pushIdx_FreshBelow {T : Type} (idx : HNSWIndex T) (id : String)
    (emb : List ℚ) (doc : Option (Document T)) (lvl : ℕ)
    (h : EdgeSym idx.nodes) :
    FreshBelow (pushIdx idx id emb doc lvl).nodes idx.nodes.length (lvl + 1) := by
  intro v L' vn row hv hL' hrow
  have hp1nodes : (pushIdx idx id emb doc lvl).nodes
      = idx.nodes ++ [⟨id, emb, doc, List.replicate (lvl + 1) []⟩] := rfl
  rw [hp1nodes] at hv
  by_cases hvold : v < idx.nodes.length
  · rw [List.getElem?_append_left hvold] at hv
    constructor
    · intro hmem
      obtain ⟨nj, rowj, hnj, _, _⟩ := h v L' idx.nodes.length vn row hv hrow hmem
      have := (List.getElem?_eq_some_iff.mp hnj).1
      omega
    · intro hveq
      omega
  · have hvlen : v < (idx.nodes ++
        [(⟨id, emb, doc, List.replicate (lvl + 1) []⟩ : HNSWNode T)]).length :=
      (List.getElem?_eq_some_iff.mp hv).1
    have hveq : v = idx.nodes.length := by
      simp only [List.length_append, List.length_singleton] at hvlen
      omega
    subst hveq
    rw [List.getElem?_append_right le_rfl] at hv
    simp only [Nat.sub_self, List.getElem?_cons_zero] at hv
    have hvn : (⟨id, emb, doc, List.replicate (lvl + 1) []⟩ : HNSWNode T)
        = vn := Option.some.inj hv
    have hrow' : (List.replicate (lvl + 1) ([] : List ℕ))[L']? = some row := by
      rw [← hvn] at hrow
      exact hrow
    rw [List.getElem?_replicate, if_pos hL'] at hrow'
    have hempty : ([] : List ℕ) = row := Option.some.inj hrow'
    exact ⟨by rw [← hempty]; exact List.not_mem_nil _, fun _ => hempty.symm⟩

/-- Sequential `insert` preserves edge symmetry. -/
theorem insert_preserves_EdgeSym {T : Type} (idx : HNSWIndex T) (id : String)
    (emb : List ℚ) (doc : Option (Document T)) (lvl : ℕ)
    (hsym : EdgeSym idx.nodes) (hrows : RowsNonempty idx.nodes) :
    EdgeSym (idx.insert id emb doc lvl).1.nodes := by
  by_cases hdup : (idx.node_id_to_index.lookup id).isSome = true
  · have hred : (idx.insert id emb doc lvl).1 = idx := by
      rw [HNSWIndex.insert, if_pos hdup]
    rw [hred]
    exact hsym
  · have hdup' : (idx.node_id_to_index.lookup id).isSome = false := by
      simpa only [Bool.not_eq_true] using hdup
    rcases hep : idx.entry_point with _ | ep0
    · rw [insert_eq_first idx id emb doc lvl hdup' hep]
      exact pushIdx_EdgeSym idx id emb doc lvl hsym
    · rw [insert_eq_nonfirst idx id emb doc lvl ep0 hdup' hep]
      rw [promoteEP_nodes]
      refine insertDescend_sym idx.nodes.length emb lvl
        (pushIdx idx id emb doc lvl) _
        (pushIdx_EdgeSym idx id emb doc lvl hsym) ?_ ?_ ?_
      · intro j nd hj
        have hp1nodes : (pushIdx idx id emb doc lvl).nodes
            = idx.nodes ++ [⟨id, emb, doc, List.replicate (lvl + 1) []⟩] := rfl
        rw [hp1nodes] at hj
        by_cases hjold : j < idx.nodes.length
        · rw [List.getElem?_append_left hjold] at hj
          exact hrows j nd hj
        · have hjlen : j < (idx.nodes ++
              [(⟨id, emb, doc, List.replicate (lvl + 1) []⟩ : HNSWNode T)]).length :=
            (List.getElem?_eq_some_iff.mp hj).1
          have hjeq : j = idx.nodes.length := by
            simp only [List.length_append, List.length_singleton] at hjlen
            omega
          subst hjeq
          rw [List.getElem?_append_right le_rfl] at hj
          simp only [Nat.sub_self, List.getElem?_cons_zero] at hj
          rw [← Option.some.inj hj]
          simp
      · exact pushIdx_FreshBelow idx id emb doc lvl hsym
      · refine ⟨⟨id, emb, doc, List.replicate (lvl + 1) []⟩, ?_, ?_⟩
        · show (pushIdx idx id emb doc lvl).nodes[idx.nodes.length]? = _
          have hp1nodes : (pushIdx idx id emb doc lvl).nodes
              = idx.nodes ++ [⟨id, emb, doc, List.replicate (lvl + 1) []⟩] := rfl
          rw [hp1nodes, List.getElem?_append_right le_rfl]
          simp
        · simp

/-- Sequential `remove` preserves edge symmetry: filtering out the removed
slot and renumbering keeps reciprocal links aligned. -/
theorem remove_preserves_EdgeSym {T : Type} (idx : HNSWIndex T) (id : String)
    (hsym : EdgeSym idx.nodes) : EdgeSym (idx.remove id).1.nodes := by
  rcases hlook : idx.node_id_to_index.lookup id with _ | s
  · have hred : (idx.remove id).1 = idx := by
      rw [HNSWIndex.remove, hlook]
    rw [hred]
    exact hsym
  · rw [remove_eq_found idx id s hlook]
    show EdgeSym (remNodes idx s)
    intro i' L j' ni' row' hi' hrow' hj'
    obtain ⟨ni, hniOld, hmap⟩ := remNodes_elem idx s i' ni' hi'
    subst hmap
    have hconn : (remapNode s ni).connections
        = ni.connections.map fun row =>
            (row.filter fun x => decide (x ≠ s)).map fun x =>
              if s < x then x - 1 else x := rfl
    rw [hconn, List.getElem?_map] at hrow'
    rcases hrowO : ni.connections[L]? with _ | rowO
    · rw [hrowO] at hrow'
      cases hrow'
    · rw [hrowO] at hrow'
      have hrow'eq : (rowO.filter fun x => decide (x ≠ s)).map
          (fun x => if s < x then x - 1 else x) = row' :=
        Option.some.inj hrow'
      rw [← hrow'eq] at hj'
      obtain ⟨x, hxmem, hxeq⟩ := List.mem_map.mp hj'
      obtain ⟨hxrow, hxs'⟩ := List.mem_filter.mp hxmem
      have hxs : x ≠ s := by simpa using hxs'
      obtain ⟨njO, rowjO, hgetjO, hrowjO, hmemO⟩ :=
        hsym (if i' < s then i' else i' + 1) L x ni rowO hniOld hrowO hxrow
      have hnewj : (remNodes idx s)[if s < x then x - 1 else x]?
          = some (remapNode s njO) := by
        rw [remNodes, List.getElem?_map, List.getElem?_eraseIdx]
        by_cases hsx : s < x
        · rw [if_pos hsx, if_neg (by omega)]
          have hx1 : x - 1 + 1 = x := by omega
          rw [hx1, hgetjO]
          rfl
        · have hxlt : x < s := by omega
          rw [if_neg hsx, if_pos hxlt, hgetjO]
          rfl
      have hnewrow : (remapNode s njO).connections[L]?
          = some ((rowjO.filter fun y => decide (y ≠ s)).map fun y =>
              if s < y then y - 1 else y) := by
        show (njO.connections.map fun row =>
            (row.filter fun y => decide (y ≠ s)).map fun y =>
              if s < y then y - 1 else y)[L]? = _
        rw [List.getElem?_map, hrowjO]
        rfl
      have hiOlds : (if i' < s then i' else i' + 1) ≠ s := by
        by_cases hi's : i' < s
        · rw [if_pos hi's]
          omega
        · rw [if_neg hi's]
          omega
      have hi'eq : (if s < (if i' < s then i' else i' + 1)
          then (if i' < s then i' else i' + 1) - 1
          else (if i' < s then i' else i' + 1)) = i' := by
        by_cases hi's : i' < s
        · rw [if_pos hi's, if_neg (by omega)]
        · rw [if_neg hi's, if_pos (by omega)]
          omega
      refine ⟨remapNode s njO, _, ?_, hnewrow, ?_⟩
      · rw [← hxeq]
        exact hnewj
      · have hmf : (if i' < s then i' else i' + 1)
            ∈ rowjO.filter fun y => decide (y ≠ s) :=
          List.mem_filter.mpr ⟨hmemO, by simpa using hiOlds⟩
        have hmm := List.mem_map_of_mem
          (fun y => if s < y then y - 1 else y) hmf
        dsimp only at hmm
        rw [hi'eq] at hmm
        exact hmm

theorem clear_EdgeSym {T : Type} (idx : HNSWIndex T) :
    EdgeSym idx.clear.nodes := by
  intro i L j ni row hi _ _
  cases hi

/-- Every sequential operation preserves `InvEP` together with edge
symmetry. -/
theorem applyOp_preserves_sym {T : Type} (idx : HNSWIndex T) (op : Op T)
    (h : InvEP idx ∧ EdgeSym idx.nodes) (hseq : op.isSequential) :
    InvEP (applyOp idx op) ∧ EdgeSym (applyOp idx op).nodes := by
  cases op with
  | insertOne id emb doc lvl =>
      exact ⟨insert_preserves_InvEP idx id emb doc lvl h.1,
        insert_preserves_EdgeSym idx id emb doc lvl h.2 h.1.2⟩
  | insertMany items levels =>
      refine ⟨insert_multiple_preserves_InvEP idx items levels h.1, ?_⟩
      show EdgeSym (idx.insert_multiple items levels).1.nodes
      rw [HNSWIndex.insert_multiple]
      dsimp only
      have hfold := foldl_preserve
        (fun (acc : HNSWIndex T × List (Except String Unit)) p =>
          let r := acc.1.insert p.2.1 p.2.2.1 p.2.2.2 (levels.getD p.1 0)
          (r.1, acc.2 ++ [r.2]))
        (fun acc => InvEP acc.1 ∧ EdgeSym acc.1.nodes)
        items.enum (idx, []) h ?_
      · exact hfold.2
      · intro b a _ hb
        exact ⟨insert_preserves_InvEP b.1 a.2.1 a.2.2.1 a.2.2.2
            (levels.getD a.1 0) hb.1,
          insert_preserves_EdgeSym b.1 a.2.1 a.2.2.1 a.2.2.2
            (levels.getD a.1 0) hb.2 hb.1.2⟩
  | insertPar items levels => exact absurd hseq (by simp [Op.isSequential])
  | removeOne id =>
      exact ⟨remove_preserves_InvEP idx id h.1,
        remove_preserves_EdgeSym idx id h.2⟩
  | removeMany ids =>
      refine ⟨remove_multiple_preserves_InvEP idx ids h.1, ?_⟩
      show EdgeSym (idx.remove_multiple ids).1.nodes
      rw [HNSWIndex.remove_multiple]
      rcases ids.find? (fun i => !(idx.contains i)) with _ | missing
      · dsimp only
        have hfold := foldl_preserve
          (fun (acc : HNSWIndex T × List (Option (Document T)) × Option String)
              i =>
            match acc.2.2 with
            | some _ => acc
            | none =>
                let r := acc.1.remove i
                match r.2 with
                | .ok doc => (r.1, acc.2.1 ++ [doc], none)
                | .error e => (r.1, acc.2.1, some e))
          (fun acc => InvEP acc.1 ∧ EdgeSym acc.1.nodes)
          ids (idx, [], none) h ?_
        · rcases hfold2 : (ids.foldl
              (fun (acc : HNSWIndex T × List (Option (Document T)) × Option String)
                  i =>
                match acc.2.2 with
                | some _ => acc
                | none =>
                    let r := acc.1.remove i
                    match r.2 with
                    | .ok doc => (r.1, acc.2.1 ++ [doc], none)
                    | .error e => (r.1, acc.2.1, some e))
              (idx, [], none)).2.2 with _ | e
          · exact hfold.2
          · exact hfold.2
        · intro b a _ hb
          dsimp only
          rcases hbb : b.2.2 with _ | err
          · simp only [hbb]
            rcases hr : (b.1.remove a).2 with e | doc
            · simp only [hr]
              exact ⟨remove_preserves_InvEP b.1 a hb.1,
                remove_preserves_EdgeSym b.1 a hb.2⟩
            · simp only [hr]
              exact ⟨remove_preserves_InvEP b.1 a hb.1,
                remove_preserves_EdgeSym b.1 a hb.2⟩
          · simp only [hbb]
            exact hb
      · exact h.2
  | clearAll => exact ⟨clear_preserves_InvEP idx, clear_EdgeSym idx⟩

theorem applyOps_preserves_sym {T : Type} (ops : List (Op T)) :
    ∀ idx : HNSWIndex T, InvEP idx ∧ EdgeSym idx.nodes →
      (∀ op ∈ ops, op.isSequential) →
      InvEP (applyOps idx ops) ∧ EdgeSym (applyOps idx ops).nodes := by
  induction ops with
  | nil =>
      intro idx h _
      exact h
  | cons op rest ih =>
      intro idx h hseq
      have hstep := applyOp_preserves_sym idx op h
        (hseq op (List.mem_cons_self op rest))
      exact ih (applyOp idx op) hstep
        (fun o ho => hseq o (List.mem_cons_of_mem op ho))

theorem new_EdgeSym (T : Type) (dim m efc : ℕ) :
    EdgeSym (HNSWIndex.new T dim m efc).nodes := by
  intro i L j ni row hi _ _
  cases hi

/-- C3: after any sequence of sequential public operations (insert,
insert_multiple, remove, remove_multiple, clear) from a fresh index, edges
are symmetric: every listed neighbor `j` of `i` at layer `L` exists, has a
layer-`L` row, and lists `i` back at layer `L`. -/
theorem C3_edges_symmetric {T : Type} (dim m efc : ℕ) (ops : List (Op T))
    (hseq : ∀ op ∈ ops, op.isSequential) :
    ∀ (i L j : ℕ) (ni : HNSWNode T) (row : List ℕ),
      (applyOps (HNSWIndex.new T dim m efc) ops).nodes[i]? = some ni →
      ni.connections[L]? = some row → j ∈ row →
        ∃ (nj : HNSWNode T) (rowj : List ℕ),
          (applyOps (HNSWIndex.new T dim m efc) ops).nodes[j]? = some nj ∧
            nj.connections[L]? = some rowj ∧ i ∈ rowj :=
  (applyOps_preserves_sym ops (HNSWIndex.new T dim m efc)
    ⟨new_InvEP T dim m efc, new_EdgeSym T dim m efc⟩ hseq).2

theorem C3_edges_symmetric_witness :
    (∀ op ∈ [Op.insertOne (T := ℕ) "a" [1, 2, 3] none 0], op.isSequential) ∧
      ∀ (i L j : ℕ) (ni : HNSWNode ℕ) (row : List ℕ),
        (applyOps (HNSWIndex.new ℕ 3 2 2)
          [Op.insertOne "a" [1, 2, 3] none 0]).nodes[i]? = some ni →
        ni.connections[L]? = some row → j ∈ row →
          ∃ (nj : HNSWNode ℕ) (rowj : List ℕ),
            (applyOps (HNSWIndex.new ℕ 3 2 2)
              [Op.insertOne "a" [1, 2, 3] none 0]).nodes[j]? = some nj ∧
              nj.connections[L]? = some rowj ∧ i ∈ rowj :=
  ⟨fun op hop => by
      rcases List.mem_singleton.mp hop with rfl
      exact trivial,
    C3_edges_symmetric 3 2 2 [Op.insertOne "a" [1, 2, 3] none 0]
      (fun op hop => by
        rcases List.mem_singleton.mp hop with rfl
        exact trivial)⟩

/-! ### C6: self-query exactness -/

theorem sqDiffSum_self (v : List ℚ) : sqDiffSum v v = 0 := by
  rw [sqDiffSum]
  induction v with
  | nil => simp
  | cons x xs ih =>
      rw [List.zip_cons_cons, List.map_cons, List.sum_cons, ih]
      simp

theorem euclid_dist_self (v : List ℚ) :
    DistanceMetric.euclidean.distance v v = 0 := by
  rw [DistanceMetric.distance, sqDiffSum_self, Real.sqrt_zero]

theorem dotSum_self (v : List ℚ) : dotSum v v = sqSum v := by
  rw [dotSum, sqSum]
  induction v with
  | nil => simp
  | cons x xs ih =>
      rw [List.zip_cons_cons, List.map_cons, List.sum_cons, ih,
        List.map_cons, List.sum_cons]
      ring_nf

theorem sqSum_nonneg (v : List ℚ) : 0 ≤ sqSum v := by
  rw [sqSum]
  refine List.sum_nonneg ?_
  intro x hx
  obtain ⟨y, _, hy⟩ := List.mem_map.mp hx
  rw [← hy]
  positivity

theorem cosine_dist_self (v : List ℚ) (hv : sqSum v ≠ 0) :
    DistanceMetric.cosine.distance v v = 0 := by
  have hpos : 0 < sqSum v := lt_of_le_of_ne (sqSum_nonneg v) (Ne.symm hv)
  have hsqrt : Real.sqrt (sqSum v) ≠ 0 := by
    rw [Real.sqrt_ne_zero']
    exact hpos
  rw [DistanceMetric.distance]
  rw [if_neg (by push_neg; exact ⟨hsqrt, hsqrt⟩)]
  rw [dotSum_self, Real.mul_self_sqrt (le_of_lt hpos)]
  rw [div_self hv]
  ring

theorem descRange_peel (lo hi : ℕ) (h : lo ≤ hi) :
    descRange lo (hi + 1) = hi :: descRange lo hi := by
  simp only [descRange]
  have h1 : hi + 1 - lo = (hi - lo) + 1 := by omega
  rw [h1, List.range'_concat]
  rw [List.reverse_append]
  have h2 : lo + 1 * (hi - lo) = hi := by omega
  rw [h2]
  simp

/-- A seed that exists and participates forces a nonempty seeded candidate
list. -/
theorem initSeeds_cand_ne {T : Type} (dm : DistanceMetric)
    (nodes : List (HNSWNode T)) (q : List ℚ) (layer : ℕ) :
    ∀ (eps : List ℕ) (st : SLState),
      (st.cand ≠ [] ∨ ∃ e ∈ eps, ∃ n : HNSWNode T, nodes[e]? = some n ∧
        (layer = 0 ∨ layer < n.connections.length)) →
      (eps.foldl
        (fun st ep =>
          match nodes[ep]? with
          | some node =>
              if layer = 0 ∨ layer < node.connections.length then
                { st with cand := st.cand ++ [(ep, dm.distance q node.embedding)],
                          vis := ep :: st.vis }
              else st
          | none => st)
        st).cand ≠ [] := by
  intro eps
  induction eps with
  | nil =>
      intro st h
      rcases h with h | ⟨e, he, _⟩
      · exact h
      · cases he
  | cons e rest ih =>
      intro st h
      simp only [List.foldl_cons]
      rcases h with h | ⟨e', he', n, hn, hpart⟩
      · refine ih _ (Or.inl ?_)
        rcases hget : nodes[e]? with _ | node
        · exact h
        · dsimp only
          by_cases hc : layer = 0 ∨ layer < node.connections.length
          · rw [if_pos hc]
            simp only []
            intro habs
            rw [List.append_eq_nil] at habs
            exact h habs.1
          · rw [if_neg hc]
            exact h
      · rcases List.mem_cons.mp he' with he'' | he''
        · subst he''
          refine ih _ (Or.inl ?_)
          rw [hn]
          dsimp only
          rw [if_pos hpart]
          simp only []
          intro habs
          rw [List.append_eq_nil] at habs
          cases habs.2
        · exact ih _ (Or.inr ⟨e', he'', n, hn, hpart⟩)

theorem initSeeds_ne {T : Type} (idx : HNSWIndex T) (q : List ℚ) (layer : ℕ)
    (eps : List ℕ)
    (h : ∃ e ∈ eps, ∃ n : HNSWNode T, idx.nodes[e]? = some n ∧
      (layer = 0 ∨ layer < n.connections.length)) :
    (initSeeds idx.distance_metric idx.nodes q layer eps).cand ≠ [] := by
  rw [initSeeds]
  exact initSeeds_cand_ne idx.distance_metric idx.nodes q layer eps ⟨[], [], []⟩
    (Or.inr h)

/-- A search whose seed list contains a participating node returns at least
one result. -/
theorem search_layer_ne {T : Type} (idx : HNSWIndex T) (q : List ℚ)
    (eps : List ℕ) (layer k : ℕ)
    (h : ∃ e ∈ eps, ∃ n : HNSWNode T, idx.nodes[e]? = some n ∧
      (layer = 0 ∨ layer < n.connections.length)) :
    idx.search_layer q eps layer k ≠ [] := by
  have hb := (search_layer_length_bounds idx q eps layer k).2
  have hne := initSeeds_ne idx q layer eps h
  have hpos : 0 < (initSeeds idx.distance_metric idx.nodes q layer
      eps).cand.length := List.length_pos.mpr hne
  exact List.ne_nil_of_length_pos (by omega)

/-- The upper-layer chain of `search` keeps a nonempty list of valid entry
slots, provided all seeds participate below `hi + 1` and edges are
symmetric. -/
theorem search_chain_valid {T : Type} (idx : HNSWIndex T) (q : List ℚ)
    (hsym : EdgeSym idx.nodes) :
    ∀ (hi : ℕ) (eps : List ℕ), eps ≠ [] →
      (∀ e ∈ eps, ∃ n : HNSWNode T, idx.nodes[e]? = some n ∧
        hi < n.connections.length) →
      ((descRange 1 (hi + 1)).foldl
          (fun eps layer =>
            if eps ≠ [] then (idx.search_layer q eps layer 1).map Prod.fst
            else eps) eps) ≠ [] ∧
        ∀ e ∈ (descRange 1 (hi + 1)).foldl
          (fun eps layer =>
            if eps ≠ [] then (idx.search_layer q eps layer 1).map Prod.fst
            else eps) eps, ∃ n : HNSWNode T, idx.nodes[e]? = some n := by
  intro hi
  induction hi with
  | zero =>
      intro eps hne hval
      have h0 : descRange 1 1 = [] := rfl
      rw [h0]
      simp only [List.foldl_nil]
      exact ⟨hne, fun e he => (hval e he).imp fun n hn => hn.1⟩
  | succ hi ih =>
      intro eps hne hval
      rw [descRange_peel 1 (hi + 1) (by omega)]
      simp only [List.foldl_cons]
      rw [if_pos hne]
      have hwit : ∃ e ∈ eps, ∃ n : HNSWNode T, idx.nodes[e]? = some n ∧
          (hi + 1 = 0 ∨ hi + 1 < n.connections.length) := by
        rcases eps with _ | ⟨e0, rest⟩
        · exact absurd rfl hne
        · obtain ⟨n, hn, hlt⟩ := hval e0 (List.mem_cons_self e0 rest)
          exact ⟨e0, List.mem_cons_self e0 rest, n, hn, Or.inr hlt⟩
      refine ih ((idx.search_layer q eps (hi + 1) 1).map Prod.fst) ?_ ?_
      · intro habs
        rw [List.map_eq_nil] at habs
        exact search_layer_ne idx q eps (hi + 1) 1 hwit habs
      · intro e he
        obtain ⟨p, hp, hpe⟩ := List.mem_map.mp he
        obtain ⟨n, hn, hpart⟩ := search_layer_participates idx q eps (hi + 1) 1
          hsym p hp
        rcases hpart with h0 | hlt
        · cases h0
        · refine ⟨n, ?_, ?_⟩
          · rw [← hpe]
            exact hn
          · omega

/-- Basic properties of the seeded state: distances are correct, every seeded
candidate is visited, and every visited slot is a candidate. -/
theorem initSeeds_props {T : Type} (dm : DistanceMetric)
    (nodes : List (HNSWNode T)) (q : List ℚ) (layer : ℕ) (eps : List ℕ) :
    (∀ p ∈ (initSeeds dm nodes q layer eps).cand,
      ∃ n, nodes[p.1]? = some n ∧ p.2 = dm.distance q n.embedding) ∧
    (∀ p ∈ (initSeeds dm nodes q layer eps).cand,
      p.1 ∈ (initSeeds dm nodes q layer eps).vis) ∧
    (∀ x ∈ (initSeeds dm nodes q layer eps).vis,
      ∃ d, (x, d) ∈ (initSeeds dm nodes q layer eps).cand) := by
  rw [initSeeds]
  refine foldl_preserve _
    (fun (st : SLState) =>
      (∀ p ∈ st.cand,
        ∃ n, nodes[p.1]? = some n ∧ p.2 = dm.distance q n.embedding) ∧
      (∀ p ∈ st.cand, p.1 ∈ st.vis) ∧
      (∀ x ∈ st.vis, ∃ d, (x, d) ∈ st.cand))
    eps ⟨[], [], []⟩ ⟨(by intro p hp; cases hp), (by intro p hp; cases hp),
      (by intro x hx; cases hx)⟩ ?_
  intro st ep _ hst
  rcases hget : nodes[ep]? with _ | node
  · exact hst
  · dsimp only
    by_cases hc : layer = 0 ∨ layer < node.connections.length
    · rw [if_pos hc]
      refine ⟨?_, ?_, ?_⟩
      · intro p hp
        rcases List.mem_append.mp hp with h | h
        · exact hst.1 p h
        · simp only [List.mem_singleton] at h
          rw [h]
          exact ⟨node, hget, rfl⟩
      · intro p hp
        rcases List.mem_append.mp hp with h | h
        · exact List.mem_cons_of_mem ep (hst.2.1 p h)
        · simp only [List.mem_singleton] at h
          rw [h]
          exact List.mem_cons_self ep _
      · intro x hx
        rcases List.mem_cons.mp hx with h | h
        · subst h
          exact ⟨dm.distance q node.embedding,
            List.mem_append.mpr (Or.inr (List.mem_singleton.mpr rfl))⟩
        · obtain ⟨d, hd⟩ := hst.2.2 x h
          exact ⟨d, List.mem_append.mpr (Or.inl hd)⟩
    · rw [if_neg hc]
      exact hst

/-- Over a distance-correct candidate list, distances are nonnegative and
only slot `s` can sit at distance `0`. -/
theorem cand_nonneg_zero {T : Type} (dm : DistanceMetric)
    (nodes : List (HNSWNode T)) (q : List ℚ) (s : ℕ) (sn : HNSWNode T)
    (hsn : nodes[s]? = some sn) (hs0 : dm.distance q sn.embedding = 0)
    (hpos : ∀ (j : ℕ) (n : HNSWNode T), nodes[j]? = some n → j ≠ s →
      0 < dm.distance q n.embedding)
    (l : List (ℕ × ℝ))
    (hdc : ∀ p ∈ l, ∃ n, nodes[p.1]? = some n ∧
      p.2 = dm.distance q n.embedding) :
    (∀ p ∈ l, 0 ≤ p.2) ∧ (∀ p ∈ l, p.2 = 0 → p.1 = s) := by
  constructor
  · intro p hp
    obtain ⟨n, hn, hd⟩ := hdc p hp
    by_cases hps : p.1 = s
    · subst hps
      rw [hsn] at hn
      have hns : n = sn := (Option.some.inj hn).symm
      subst hns
      rw [hd, hs0]
    · rw [hd]
      exact le_of_lt (hpos p.1 n hn hps)
  · intro p hp hp0
    obtain ⟨n, hn, hd⟩ := hdc p hp
    by_contra hps
    have := hpos p.1 n hn hps
    rw [← hd, hp0] at this
    exact lt_irrefl 0 this

theorem mem_dropLast_sorted (s : ℕ) (l : List (ℕ × ℝ))
    (hsort : DistSorted l) (hmem : (s, (0 : ℝ)) ∈ l)
    (hnn : ∀ p ∈ l, 0 ≤ p.2) (hzero : ∀ p ∈ l, p.2 = 0 → p.1 = s)
    (hlen : 2 ≤ l.length) : (s, (0 : ℝ)) ∈ l.dropLast := by
  have hne : l ≠ [] := by
    intro habs
    rw [habs] at hlen
    simp at hlen
  have hsplit := List.dropLast_append_getLast hne
  rw [← hsplit] at hmem
  rcases List.mem_append.mp hmem with h | h
  · exact h
  · simp only [List.mem_singleton] at h
    have hdne : l.dropLast ≠ [] := by
      refine List.ne_nil_of_length_pos ?_
      rw [List.length_dropLast]
      omega
    rcases hd : l.dropLast with _ | ⟨p0, drest⟩
    · exact absurd hd hdne
    · have hp0l : p0 ∈ l.dropLast := by
        rw [hd]
        exact List.mem_cons_self p0 drest
      have hp0mem : p0 ∈ l := List.mem_of_mem_dropLast hp0l
      have hsort2 : List.Pairwise (fun a b => a.2 ≤ b.2)
          (l.dropLast ++ [l.getLast hne]) := by
        rw [hsplit]
        exact hsort
      rw [List.pairwise_append] at hsort2
      have hle := hsort2.2.2 p0 hp0l (l.getLast hne)
        (List.mem_singleton.mpr rfl)
      rw [← h] at hle
      have hge := hnn p0 hp0mem
      have hp0z : p0.2 = 0 := le_antisymm hle hge
      have hp0s : p0.1 = s := hzero p0 hp0mem hp0z
      have hp0eq : p0 = (s, (0 : ℝ)) := by
        rcases p0 with ⟨a, b⟩
        simp only at hp0z hp0s
        rw [hp0z, hp0s]
      rw [hp0eq] at hp0l
      rw [hd] at hp0l
      exact hp0l

/-- Once the queried node's exact hit is a candidate, it stays one. -/
theorem processNeighbor_retains {T : Type} (dm : DistanceMetric)
    (nodes : List (HNSWNode T)) (q : List ℚ) (k ef : ℕ) (s : ℕ)
    (sn : HNSWNode T) (hsn : nodes[s]? = some sn)
    (hs0 : dm.distance q sn.embedding = 0)
    (hpos : ∀ (j : ℕ) (n : HNSWNode T), nodes[j]? = some n → j ≠ s →
      0 < dm.distance q n.embedding)
    (hk : 1 ≤ k) (st : SLState) (nb : ℕ)
    (hdc : ∀ p ∈ st.cand, ∃ n, nodes[p.1]? = some n ∧
      p.2 = dm.distance q n.embedding)
    (hmem : (s, (0 : ℝ)) ∈ st.cand) :
    (s, (0 : ℝ)) ∈ (processNeighbor dm nodes q k ef st nb).cand := by
  rw [processNeighbor]
  by_cases hvis : nb ∈ st.vis
  · rw [if_pos hvis]
    exact hmem
  · rw [if_neg hvis]
    rcases hget : nodes[nb]? with _ | node
    · exact hmem
    · dsimp only
      by_cases hpush : pushCond k st.cand (dm.distance q node.embedding)
      · rw [if_pos hpush]
        dsimp only
        have hmem' : (s, (0 : ℝ)) ∈ stableSort leDist
            (st.cand ++ [(nb, dm.distance q node.embedding)]) := by
          rw [mem_stableSort]
          exact List.mem_append.mpr (Or.inl hmem)
        by_cases hkl : k < (stableSort leDist
            (st.cand ++ [(nb, dm.distance q node.embedding)])).length
        · rw [if_pos hkl]
          have hdc' : ∀ p ∈ stableSort leDist
              (st.cand ++ [(nb, dm.distance q node.embedding)]),
              ∃ n, nodes[p.1]? = some n ∧ p.2 = dm.distance q n.embedding := by
            intro p hp
            rw [mem_stableSort] at hp
            rcases List.mem_append.mp hp with h | h
            · exact hdc p h
            · simp only [List.mem_singleton] at h
              rw [h]
              exact ⟨node, hget, rfl⟩
          obtain ⟨hnn, hzero⟩ := cand_nonneg_zero dm nodes q s sn hsn hs0 hpos
            _ hdc'
          exact mem_dropLast_sorted s _ (stableSort_distSorted _) hmem'
            hnn hzero (by omega)
        · rw [if_neg hkl]
          exact hmem'
      · rw [if_neg hpush]
        exact hmem

/-- Where elements of a `processNeighbor` state come from. -/
theorem processNeighbor_src {T : Type} (dm : DistanceMetric)
    (nodes : List (HNSWNode T)) (q : List ℚ) (k ef : ℕ) (st : SLState)
    (nb : ℕ) :
    (∀ p ∈ (processNeighbor dm nodes q k ef st nb).dyn,
      p ∈ st.dyn ∨ ∃ node, nodes[nb]? = some node ∧
        p = (nb, dm.distance q node.embedding)) ∧
    (∀ x ∈ st.vis, x ∈ (processNeighbor dm nodes q k ef st nb).vis) ∧
    (∀ x ∈ (processNeighbor dm nodes q k ef st nb).vis,
      x = nb ∨ x ∈ st.vis) ∧
    (nb ∈ (processNeighbor dm nodes q k ef st nb).vis ∨
      (processNeighbor dm nodes q k ef st nb).dyn = st.dyn) := by
  rw [processNeighbor]
  by_cases hvis : nb ∈ st.vis
  · rw [if_pos hvis]
    exact ⟨fun p hp => Or.inl hp, fun x hx => hx, fun x hx => Or.inr hx,
      Or.inl hvis⟩
  · rw [if_neg hvis]
    rcases hget : nodes[nb]? with _ | node
    · exact ⟨fun p hp => Or.inl hp, fun x hx => List.mem_cons_of_mem nb hx,
        fun x hx => List.mem_cons.mp hx, Or.inl (List.mem_cons_self nb _)⟩
    · dsimp only
      by_cases hpush : pushCond k st.cand (dm.distance q node.embedding)
      · rw [if_pos hpush]
        dsimp only
        refine ⟨?_, fun x hx => List.mem_cons_of_mem nb hx,
          fun x hx => List.mem_cons.mp hx, Or.inl (List.mem_cons_self nb _)⟩
        intro p hp
        have hp2 : p ∈ stableSort leDist
            (st.dyn ++ [(nb, dm.distance q node.embedding)]) := by
          by_cases hefl : ef < (stableSort leDist
              (st.dyn ++ [(nb, dm.distance q node.embedding)])).length
          · rw [if_pos hefl] at hp
            exact (List.dropLast_sublist _).subset hp
          · rw [if_neg hefl] at hp
            exact hp
        rw [mem_stableSort] at hp2
        rcases List.mem_append.mp hp2 with h | h
        · exact Or.inl h
        · simp only [List.mem_singleton] at h
          exact Or.inr ⟨node, rfl, h⟩
      · rw [if_neg hpush]
        exact ⟨fun p hp => Or.inl hp, fun x hx => List.mem_cons_of_mem nb hx,
          fun x hx => List.mem_cons.mp hx, Or.inl (List.mem_cons_self nb _)⟩

/-- The loop-state components of the layer-0 self-query argument that every
`processNeighbor` step preserves. -/
def P6core {T : Type} (dm : DistanceMetric) (nodes : List (HNSWNode T))
    (q : List ℚ) (st : SLState) : Prop :=
  (∀ p ∈ st.cand, ∃ n, nodes[p.1]? = some n ∧
    p.2 = dm.distance q n.embedding) ∧
  (∀ p ∈ st.dyn, p.1 ∈ st.vis) ∧
  (∀ p ∈ st.dyn, ∃ n : HNSWNode T, nodes[p.1]? = some n) ∧
  DistSorted st.cand

theorem processNeighbor_P6core {T : Type} (dm : DistanceMetric)
    (nodes : List (HNSWNode T)) (q : List ℚ) (k ef : ℕ) (st : SLState)
    (nb : ℕ) (h : P6core dm nodes q st) :
    P6core dm nodes q (processNeighbor dm nodes q k ef st nb) := by
  obtain ⟨hdc, hdv, hdval, hsort⟩ := h
  obtain ⟨hdyn, hvmono, _, hnbv⟩ := processNeighbor_src dm nodes q k ef st nb
  refine ⟨?_, ?_, ?_, processNeighbor_cand_sorted dm nodes q k ef st nb hsort⟩
  · intro p hp
    rcases processNeighbor_cand_subset dm nodes q k ef st nb p hp with h | h
    · exact hdc p h
    · rw [processNeighbor] at hp
      by_cases hvis : nb ∈ st.vis
      · rw [if_pos hvis] at hp
        exact hdc p hp
      · rw [if_neg hvis] at hp
        rcases hget : nodes[nb]? with _ | node
        · rw [hget] at hp
          exact hdc p hp
        · rw [hget] at hp
          dsimp only at hp
          by_cases hpush : pushCond k st.cand (dm.distance q node.embedding)
          · rw [if_pos hpush] at hp
            dsimp only at hp
            have hp2 : p ∈ stableSort leDist
                (st.cand ++ [(nb, dm.distance q node.embedding)]) := by
              by_cases hkl : k < (stableSort leDist
                  (st.cand ++ [(nb, dm.distance q node.embedding)])).length
              · rw [if_pos hkl] at hp
                exact (List.dropLast_sublist _).subset hp
              · rw [if_neg hkl] at hp
                exact hp
            rw [mem_stableSort] at hp2
            rcases List.mem_append.mp hp2 with h2 | h2
            · exact hdc p h2
            · simp only [List.mem_singleton] at h2
              rw [h2]
              exact ⟨node, hget, rfl⟩
          · rw [if_neg hpush] at hp
            exact hdc p hp
  · intro p hp
    rcases hdyn p hp with h | ⟨node, hget, hpeq⟩
    · exact hvmono p.1 (hdv p h)
    · rcases hnbv with h2 | h2
      · rw [hpeq]
        exact h2
      · rw [h2] at hp
        exact hvmono p.1 (hdv p hp)
  · intro p hp
    rcases hdyn p hp with h | ⟨node, hget, hpeq⟩
    · exact hdval p h
    · rw [hpeq]
      exact ⟨node, hget⟩

/-- Processing the queried slot itself puts the exact hit among the
candidates. -/
theorem processNeighbor_hits {T : Type} (dm : DistanceMetric)
    (nodes : List (HNSWNode T)) (q : List ℚ) (k ef : ℕ) (s : ℕ)
    (sn : HNSWNode T) (hsn : nodes[s]? = some sn)
    (hs0 : dm.distance q sn.embedding = 0)
    (hpos : ∀ (j : ℕ) (n : HNSWNode T), nodes[j]? = some n → j ≠ s →
      0 < dm.distance q n.embedding)
    (hk : 1 ≤ k) (st : SLState)
    (hdc : ∀ p ∈ st.cand, ∃ n, nodes[p.1]? = some n ∧
      p.2 = dm.distance q n.embedding)
    (hvis : s ∉ st.vis) :
    (s, (0 : ℝ)) ∈ (processNeighbor dm nodes q k ef st s).cand := by
  rw [processNeighbor, if_neg hvis, hsn]
  dsimp only
  by_cases hpush : pushCond k st.cand (dm.distance q sn.embedding)
  · rw [if_pos hpush]
    dsimp only
    have hmem' : (s, (0 : ℝ)) ∈ stableSort leDist
        (st.cand ++ [(s, dm.distance q sn.embedding)]) := by
      rw [mem_stableSort]
      refine List.mem_append.mpr (Or.inr ?_)
      rw [hs0]
      exact List.mem_singleton.mpr rfl
    by_cases hkl : k < (stableSort leDist
        (st.cand ++ [(s, dm.distance q sn.embedding)])).length
    · rw [if_pos hkl]
      have hdc' : ∀ p ∈ stableSort leDist
          (st.cand ++ [(s, dm.distance q sn.embedding)]),
          ∃ n, nodes[p.1]? = some n ∧ p.2 = dm.distance q n.embedding := by
        intro p hp
        rw [mem_stableSort] at hp
        rcases List.mem_append.mp hp with h | h
        · exact hdc p h
        · simp only [List.mem_singleton] at h
          rw [h]
          exact ⟨sn, hsn, rfl⟩
      obtain ⟨hnn, hzero⟩ := cand_nonneg_zero dm nodes q s sn hsn hs0 hpos
        _ hdc'
      exact mem_dropLast_sorted s _ (stableSort_distSorted _) hmem' hnn hzero
        (by omega)
    · rw [if_neg hkl]
      exact hmem'
  · rw [if_neg hpush]
    rw [pushCond] at hpush
    simp only [Bool.or_eq_true, decide_eq_true_eq, not_or] at hpush
    obtain ⟨hlen, hlast⟩ := hpush
    have hcne : st.cand ≠ [] := by
      intro habs
      apply hlen
      rw [habs]
      simpa using hk
    rw [List.getLast?_eq_getLast st.cand hcne] at hlast
    simp only [decide_eq_true_eq] at hlast
    have hlmem : st.cand.getLast hcne ∈ st.cand := List.getLast_mem hcne
    obtain ⟨hnn, hzero⟩ := cand_nonneg_zero dm nodes q s sn hsn hs0 hpos
      st.cand hdc
    have hl2 : (st.cand.getLast hcne).2 = 0 := by
      have h1 := hnn _ hlmem
      rw [hs0] at hlast
      exact le_antisymm (not_lt.mp hlast) h1
    have hl1 : (st.cand.getLast hcne).1 = s := hzero _ hlmem hl2
    have hleq : st.cand.getLast hcne = (s, (0 : ℝ)) := by
      rcases hgl : st.cand.getLast hcne with ⟨a, b⟩
      rw [hgl] at hl1 hl2
      simp only at hl1 hl2
      rw [hl1, hl2]
    rw [← hleq]
    exact hlmem

/-- The layer-0 search for a stored vector always reports the stored node
first, at distance exactly `0`. -/
theorem search_layer_zero_head {T : Type} (idx : HNSWIndex T) (v : List ℚ)
    (eps : List ℕ) (k s : ℕ) (sn : HNSWNode T)
    (hsn : idx.nodes[s]? = some sn)
    (hs0 : idx.distance_metric.distance v sn.embedding = 0)
    (hpos : ∀ (j : ℕ) (n : HNSWNode T), idx.nodes[j]? = some n → j ≠ s →
      0 < idx.distance_metric.distance v n.embedding)
    (hk : 1 ≤ k) (hne : eps ≠ [])
    (hval : ∀ e ∈ eps, ∃ n : HNSWNode T, idx.nodes[e]? = some n) :
    (idx.search_layer v eps 0 k)[0]? = some (s, 0) := by
  obtain ⟨hIdc, hIcv, hIvc⟩ := initSeeds_props idx.distance_metric idx.nodes
    v 0 eps
  have hslen : s < idx.nodes.length := (List.getElem?_eq_some_iff.mp hsn).1
  obtain ⟨st', hP, hdyn', heq⟩ := searchLoop_reaches2 idx.distance_metric
    idx.nodes v 0 k idx.ef_construction
    (fun st => P6core idx.distance_metric idx.nodes v st ∧
      ((s, (0 : ℝ)) ∈ st.cand ∨ (s ∉ st.vis ∧ st.dyn ≠ [])))
    (by
      intro st c dd rest hdyn hget hP
      have hmem : (c, dd) ∈ st.dyn := by
        rw [hdyn]
        exact List.mem_cons_self _ _
      obtain ⟨n, hn⟩ := hP.1.2.2.1 (c, dd) hmem
      rw [hget] at hn
      cases hn)
    (by
      intro st c dd rest node hdyn hget hP
      obtain ⟨hcore, hclause⟩ := hP
      have hcore1 : P6core idx.distance_metric idx.nodes v
          { st with dyn := rest } := by
        obtain ⟨h1, h2, h3, h4⟩ := hcore
        refine ⟨h1, ?_, ?_, h4⟩
        · intro p hp
          exact h2 p (by rw [hdyn]; exact List.mem_cons_of_mem _ hp)
        · intro p hp
          exact h3 p (by rw [hdyn]; exact List.mem_cons_of_mem _ hp)
      rcases hclause with hin | ⟨hsv, _⟩
      · have hf := foldl_preserve
          (processNeighbor idx.distance_metric idx.nodes v k
            idx.ef_construction)
          (fun st2 => P6core idx.distance_metric idx.nodes v st2 ∧
            (s, (0 : ℝ)) ∈ st2.cand)
          (layerNeighbors idx.nodes 0 c node) { st with dyn := rest }
          ⟨hcore1, hin⟩ ?_
        · exact ⟨hf.1, Or.inl hf.2⟩
        · intro st2 nb _ hst2
          exact ⟨processNeighbor_P6core idx.distance_metric idx.nodes v k
            idx.ef_construction st2 nb hst2.1,
            processNeighbor_retains idx.distance_metric idx.nodes v k
              idx.ef_construction s sn hsn hs0 hpos hk st2 nb hst2.1.1 hst2.2⟩
      · have hcvis : c ∈ st.vis := hcore.2.1 (c, dd) (by
          rw [hdyn]
          exact List.mem_cons_self _ _)
        have hsc : s ≠ c := fun h => hsv (h ▸ hcvis)
        have hsmem : s ∈ layerNeighbors idx.nodes 0 c node := by
          rw [layerNeighbors, if_pos rfl]
          rw [List.mem_filter]
          exact ⟨List.mem_range.mpr hslen, by simpa using hsc⟩
        obtain ⟨S1, S2, hSeq⟩ := List.append_of_mem hsmem
        have hnd : (layerNeighbors idx.nodes 0 c node).Nodup := by
          rw [layerNeighbors, if_pos rfl]
          exact (List.nodup_range idx.nodes.length).filter _
        rw [hSeq] at hnd
        rw [List.nodup_append] at hnd
        have hsS1 : s ∉ S1 := fun h =>
          hnd.2.2 h (List.mem_cons_self s S2)
        rw [hSeq, List.foldl_append, List.foldl_cons]
        have hst2 : P6core idx.distance_metric idx.nodes v
            (S1.foldl (processNeighbor idx.distance_metric idx.nodes v k
              idx.ef_construction) { st with dyn := rest }) ∧
            s ∉ (S1.foldl (processNeighbor idx.distance_metric idx.nodes v k
              idx.ef_construction) { st with dyn := rest }).vis := by
          refine foldl_preserve _
            (fun st2 => P6core idx.distance_metric idx.nodes v st2 ∧
              s ∉ st2.vis) S1 _ ⟨hcore1, hsv⟩ ?_
          intro st2 nb hnb hst2
          refine ⟨processNeighbor_P6core idx.distance_metric idx.nodes v k
            idx.ef_construction st2 nb hst2.1, ?_⟩
          intro habs
          obtain ⟨_, _, hvsrc, _⟩ := processNeighbor_src idx.distance_metric
            idx.nodes v k idx.ef_construction st2 nb
          rcases hvsrc s habs with h | h
          · exact hsS1 (h ▸ hnb)
          · exact hst2.2 h
        have hst3core : P6core idx.distance_metric idx.nodes v
            (processNeighbor idx.distance_metric idx.nodes v k
              idx.ef_construction
              (S1.foldl (processNeighbor idx.distance_metric idx.nodes v k
                idx.ef_construction) { st with dyn := rest }) s) :=
          processNeighbor_P6core idx.distance_metric idx.nodes v k
            idx.ef_construction _ s hst2.1
        have hst3mem : (s, (0 : ℝ)) ∈ (processNeighbor idx.distance_metric
            idx.nodes v k idx.ef_construction
            (S1.foldl (processNeighbor idx.distance_metric idx.nodes v k
              idx.ef_construction) { st with dyn := rest }) s).cand :=
          processNeighbor_hits idx.distance_metric idx.nodes v k
            idx.ef_construction s sn hsn hs0 hpos hk _ hst2.1.1 hst2.2
        have hf := foldl_preserve
          (processNeighbor idx.distance_metric idx.nodes v k
            idx.ef_construction)
          (fun st2 => P6core idx.distance_metric idx.nodes v st2 ∧
            (s, (0 : ℝ)) ∈ st2.cand)
          S2 _ ⟨hst3core, hst3mem⟩ ?_
        · exact ⟨hf.1, Or.inl hf.2⟩
        · intro st2 nb _ hst2b
          exact ⟨processNeighbor_P6core idx.distance_metric idx.nodes v k
            idx.ef_construction st2 nb hst2b.1,
            processNeighbor_retains idx.distance_metric idx.nodes v k
              idx.ef_construction s sn hsn hs0 hpos hk st2 nb hst2b.1.1
              hst2b.2⟩)
    (slMeasure idx.nodes.length
      { cand := stableSort leDist (initSeeds idx.distance_metric idx.nodes
          v 0 eps).cand,
        dyn := stableSort leDist (initSeeds idx.distance_metric idx.nodes
          v 0 eps).cand,
        vis := (initSeeds idx.distance_metric idx.nodes v 0 eps).vis })
    { cand := stableSort leDist (initSeeds idx.distance_metric idx.nodes
        v 0 eps).cand,
      dyn := stableSort leDist (initSeeds idx.distance_metric idx.nodes
        v 0 eps).cand,
      vis := (initSeeds idx.distance_metric idx.nodes v 0 eps).vis }
    le_rfl
    (by
      have hdc0 : ∀ p ∈ stableSort leDist (initSeeds idx.distance_metric
          idx.nodes v 0 eps).cand, ∃ n, idx.nodes[p.1]? = some n ∧
          p.2 = idx.distance_metric.distance v n.embedding := by
        intro p hp
        exact hIdc p ((mem_stableSort leDist _ p).mp hp)
      refine ⟨⟨hdc0, ?_, ?_, stableSort_distSorted _⟩, ?_⟩
      · intro p hp
        exact hIcv p ((mem_stableSort leDist _ p).mp hp)
      · intro p hp
        obtain ⟨n, hn, _⟩ := hdc0 p hp
        exact ⟨n, hn⟩
      · by_cases hsv : s ∈ (initSeeds idx.distance_metric idx.nodes
            v 0 eps).vis
        · obtain ⟨d, hd⟩ := hIvc s hsv
          obtain ⟨n, hn, hdq⟩ := hIdc (s, d) hd
          rw [hsn] at hn
          have hns : sn = n := Option.some.inj hn
          subst hns
          rw [hs0] at hdq
          refine Or.inl ?_
          rw [mem_stableSort]
          simp only at hdq
          rw [hdq] at hd
          exact hd
        · refine Or.inr ⟨hsv, ?_⟩
          have hcne : (initSeeds idx.distance_metric idx.nodes v 0 eps).cand
              ≠ [] := by
            refine initSeeds_ne idx v 0 eps ?_
            rcases eps with _ | ⟨e0, rest⟩
            · exact absurd rfl hne
            · obtain ⟨n, hn⟩ := hval e0 (List.mem_cons_self e0 rest)
              exact ⟨e0, List.mem_cons_self e0 rest, n, hn, Or.inl rfl⟩
          intro habs
          apply hcne
          have := congrArg List.length habs
          rw [length_stableSort] at this
          exact List.length_eq_zero.mp this)
  rw [HNSWIndex.search_layer, heq]
  obtain ⟨⟨hdc', _, _, hsort'⟩, hclause⟩ := hP
  have hmem : (s, (0 : ℝ)) ∈ st'.cand := by
    rcases hclause with h | ⟨_, h⟩
    · exact h
    · exact absurd hdyn' h
  obtain ⟨hnn, hzero⟩ := cand_nonneg_zero idx.distance_metric idx.nodes v s
    sn hsn hs0 hpos st'.cand hdc'
  rcases hres : st'.cand with _ | ⟨p, t⟩
  · rw [hres] at hmem
    cases hmem
  · rw [hres] at hmem hsort' hnn hzero
    rcases List.mem_cons.mp hmem with h | h
    · rw [← h]
      simp
    · have hple : p.2 ≤ (0 : ℝ) := by
        have := (List.pairwise_cons.mp hsort').1 (s, 0) h
        simpa using this
      have hpge : (0 : ℝ) ≤ p.2 := hnn p (List.mem_cons_self p t)
      have hpz : p.2 = 0 := le_antisymm hple hpge
      have hps : p.1 = s := hzero p (List.mem_cons_self p t) hpz
      have hpeq : p = (s, (0 : ℝ)) := by
        rcases p with ⟨a, b⟩
        simp only at hpz hps
        rw [hpz, hps]
      rw [hpeq]
      simp

/-- C6 (amended): if the stored vector `v` at slot `s` is at distance `0`
from itself and at strictly positive distance from every other stored
vector — which holds for Euclidean whenever `v` is distinct from the other
vectors, and for cosine when additionally no other vector is parallel to
`v` and `v` is non-zero — then `search(v, k)` with `k ≥ 1` returns that
node first with distance exactly `0`. -/
theorem C6_self_query_exact {T : Type} (idx : HNSWIndex T) (v : List ℚ)
    (k s : ℕ) (sn : HNSWNode T)
    (hinv : InvEP idx) (hsym : EdgeSym idx.nodes)
    (hsn : idx.nodes[s]? = some sn) (hemb : sn.embedding = v)
    (hself : idx.distance_metric.distance v v = 0)
    (hpos : ∀ (j : ℕ) (nj : HNSWNode T), idx.nodes[j]? = some nj → j ≠ s →
      0 < idx.distance_metric.distance v nj.embedding)
    (hk : 1 ≤ k) :
    (idx.search v k)[0]? = some (sn.id, (0 : ℝ), sn.document) := by
  have hs0 : idx.distance_metric.distance v sn.embedding = 0 := by
    rw [hemb]
    exact hself
  have hnodesne : idx.nodes ≠ [] := by
    intro habs
    rw [habs] at hsn
    cases hsn
  rcases hep : idx.entry_point with _ | ep0
  · exact absurd (hinv.1.1.mp hep) hnodesne
  · obtain ⟨en, hen, hmax⟩ := hinv.1.2 ep0 hep
    have hempty : idx.nodes.isEmpty = false := by
      rcases h : idx.nodes with _ | _
      · exact absurd h hnodesne
      · rfl
    simp only [HNSWIndex.search, hep, hempty, Bool.false_eq_true, if_neg,
      not_false_iff]
    have hkey : ∀ eps2 : List ℕ, eps2 ≠ [] →
        (∀ e ∈ eps2, ∃ n : HNSWNode T, idx.nodes[e]? = some n) →
        ((idx.search_layer v eps2 0 k).map fun p =>
          match idx.nodes[p.1]? with
          | some node => (node.id, p.2, node.document)
          | none => ("", p.2, none))[0]?
          = some (sn.id, (0 : ℝ), sn.document) := by
      intro eps2 hne2 hval2
      have hhead := search_layer_zero_head idx v eps2 k s sn hsn hs0 hpos hk
        hne2 hval2
      rw [List.getElem?_map, hhead]
      simp [hsn]
    refine hkey _ ?_ ?_
    · by_cases hml : (idx.nodes.map fun node =>
          node.connections.length - 1).foldl max 0 = 0
      · rw [if_pos hml]
        exact List.cons_ne_nil ep0 []
      · rw [if_neg hml]
        refine (search_chain_valid idx v hsym
          ((idx.nodes.map fun node => node.connections.length - 1).foldl max 0)
          [ep0] (List.cons_ne_nil ep0 []) ?_).1
        intro e he
        have he' : e = ep0 := List.mem_singleton.mp he
        rw [he']
        refine ⟨en, hen, ?_⟩
        rcases foldlMax_eq_or_mem
            (idx.nodes.map fun node => node.connections.length - 1) 0 with
          h0 | hmem
        · exact absurd h0 hml
        · obtain ⟨nd, hndmem, hndeq⟩ := List.mem_map.mp hmem
          obtain ⟨j, hj⟩ := List.mem_iff_getElem?.mp hndmem
          have h1 := hmax j nd hj
          have h2 : en.connections ≠ [] := hinv.2 ep0 en hen
          have h3 : 0 < en.connections.length := List.length_pos.mpr h2
          simp only [nodeLevel] at h1
          omega
    · by_cases hml : (idx.nodes.map fun node =>
          node.connections.length - 1).foldl max 0 = 0
      · rw [if_pos hml]
        intro e he
        have he' : e = ep0 := List.mem_singleton.mp he
        rw [he']
        exact ⟨en, hen⟩
      · rw [if_neg hml]
        refine (search_chain_valid idx v hsym
          ((idx.nodes.map fun node => node.connections.length - 1).foldl max 0)
          [ep0] (List.cons_ne_nil ep0 []) ?_).2
        intro e he
        have he' : e = ep0 := List.mem_singleton.mp he
        rw [he']
        refine ⟨en, hen, ?_⟩
        rcases foldlMax_eq_or_mem
            (idx.nodes.map fun node => node.connections.length - 1) 0 with
          h0 | hmem
        · exact absurd h0 hml
        · obtain ⟨nd, hndmem, hndeq⟩ := List.mem_map.mp hmem
          obtain ⟨j, hj⟩ := List.mem_iff_getElem?.mp hndmem
          have h1 := hmax j nd hj
          have h2 : en.connections ≠ [] := hinv.2 ep0 en hen
          have h3 : 0 < en.connections.length := List.length_pos.mpr h2
          simp only [nodeLevel] at h1
          omega

theorem C6_self_query_exact_witness :
    (InvEP wIdxA ∧ EdgeSym wIdxA.nodes ∧ wIdxA.nodes[0]? = some w5nodeA ∧
      w5nodeA.embedding = [1, 2, 3] ∧
      wIdxA.distance_metric.distance [1, 2, 3] [1, 2, 3] = 0 ∧
      (∀ (j : ℕ) (nj : HNSWNode ℕ), wIdxA.nodes[j]? = some nj → j ≠ 0 →
        0 < wIdxA.distance_metric.distance [1, 2, 3] nj.embedding) ∧
      (1 : ℕ) ≤ 1) ∧
    (wIdxA.search [1, 2, 3] 1)[0]?
      = some (w5nodeA.id, (0 : ℝ), w5nodeA.document) := by
  have hInv : InvEP wIdxA :=
    insert_preserves_InvEP (HNSWIndex.new ℕ 3 2 2) "a" [1, 2, 3] none 0
      (new_InvEP ℕ 3 2 2)
  have hSym : EdgeSym wIdxA.nodes :=
    insert_preserves_EdgeSym (HNSWIndex.new ℕ 3 2 2) "a" [1, 2, 3] none 0
      (new_EdgeSym ℕ 3 2 2) (new_InvEP ℕ 3 2 2).2
  have hSelf : wIdxA.distance_metric.distance [1, 2, 3] [1, 2, 3] = 0 := by
    show DistanceMetric.euclidean.distance [1, 2, 3] [1, 2, 3] = 0
    exact euclid_dist_self [1, 2, 3]
  have hPos : ∀ (j : ℕ) (nj : HNSWNode ℕ), wIdxA.nodes[j]? = some nj →
      j ≠ 0 → 0 < wIdxA.distance_metric.distance [1, 2, 3] nj.embedding := by
    intro j nj hj hj0
    have hj' : ([w5nodeA] : List (HNSWNode ℕ))[j]? = some nj := hj
    rcases j with _ | j
    · exact absurd rfl hj0
    · simp at hj'
  exact ⟨⟨hInv, hSym, rfl, rfl, hSelf, hPos, le_rfl⟩,
    C6_self_query_exact wIdxA [1, 2, 3] 1 0 w5nodeA hInv hSym rfl rfl hSelf
      hPos le_rfl⟩

def w6nodeA : HNSWNode ℕ := ⟨"a", [2], none, [[]]⟩

def w6nodeB : HNSWNode ℕ := ⟨"b", [1], none, [[]]⟩

/-- A cosine index holding `"a" ↦ [2]`, then `"b" ↦ [1]` (both at level 0). -/
noncomputable def w6idxA : HNSWIndex ℕ :=
  ((HNSWIndex.new_with_distance ℕ 1 2 2 DistanceMetric.cosine).insert
    "a" [2] none 0).1

noncomputable def w6idx : HNSWIndex ℕ := (w6idxA.insert "b" [1] none 0).1

theorem cosine_12 : DistanceMetric.cosine.distance [1] [2] = 0 := by
  rw [DistanceMetric.distance]
  have h1 : sqSum [1] = 1 := by
    simp [sqSum]
  have h2 : sqSum [2] = 4 := by
    rw [sqSum]
    norm_num
  have hd : dotSum [1] [2] = 2 := by
    rw [dotSum]
    norm_num
  rw [h1, h2, hd, Real.sqrt_one,
    show (4 : ℝ) = 2 ^ 2 by norm_num, Real.sqrt_sq (by norm_num : (0:ℝ) ≤ 2)]
  rw [if_neg (by norm_num)]
  norm_num

theorem cosine_11 : DistanceMetric.cosine.distance [1] [1] = 0 := by
  refine cosine_dist_self [1] ?_
  rw [sqSum]
  norm_num

theorem select_neighbors_nil {T : Type} (idx : HNSWIndex T) (m : ℕ) :
    idx.select_neighbors [] m = [] := by
  rw [HNSWIndex.select_neighbors.eq_def]
  simp

theorem chain_fold_nil {T : Type} (idx : HNSWIndex T) (q : List ℚ)
    (layers : List ℕ) :
    layers.foldl
      (fun eps layer =>
        if eps ≠ [] then (idx.search_layer q eps layer 1).map Prod.fst
        else eps) [] = [] := by
  induction layers with
  | nil => rfl
  | cons L rest ih =>
      simp only [List.foldl_cons]
      rw [if_neg (by simp)]
      exact ih

theorem w6_htop : topChain (pushIdx w6idxA "b" [1] none 0) [1] 0 0 = [] := by
  rw [topChain]
  have hml : (pushIdx w6idxA "b" [1] none 0).max_layers = 10 := by
    show maxLayersValue = 10
    exact maxLayersValue_eq
  rw [hml]
  rw [descRange_peel 1 9 (by omega)]
  rw [List.foldl_cons]
  rw [if_pos (by simp)]
  rw [search_layer_seed_skip (pushIdx w6idxA "b" [1] none 0) [1] 0 9 1
    w6nodeA (by omega) rfl (by decide)]
  exact chain_fold_nil (pushIdx w6idxA "b" [1] none 0) [1] (descRange 1 9)

/-- The value of `w6idx`, spelled out. -/
noncomputable def w6I : HNSWIndex ℕ :=
  { nodes := [w6nodeA, w6nodeB], node_id_to_index := [("b", 1), ("a", 0)],
    max_layers := maxLayersValue, m := 2, m_max := 2, ef_construction := 2,
    ml := 1 / Real.log 2, entry_point := some 0,
    distance_metric := DistanceMetric.cosine }

theorem w6idx_eq : w6idx = w6I := by
  rw [w6idx]
  rw [insert_eq_nonfirst w6idxA "b" [1] none 0 0 rfl rfl]
  dsimp only
  have hlen : w6idxA.nodes.length = 1 := rfl
  rw [hlen, w6_htop, insertDescend]
  have h01 : descRange 0 1 = [0] := rfl
  rw [h01, List.foldl_cons, List.foldl_nil, connectAtLayer]
  dsimp only
  rw [search_layer_nil_eps, select_neighbors_nil]
  rw [promoteEP, if_neg (by omega)]
  rfl

theorem w6I_search_layer : w6I.search_layer [1] [0] 0 1 = [(0, (0 : ℝ))] := by
  have hinit : initSeeds w6I.distance_metric w6I.nodes [1] 0 [0]
      = ⟨[(0, (0 : ℝ))], [], [0]⟩ := by
    have h1 : initSeeds w6I.distance_metric w6I.nodes [1] 0 [0]
        = ⟨[(0, w6I.distance_metric.distance [1] w6nodeA.embedding)], [], [0]⟩ := by
      simp [initSeeds, show w6I.nodes[0]? = some w6nodeA from rfl]
    rw [h1]
    rw [show w6I.distance_metric.distance [1] w6nodeA.embedding
      = DistanceMetric.cosine.distance [1] [2] from rfl, cosine_12]
  have hpc : pushCond 1 [(0, (0 : ℝ))]
      (DistanceMetric.cosine.distance [1] [1]) = false := by
    rw [pushCond]
    rw [show decide (([(0, (0 : ℝ))] : List (ℕ × ℝ)).length < 1) = false
      from by decide]
    rw [show ([(0, (0 : ℝ))] : List (ℕ × ℝ)).getLast? = some (0, 0) from rfl]
    dsimp only
    rw [cosine_11]
    rw [decide_eq_false (lt_irrefl (0 : ℝ))]
    rfl
  have hproc : processNeighbor w6I.distance_metric w6I.nodes [1] 1
      w6I.ef_construction ⟨[(0, (0 : ℝ))], [], [0]⟩ 1
      = ⟨[(0, (0 : ℝ))], [], [1, 0]⟩ := by
    rw [processNeighbor]
    rw [if_neg (by decide)]
    rw [show w6I.nodes[1]? = some w6nodeB from rfl]
    dsimp only
    rw [show w6I.distance_metric.distance [1] w6nodeB.embedding
      = DistanceMetric.cosine.distance [1] [1] from rfl]
    rw [if_neg (by rw [hpc]; exact Bool.false_ne_true)]
  have hloop2 : searchLoop w6I.distance_metric w6I.nodes [1] 0 1
      w6I.ef_construction ⟨[(0, (0 : ℝ))], [], [1, 0]⟩ = [(0, (0 : ℝ))] := by
    rw [searchLoop.eq_def]
  have hloop1 : searchLoop w6I.distance_metric w6I.nodes [1] 0 1
      w6I.ef_construction ⟨[(0, (0 : ℝ))], [(0, (0 : ℝ))], [0]⟩
      = [(0, (0 : ℝ))] := by
    rw [searchLoop.eq_def]
    dsimp only
    rw [show w6I.nodes[0]? = some w6nodeA from rfl]
    dsimp only
    rw [show layerNeighbors w6I.nodes 0 0 w6nodeA = [1] from rfl]
    rw [List.foldl_cons, List.foldl_nil, hproc]
    exact hloop2
  rw [HNSWIndex.search_layer, hinit]
  dsimp only
  rw [show stableSort leDist [(0, (0 : ℝ))] = [(0, (0 : ℝ))] from rfl]
  exact hloop1

theorem w6search : w6idx.search [1] 1 = [("a", (0 : ℝ), none)] := by
  rw [w6idx_eq]
  rw [HNSWIndex.search]
  rw [show w6I.entry_point = some 0 from rfl]
  dsimp only
  rw [show w6I.nodes.isEmpty = false from rfl]
  rw [if_neg (by exact Bool.false_ne_true)]
  rw [show ((w6I.nodes.map fun node => node.connections.length - 1).foldl
    max 0) = 0 from rfl]
  rw [if_pos rfl]
  rw [w6I_search_layer]
  rfl

/-- C6 counterexample: under the cosine metric the vector `[1]`, stored under
`"b"` and distinct from the only other stored vector `[2]`, is not returned
as result 0 of `search([1], 1)`: the parallel vector `[2]` (node `"a"`) also
has cosine distance `0` and is returned first. -/
theorem C6_counterexample_cosine_parallel :
    w6idx.node_id_to_index.lookup "b" = some 1 ∧
    (w6idx.nodes.map fun nd => nd.embedding) = [[2], [1]] ∧
    w6idx.search [1] 1 = [("a", (0 : ℝ), none)] := by
  refine ⟨?_, ?_, w6search⟩
  · rw [w6idx_eq]
    rfl
  · rw [w6idx_eq]
    rfl

/-! ### C2: a self-loop created by a sequential insert -/

/-- A layer search whose single seed participates in the layer but has an
empty connection row there returns exactly the seed with its distance. -/
theorem search_layer_single_empty {T : Type} (idx : HNSWIndex T) (q : List ℚ)
    (ep layer k : ℕ) (node : HNSWNode T) (hlayer : layer ≠ 0)
    (hget : idx.nodes[ep]? = some node)
    (hpart : layer < node.connections.length)
    (hrow : node.connections.getD layer [] = []) :
    idx.search_layer q [ep] layer k
      = [(ep, idx.distance_metric.distance q node.embedding)] := by
  have hinit : initSeeds idx.distance_metric idx.nodes q layer [ep]
      = ⟨[(ep, idx.distance_metric.distance q node.embedding)], [], [ep]⟩ := by
    simp [initSeeds, hget, hpart]
  have hnb : layerNeighbors idx.nodes layer ep node = [] := by
    rw [layerNeighbors, if_neg hlayer, if_pos hpart]
    exact hrow
  rw [HNSWIndex.search_layer, hinit]
  dsimp only
  rw [show stableSort leDist
      [(ep, idx.distance_metric.distance q node.embedding)]
    = [(ep, idx.distance_metric.distance q node.embedding)] from rfl]
  rw [searchLoop.eq_def]
  dsimp only
  rw [hget]
  dsimp only
  rw [hnb, List.foldl_nil]
  rw [searchLoop.eq_def]

/-- Entry-point chain steps over layers at which the single seed has an empty
connection row keep the entry list equal to that seed. -/
theorem chain_const_empty_rows {T : Type} (idx : HNSWIndex T) (q : List ℚ)
    (ep : ℕ) (node : HNSWNode T) (hget : idx.nodes[ep]? = some node)
    (layers : List ℕ)
    (hrows : ∀ L ∈ layers, L ≠ 0 ∧ L < node.connections.length ∧
      node.connections.getD L [] = []) :
    layers.foldl
      (fun eps layer =>
        if eps ≠ [] then (idx.search_layer q eps layer 1).map Prod.fst
        else eps) [ep] = [ep] := by
  induction layers with
  | nil => rfl
  | cons L rest ih =>
      obtain ⟨h1, h2, h3⟩ := hrows L (List.mem_cons_self L rest)
      simp only [List.foldl_cons]
      rw [if_pos (by simp)]
      rw [search_layer_single_empty idx q ep L 1 node h1 hget h2 h3]
      rw [show ([(ep, idx.distance_metric.distance q node.embedding)].map
          Prod.fst) = [ep] from rfl]
      exact ih fun L2 hL2 => hrows L2 (List.mem_cons_of_mem L hL2)

theorem euclid_30 : DistanceMetric.euclidean.distance [3] [0] = 3 := by
  have h : DistanceMetric.euclidean.distance [3] [0]
      = Real.sqrt (sqDiffSum [3] [0]) := rfl
  have h9 : sqDiffSum [3] [0] = 9 := by
    rw [sqDiffSum]
    norm_num
  rw [h, h9, show (9 : ℝ) = 3 ^ 2 by norm_num,
    Real.sqrt_sq (by norm_num : (0 : ℝ) ≤ 3)]

def w2nodeA : HNSWNode ℕ := ⟨"a", [0], none, List.replicate 10 []⟩

def w2nodeB : HNSWNode ℕ := ⟨"b", [3], none, [[]]⟩

/-- Node `"a"` after the buggy layer-0 connect: it gained the back-link to
slot 1. -/
def w2nodeA2 : HNSWNode ℕ :=
  ⟨"a", [0], none, (List.replicate 10 ([] : List ℕ)).set 0 [1]⟩

/-- Node `"b"` after the buggy layer-0 connect: its layer-0 row is `[1, 0]`,
which contains `1` — the slot of `"b"` itself. -/
def w2nodeB2 : HNSWNode ℕ := ⟨"b", [3], none, [[1, 0]]⟩

/-- A Euclidean index holding `"a" ↦ [0]` at level 9. -/
noncomputable def w2idxA : HNSWIndex ℕ :=
  ((HNSWIndex.new ℕ 1 2 2).insert "a" [0] none 9).1

/-- The same index after the level-0 insert `"b" ↦ [3]`. -/
noncomputable def w2idx : HNSWIndex ℕ := (w2idxA.insert "b" [3] none 0).1

/-- The intermediate index with both nodes stored but not yet linked. -/
noncomputable def w2J : HNSWIndex ℕ :=
  { nodes := [w2nodeA, w2nodeB], node_id_to_index := [("b", 1), ("a", 0)],
    max_layers := maxLayersValue, m := 2, m_max := 2, ef_construction := 2,
    ml := 1 / Real.log 2, entry_point := some 0,
    distance_metric := DistanceMetric.euclidean }

/-- The value of `w2idx`, spelled out. -/
noncomputable def w2I : HNSWIndex ℕ :=
  { nodes := [w2nodeA2, w2nodeB2], node_id_to_index := [("b", 1), ("a", 0)],
    max_layers := maxLayersValue, m := 2, m_max := 2, ef_construction := 2,
    ml := 1 / Real.log 2, entry_point := some 0,
    distance_metric := DistanceMetric.euclidean }

theorem w2_htop : topChain w2J [3] 0 0 = [0] := by
  rw [topChain]
  rw [show w2J.max_layers = 10 from maxLayersValue_eq]
  refine chain_const_empty_rows w2J [3] 0 w2nodeA rfl (descRange 1 10) ?_
  intro L hL
  rw [show descRange 1 10 = [9, 8, 7, 6, 5, 4, 3, 2, 1] from rfl] at hL
  fin_cases hL <;> exact ⟨by decide, by decide, rfl⟩

theorem leDist_30_false : leDist (0, (3 : ℝ)) (1, (0 : ℝ)) = false := by
  rw [leDist]
  exact decide_eq_false (by norm_num)

theorem w2sort : stableSort leDist [(0, (3 : ℝ)), (1, (0 : ℝ))]
    = [(1, (0 : ℝ)), (0, (3 : ℝ))] := by
  rw [stableSort]
  simp only [List.foldl_cons, List.foldl_nil]
  rw [show stableInsert leDist (0, (3 : ℝ)) [] = [(0, (3 : ℝ))] from rfl]
  rw [show stableInsert leDist (1, (0 : ℝ)) [(0, (3 : ℝ))]
      = if leDist (0, (3 : ℝ)) (1, (0 : ℝ)) then
          (0, (3 : ℝ)) :: stableInsert leDist (1, (0 : ℝ)) []
        else [(1, (0 : ℝ)), (0, (3 : ℝ))] from rfl]
  rw [if_neg (by rw [leDist_30_false]; exact Bool.false_ne_true)]

theorem w2pushCond : pushCond 2 [(0, (3 : ℝ))] 0 = true := by
  rw [pushCond]
  rw [show decide (([(0, (3 : ℝ))] : List (ℕ × ℝ)).length < 2) = true
    from by decide]
  rfl

theorem w2proc1 : processNeighbor w2J.distance_metric w2J.nodes [3] 2
    w2J.ef_construction ⟨[(0, (3 : ℝ))], [], [0]⟩ 1
    = ⟨[(1, (0 : ℝ)), (0, (3 : ℝ))], [(1, (0 : ℝ))], [1, 0]⟩ := by
  rw [processNeighbor]
  rw [if_neg (by decide)]
  rw [show w2J.nodes[1]? = some w2nodeB from rfl]
  dsimp only
  rw [show w2J.distance_metric.distance [3] w2nodeB.embedding = (0 : ℝ) from
    euclid_dist_self [3]]
  rw [if_pos (by rw [w2pushCond])]
  rw [show ([(0, (3 : ℝ))] ++ [(1, (0 : ℝ))] : List (ℕ × ℝ))
      = [(0, (3 : ℝ)), (1, (0 : ℝ))] from rfl]
  rw [w2sort]
  rw [show (([] : List (ℕ × ℝ)) ++ [(1, (0 : ℝ))]) = [(1, (0 : ℝ))] from rfl]
  rw [show stableSort leDist [(1, (0 : ℝ))] = [(1, (0 : ℝ))] from rfl]
  rw [show w2J.ef_construction = 2 from rfl]
  rw [if_neg (show ¬ (2 < ([(1, (0 : ℝ)), (0, (3 : ℝ))] :
    List (ℕ × ℝ)).length) from by decide)]
  rw [if_neg (show ¬ (2 < ([(1, (0 : ℝ))] : List (ℕ × ℝ)).length)
    from by decide)]

theorem w2proc0 : processNeighbor w2J.distance_metric w2J.nodes [3] 2
    w2J.ef_construction ⟨[(1, (0 : ℝ)), (0, (3 : ℝ))], [], [1, 0]⟩ 0
    = ⟨[(1, (0 : ℝ)), (0, (3 : ℝ))], [], [1, 0]⟩ := by
  rw [processNeighbor]
  rw [if_pos (by decide)]

theorem w2loop3 : searchLoop w2J.distance_metric w2J.nodes [3] 0 2
    w2J.ef_construction ⟨[(1, (0 : ℝ)), (0, (3 : ℝ))], [], [1, 0]⟩
    = [(1, (0 : ℝ)), (0, (3 : ℝ))] := by
  rw [searchLoop.eq_def]

theorem w2loop2 : searchLoop w2J.distance_metric w2J.nodes [3] 0 2
    w2J.ef_construction
      ⟨[(1, (0 : ℝ)), (0, (3 : ℝ))], [(1, (0 : ℝ))], [1, 0]⟩
    = [(1, (0 : ℝ)), (0, (3 : ℝ))] := by
  rw [searchLoop.eq_def]
  dsimp only
  rw [show w2J.nodes[1]? = some w2nodeB from rfl]
  dsimp only
  rw [show layerNeighbors w2J.nodes 0 1 w2nodeB = [0] from rfl]
  rw [List.foldl_cons, List.foldl_nil, w2proc0]
  exact w2loop3

theorem w2loop1 : searchLoop w2J.distance_metric w2J.nodes [3] 0 2
    w2J.ef_construction ⟨[(0, (3 : ℝ))], [(0, (3 : ℝ))], [0]⟩
    = [(1, (0 : ℝ)), (0, (3 : ℝ))] := by
  rw [searchLoop.eq_def]
  dsimp only
  rw [show w2J.nodes[0]? = some w2nodeA from rfl]
  dsimp only
  rw [show layerNeighbors w2J.nodes 0 0 w2nodeA = [1] from rfl]
  rw [List.foldl_cons, List.foldl_nil, w2proc1]
  exact w2loop2

theorem w2searchL : w2J.search_layer [3] [0] 0 2
    = [(1, (0 : ℝ)), (0, (3 : ℝ))] := by
  have hinit : initSeeds w2J.distance_metric w2J.nodes [3] 0 [0]
      = ⟨[(0, (3 : ℝ))], [], [0]⟩ := by
    have h1 : initSeeds w2J.distance_metric w2J.nodes [3] 0 [0]
        = ⟨[(0, w2J.distance_metric.distance [3] w2nodeA.embedding)], [],
           [0]⟩ := by
      simp [initSeeds, show w2J.nodes[0]? = some w2nodeA from rfl]
    rw [h1, show w2J.distance_metric.distance [3] w2nodeA.embedding
      = (3 : ℝ) from euclid_30]
  rw [HNSWIndex.search_layer, hinit]
  dsimp only
  rw [show stableSort leDist [(0, (3 : ℝ))] = [(0, (3 : ℝ))] from rfl]
  exact w2loop1

theorem w2idx_eq : w2idx = w2I := by
  rw [w2idx]
  rw [insert_eq_nonfirst w2idxA "b" [3] none 0 0 rfl rfl]
  dsimp only
  rw [show w2idxA.nodes.length = 1 from rfl]
  rw [show pushIdx w2idxA "b" [3] none 0 = w2J from rfl]
  rw [w2_htop, insertDescend]
  rw [show descRange 0 1 = [0] from rfl, List.foldl_cons, List.foldl_nil,
    connectAtLayer]
  dsimp only
  rw [show (if 0 = 0 then w2J.m_max else w2J.m) = 2 from rfl]
  rw [show w2J.ef_construction = 2 from rfl]
  rw [w2searchL]
  have hsel : w2J.select_neighbors [(1, (0 : ℝ)), (0, (3 : ℝ))] 2
      = [1, 0] := by
    rw [HNSWIndex.select_neighbors.eq_def]
    rw [if_pos (show ([(1, (0 : ℝ)), (0, (3 : ℝ))] :
      List (ℕ × ℝ)).length ≤ 2 from by decide)]
    rfl
  rw [hsel]
  rw [promoteEP]
  rw [if_neg (by omega)]
  rfl

/-- C2: refuted — the source violates the no-self-loop invariant.  On a
Euclidean index `new(dim 1, M 2, ef_construction 2)` holding `"a" ↦ [0]` at
level 9, the sequential insert of `"b" ↦ [3]` at drawn level 0 succeeds, and
afterwards node `"b"` (slot 1) has `connections[0] = [1, 0]`, which contains
its own slot `1`.  The node is pushed into storage before the layer-0 search,
whose all-slots fallback then offers the new node (at distance 0) as its own
neighbor candidate; `select_neighbors` keeps it and the final row assignment
writes the self-loop. -/
theorem C2_no_self_loops :
    (w2idxA.insert "b" [3] none 0).2 = Except.ok () ∧
    w2idx.node_id_to_index.lookup "b" = some 1 ∧
    ∃ nd : HNSWNode ℕ, w2idx.nodes[1]? = some nd ∧
      1 ∈ nd.connections.getD 0 [] := by
  refine ⟨?_, ?_, w2nodeB2, ?_, ?_⟩
  · rw [insert_eq_nonfirst w2idxA "b" [3] none 0 0 rfl rfl]
  · rw [w2idx_eq]
    rfl
  · rw [w2idx_eq]
    rfl
  · decide
